import Mathlib

/-!
# libcalgo: the separately chained hash table of `src/htable.c`

A shallow embedding of `htable.c` / `htable.h` (and of the demo hash function of
`main.c`) together with theorems about it.

## Memory model

* Every `htable_bucket_t` that `make_bucket` allocates lives in an arena
  `heap : List Bucket`; the address of a bucket is its index in the arena and a
  `htable_bucket_t *` is an `Option Nat` (`none` is `NULL`).  `malloc` is taken
  to succeed and to return a fresh cell (the next index).  No function of
  `htable.c` frees a bucket, so cells are never removed.
* The slot array `htab->buckets` is a `List (Option Nat)` held in the table
  record; `calloc` is taken to succeed.
* A `htable_bucket_t **` (the `ref` of `find`, the `search` of `insert_bucket`)
  is a `Ref`: the address of a slot of the slot array or of the `next` field of
  a bucket.
* `void * key` is the byte string it points to, `void * data` is a natural
  number with `0` for `NULL`; `lookup` and `delete` answer `0` for "not found".
* `size_t` values are natural numbers.  `size` counts 8-byte slots of an array
  in memory and `entries` is bounded by the number of allocated buckets, so that
  `size * 2` and `++entries` stay below `2 ^ 64`; `--entries` is modelled with
  its wrap-around at `0`.
* Behaviour that C leaves undefined, and loops that do not end, are results of
  type `Fault`.  A loop over linked cells carries a fuel of `heap.length + 1`
  steps: the heap is not written while `find`, the search of `insert_bucket` or
  `foreach` walk, so a walk that reads more cells than the heap holds has read
  one cell twice and never ends.  The loop of `resize_table` follows a link that
  `insert_bucket` has just set to the traversal list of the new table.
* The callbacks of `foreach`, `foreach_keys` and `foreach_values` are functions
  of the arguments they are called with; they do not write the table.
* `walk`, `chain` and `order` are observers that are not part of `htable.c`: they
  read a slot chain along `next` and the traversal list along `link[1]`, as the
  example in the comment of `list` does.
-/

namespace Htable

/-- Ways in which a call does not return normally. -/
inductive Fault where
  | nullDeref
  | divByZero
  | badPointer
  | noTermination
deriving DecidableEq

/-- The bytes a `void * key` points to. -/
abbrev Key := List Nat

/-- A `htable_bucket_t *`; `none` is `NULL`. -/
abbrev Ptr := Option Nat

/-- The record `htable_bucket_t` of `htable.h`; `link0` is `link[0]` (previous),
`link1` is `link[1]` (next) of the traversal list. -/
structure Bucket where
  hash : Nat
  key : Key
  data : Nat
  next : Ptr
  link0 : Ptr
  link1 : Ptr
deriving DecidableEq

/-- The record `struct htable` of `htable.c`. -/
structure Table where
  hfunc : Key → Nat → Nat
  entries : Nat
  size : Nat
  buckets : List Ptr
  list : Ptr

/-- The bucket arena together with one table. -/
structure State where
  heap : List Bucket
  htab : Table

/-- A `htable_bucket_t **`: `&htab->buckets[i]` or `&b->next`. -/
inductive Ref where
  | slot (i : Nat)
  | next (b : Nat)
deriving DecidableEq

/-- The constant `HTAB_LOAD_MAX` of `htable.h` (`1.0`). -/
def HTAB_LOAD_MAX : Nat := 1

/-- Read the bucket at address `p`. -/
def rd (heap : List Bucket) (p : Nat) : Except Fault Bucket :=
  match heap[p]? with
  | some b => .ok b
  | none => .error .badPointer

/-- Overwrite fields of the bucket at address `p`. -/
def modify (heap : List Bucket) (p : Nat) (f : Bucket → Bucket) :
    Except Fault (List Bucket) :=
  match heap[p]? with
  | some b => .ok (heap.set p (f b))
  | none => .error .badPointer

/-- The value `*r`. -/
def readRef (heap : List Bucket) (htab : Table) : Ref → Except Fault Ptr
  | .slot i =>
    match htab.buckets[i]? with
    | some p => .ok p
    | none => .error .badPointer
  | .next b =>
    match rd heap b with
    | .ok x => .ok x.next
    | .error e => .error e

/-- The assignment `*r = v`. -/
def writeRef (heap : List Bucket) (htab : Table) (r : Ref) (v : Ptr) :
    Except Fault (List Bucket × Table) :=
  match r with
  | .slot i =>
    if i < htab.buckets.length then
      .ok (heap, { htab with buckets := htab.buckets.set i v })
    else .error .badPointer
  | .next b =>
    match modify heap b (fun x => { x with next := v }) with
    | .ok heap1 => .ok (heap1, htab)
    | .error e => .error e

/-- The constructor `new` of `htable.c`, with both allocations succeeding: a table
of `suggested_size` empty slots, no entries and an empty traversal list. -/
def new (suggested_size : Nat) (hfunc : Key → Nat → Nat) : Table :=
  { hfunc := hfunc, entries := 0, size := suggested_size,
    buckets := List.replicate suggested_size none, list := none }

/-- The do-while loop of `find`: `value` is the bucket under test and `ref` the
cell that points to it. -/
def findLoop (heap : List Bucket) (hash : Nat) : Nat → Nat → Ref → Except Fault (Ptr × Ref)
  | 0, _, _ => .error .noTermination
  | fuel + 1, value, ref =>
    match rd heap value with
    | .error e => .error e
    | .ok b =>
      if b.hash = hash then .ok (some value, ref)
      else
        match b.next with
        | none => .ok (none, .next value)
        | some nx => findLoop heap hash fuel nx (.next value)

/-- The function `find`: the first bucket of the slot chain whose cached hash is
the hash of the key, and the reference the caller's `ref` is left with (`none`
when the slot is empty and `ref` is not written). -/
def find (s : State) (key : Key) (len : Nat) : Except Fault (Ptr × Option Ref) :=
  let hash := s.htab.hfunc key len
  if s.htab.size = 0 then .error .divByZero
  else
    match s.htab.buckets[hash % s.htab.size]? with
    | none => .error .badPointer
    | some none => .ok (none, none)
    | some (some value) =>
      match findLoop s.heap hash (s.heap.length + 1) value (.slot (hash % s.htab.size)) with
      | .error e => .error e
      | .ok (v, r) => .ok (v, some r)

/-- The function `make_bucket`, with `malloc` succeeding: a new cell whose fields
other than `key`, `data` and `hash` are zero. -/
def make_bucket (s : State) (key : Key) (len : Nat) (data : Nat) : State × Nat :=
  ({ s with heap := s.heap ++
      [{ hash := s.htab.hfunc key len, key := key, data := data,
         next := none, link0 := none, link1 := none }] },
   s.heap.length)

/-- The loop `while (*search) search = &((*search)->next);` of `insert_bucket`;
the pointer argument is `*search`. -/
def searchLoop (heap : List Bucket) : Nat → Ptr → Ref → Except Fault Ref
  | _, none, search => .ok search
  | 0, some _, _ => .error .noTermination
  | fuel + 1, some a, _ =>
    match rd heap a with
    | .error e => .error e
    | .ok b => searchLoop heap fuel b.next (.next a)

/-- The function `insert_bucket`. -/
def insert_bucket (heap : List Bucket) (htab : Table) (bucket : Nat) :
    Except Fault (List Bucket × Table) := do
  let b ← rd heap bucket
  if htab.size = 0 then throw Fault.divByZero
  let slot := b.hash % htab.size
  let first ← readRef heap htab (.slot slot)
  let search ← searchLoop heap (heap.length + 1) first (.slot slot)
  -- *search = bucket; ++htab->entries;
  let (heap1, htab1) ← writeRef heap htab search (some bucket)
  let htab2 := { htab1 with entries := htab1.entries + 1 }
  -- bucket->link[1] = htab->list; htab->list = bucket;
  let heap2 ← modify heap1 bucket (fun x => { x with link1 := htab2.list })
  let htab3 := { htab2 with list := some bucket }
  -- if (bucket->link[1]) bucket->link[1]->link[0] = bucket;
  let b2 ← rd heap2 bucket
  match b2.link1 with
  | none => pure (heap2, htab3)
  | some nx =>
    let heap3 ← modify heap2 nx (fun x => { x with link0 := some bucket })
    pure (heap3, htab3)

/-- The function `load_factor`: the quotient of two `size_t` values, which is
then converted to `double`. -/
def load_factor (htab : Table) : Except Fault Nat :=
  if htab.size = 0 then .error .divByZero else .ok (htab.entries / htab.size)

/-- The loop of `resize_table` over the traversal list of the old table:
`insert_bucket(newtab, bucket); bucket = bucket->link[1];`. -/
def resizeLoop : Nat → List Bucket → Table → Ptr → Except Fault (List Bucket × Table)
  | _, heap, newtab, none => .ok (heap, newtab)
  | 0, _, _, some _ => .error .noTermination
  | fuel + 1, heap, newtab, some bucket =>
    match insert_bucket heap newtab bucket with
    | .error e => .error e
    | .ok (heap1, newtab1) =>
      match rd heap1 bucket with
      | .error e => .error e
      | .ok b => resizeLoop fuel heap1 newtab1 b.link1

/-- The function `resize_table`, with the allocation of the new table
succeeding. -/
def resize_table (s : State) : Except Fault State :=
  match load_factor s.htab with
  | .error e => .error e
  | .ok lf =>
    if lf < HTAB_LOAD_MAX then .ok s
    else
      match resizeLoop (s.heap.length + 1) s.heap (new (s.htab.size * 2) s.htab.hfunc)
          s.htab.list with
      | .error e => .error e
      | .ok (heap1, newtab) => .ok { heap := heap1, htab := newtab }

/-- The function `lookup`. -/
def lookup (s : State) (key : Key) (len : Nat) : Except Fault Nat :=
  match find s key len with
  | .error e => .error e
  | .ok (none, _) => .ok 0
  | .ok (some value, _) =>
    match rd s.heap value with
    | .error e => .error e
    | .ok b => .ok b.data

/-- The function `delete`; the result is the returned `data` and the state. -/
def delete (s : State) (key : Key) (len : Nat) : Except Fault (Nat × State) := do
  let (found, ref) ← find s key len
  match found with
  | none => pure (0, s)
  | some bucket =>
    let b ← rd s.heap bucket
    let data := b.data
    let r ← (match ref with
      | some r => Except.ok r
      | none => Except.error Fault.nullDeref)
    -- *ref = bucket->next;
    let (heap1, htab1) ← writeRef s.heap s.htab r b.next
    -- (*ref)->link[1] = bucket->link[1];
    let succ ← readRef heap1 htab1 r
    let b1 ← rd heap1 bucket
    let heap2 ← (match succ with
      | none => Except.error Fault.nullDeref
      | some q => modify heap1 q (fun x => { x with link1 := b1.link1 }))
    -- if (bucket->link[1]) bucket->link[1]->link[0] = *ref;
    let b2 ← rd heap2 bucket
    let heap3 ← (match b2.link1 with
      | none => Except.ok heap2
      | some nx =>
        match readRef heap2 htab1 r with
        | .error e => Except.error e
        | .ok p => modify heap2 nx (fun x => { x with link0 := p }))
    -- --htab->entries;
    let entries1 := if htab1.entries = 0 then 2 ^ 64 - 1 else htab1.entries - 1
    pure (data, { heap := heap3, htab := { htab1 with entries := entries1 } })

/-- The function `store`; the result is the returned `data` and the state. -/
def store (s : State) (key : Key) (len : Nat) (data : Nat) : Except Fault (Nat × State) :=
  match resize_table s with
  | .error e => .error e
  | .ok s1 =>
    match make_bucket s1 key len data with
    | (s2, bucket) =>
      match insert_bucket s2.heap s2.htab bucket with
      | .error e => .error e
      | .ok (heap3, htab3) => .ok (data, { heap := heap3, htab := htab3 })

/-- The loop shared by `foreach`, `foreach_keys` and `foreach_values`: `each` is
the call made on a bucket, and the result lists the buckets it was made on. -/
def eachLoop (heap : List Bucket) (each : Bucket → Int) : Nat → Ptr → Except Fault (List Nat)
  | _, none => .ok []
  | 0, some _ => .error .noTermination
  | fuel + 1, some p =>
    match rd heap p with
    | .error e => .error e
    | .ok b =>
      if each b = 0 then .ok [p]
      else
        match eachLoop heap each fuel b.link1 with
        | .error e => .error e
        | .ok rest => .ok (p :: rest)

/-- The function `foreach`: the buckets `each` was called on, in call order, and
the state the call leaves. -/
def foreach (s : State) (each : Key → Nat → Int) : Except Fault (List Nat × State) :=
  match eachLoop s.heap (fun b => each b.key b.data) (s.heap.length + 1) s.htab.list with
  | .error e => .error e
  | .ok calls => .ok (calls, s)

/-- The function `foreach_keys`. -/
def foreach_keys (s : State) (each : Key → Int) : Except Fault (List Nat × State) :=
  match eachLoop s.heap (fun b => each b.key) (s.heap.length + 1) s.htab.list with
  | .error e => .error e
  | .ok calls => .ok (calls, s)

/-- The function `foreach_values`. -/
def foreach_values (s : State) (each : Nat → Int) : Except Fault (List Nat × State) :=
  match eachLoop s.heap (fun b => each b.data) (s.heap.length + 1) s.htab.list with
  | .error e => .error e
  | .ok calls => .ok (calls, s)

/-- The accessor `list`. -/
def list (s : State) : Ptr := s.htab.list

/-- The accessor `size`. -/
def size (s : State) : Nat := s.htab.size

/-- The accessor `entries`. -/
def entries (s : State) : Nat := s.htab.entries

/-- The accessor `hfunc`. -/
def hfunc (s : State) : Key → Nat → Nat := s.htab.hfunc

/-- The hash function `myhashfunc` of `main.c` on a 64-bit `size_t` (its `printf`
left out): `hash = (hash << 1) + byte` over the first `len` bytes, from 5831. -/
def myhashfunc (key : Key) (len : Nat) : Nat :=
  (key.take len).foldl (fun hash byte => ((hash * 2) % 2 ^ 64 + byte) % 2 ^ 64) 5831

/-- The state a caller holds after `new(n, h)`: no bucket allocated yet. -/
def fresh (n : Nat) (h : Key → Nat → Nat) : State := { heap := [], htab := new n h }

/-- A sequence of `store(key, len, data)` calls, the returned pointers dropped. -/
def stores (s : State) : List (Key × Nat × Nat) → Except Fault State
  | [] => .ok s
  | (key, len, data) :: rest =>
    match store s key len data with
    | .error e => .error e
    | .ok (_, s1) => stores s1 rest

/-! ## Predicates and abstractions used in the proofs -/

/-- Following the field `f` from the pointer `p` passes the cells `l`, in order,
and then reaches `NULL`. -/
def Linked (f : Bucket → Ptr) (heap : List Bucket) : Ptr → List Nat → Prop
  | p, [] => p = none
  | p, a :: t => p = some a ∧ ∃ b, heap[a]? = some b ∧ Linked f heap (f b) t

/-- The bucket stored at an address (a zero bucket outside the arena). -/
def bucketAt (heap : List Bucket) (a : Nat) : Bucket :=
  heap.getD a ⟨0, [], 0, none, none, none⟩

/-- The reference the search of `insert_bucket` ends on: the `next` field of the
last cell of the chain, or the starting reference for an empty chain. -/
def lastRef : Ref → List Nat → Ref
  | r, [] => r
  | _, a :: t => lastRef (.next a) t

/-- The heap `heap1` is `heap` with the bucket at every address `x` replaced by
`g x` of it. -/
def Mapped (g : Nat → Bucket → Bucket) (heap heap1 : List Bucket) : Prop :=
  ∀ x, heap1[x]? = (heap[x]?).map (g x)

/-- The field updates `insert_bucket` makes when it links the bucket `a` behind
the last cell `z` of its slot chain and in front of the traversal list `hd`. -/
def linkUpd (a : Nat) (z : Option Nat) (hd : Ptr) (x : Nat) (y : Bucket) : Bucket :=
  let y1 := if some x = z then { y with next := some a } else y
  let y2 := if x = a then { y1 with link1 := hd } else y1
  if some x = hd then { y2 with link0 := some a } else y2

/-- The cells of `ord` (the traversal list, newest first) that belong to slot `i`,
oldest first. -/
def chainOf (heap : List Bucket) (size : Nat) (ord : List Nat) (i : Nat) : List Nat :=
  ord.reverse.filter (fun a => decide ((bucketAt heap a).hash % size = i))

/-- The table `htab` over `heap` holds exactly the cells `ord`: they form its
traversal list, each slot chain holds the cells of its slot in insertion order,
and `entries` counts them. -/
structure WF (heap : List Bucket) (htab : Table) (ord : List Nat) : Prop where
  size_pos : 0 < htab.size
  slots : htab.buckets.length = htab.size
  order : Linked Bucket.link1 heap htab.list ord
  chains : ∀ i, i < htab.size →
    Linked Bucket.next heap (htab.buckets.getD i none) (chainOf heap htab.size ord i)
  count : htab.entries = ord.length

/-- The hash, key and data of every allocated bucket are the same in both heaps. -/
def SameCore (heap heap1 : List Bucket) : Prop :=
  ∀ (x : Nat) (b : Bucket), heap[x]? = some b →
    ∃ b1 : Bucket, heap1[x]? = some b1 ∧ b1.hash = b.hash ∧ b1.key = b.key ∧ b1.data = b.data

/-- The tables a caller reaches from `new(n, h)` by calls of `store`. -/
inductive Reach (n : Nat) (h : Key → Nat → Nat) : State → Prop where
  | new : Reach n h (fresh n h)
  | store {s s1 : State} {key : Key} {len data d : Nat} :
      Reach n h s → store s key len data = .ok (d, s1) → Reach n h s1

/-- The calls a traversal makes on the traversal list `ord` when `cont` tells on
which cells the predicate answers true: the cells before the first stop and the
cell of the first stop. -/
def callsUpToFirstStop (cont : Nat → Bool) (ord : List Nat) : List Nat :=
  ord.takeWhile cont ++ (ord.dropWhile cont).take 1

/-- The table a caller holds after `new(n, h)` and the given stores (the fresh
table, should a store not return). -/
def built (n : Nat) (h : Key → Nat → Nat) (cmds : List (Key × Nat × Nat)) : State :=
  match stores (fresh n h) cmds with
  | .ok s => s
  | .error _ => fresh n h

/-- The cells met by following the field `f` from the pointer `p` up to `NULL`. -/
def walk (f : Bucket → Ptr) (heap : List Bucket) : Nat → Ptr → Except Fault (List Nat)
  | _, none => .ok []
  | 0, some _ => .error .noTermination
  | fuel + 1, some a =>
    match rd heap a with
    | .error e => .error e
    | .ok b =>
      match walk f heap fuel (f b) with
      | .error e => .error e
      | .ok rest => .ok (a :: rest)

/-- The chain of slot `i`: the buckets reached from `htab->buckets[i]` along
`next`, in chain order. -/
def chain (s : State) (i : Nat) : Except Fault (List Nat) :=
  match s.htab.buckets[i]? with
  | none => .error .badPointer
  | some p => walk Bucket.next s.heap (s.heap.length + 1) p

/-- The traversal list: the buckets reached from `htab->list` along `link[1]`. -/
def order (s : State) : Except Fault (List Nat) :=
  walk Bucket.link1 s.heap (s.heap.length + 1) s.htab.list

/-- The tables a caller reaches from `new(n, h)` by calls of `store` and `delete`
that return. -/
inductive Reachable (n : Nat) (h : Key → Nat → Nat) : State → Prop where
  | new : Reachable n h (fresh n h)
  | store {s s1 : State} {key : Key} {len data d : Nat} :
      Reachable n h s → store s key len data = .ok (d, s1) → Reachable n h s1
  | delete {s s1 : State} {key : Key} {len d : Nat} :
      Reachable n h s → delete s key len = .ok (d, s1) → Reachable n h s1

/-- The shape of every table a caller can hold: each slot chain is a
null-terminated chain of buckets whose hashes belong to the slot, the head of the
traversal list ends its chain, every cached hash is a hash of the key of its
bucket, `link[1]` points to a bucket allocated earlier and `next` to one allocated
later. -/
structure Shape (heap : List Bucket) (htab : Table) : Prop where
  size_pos : 0 < htab.size
  slots : htab.buckets.length = htab.size
  chains : ∀ i, i < htab.size →
    ∃ c, Linked Bucket.next heap (htab.buckets.getD i none) c ∧
      ∀ a ∈ c, (bucketAt heap a).hash % htab.size = i
  head : ∀ hd, htab.list = some hd → ∃ b, heap[hd]? = some b ∧ b.next = none
  hashes : ∀ (x : Nat) (b : Bucket), heap[x]? = some b → ∃ len, b.hash = htab.hfunc b.key len
  older : ∀ (x : Nat) (b : Bucket), heap[x]? = some b → ∀ y, b.link1 = some y → y < x
  newer : ∀ (x : Nat) (b : Bucket), heap[x]? = some b → ∀ y, b.next = some y → x < y

/-- The field updates `delete` makes when it unlinks a bucket whose chain
predecessor is `xo` (`none` for the slot itself), whose chain successor is `nx` and
whose `link[1]` is `l1`. -/
def unlinkUpd (xo : Option Nat) (nx : Nat) (l1 : Ptr) (x : Nat) (y : Bucket) : Bucket :=
  let y1 := if some x = xo then { y with next := some nx } else y
  let y2 := if x = nx then { y1 with link1 := l1 } else y1
  if some x = l1 then { y2 with link0 := some nx } else y2

/-- The table a caller holds after `new(n, h)`, the given stores and one
`delete(key, len)` (the table before the delete, should the delete not return). -/
def builtDel (n : Nat) (h : Key → Nat → Nat) (cmds : List (Key × Nat × Nat)) (key : Key)
    (len : Nat) : State :=
  match delete (built n h cmds) key len with
  | .ok (_, s) => s
  | .error _ => built n h cmds

/-- The tables a caller reaches from `new(n, h)` by calls of `store` and `delete`
that return, together with the log of the `store(key, len, data)` calls made so
far, in call order. -/
inductive Stored (n : Nat) (h : Key → Nat → Nat) : State → List (Key × Nat × Nat) → Prop where
  | new : Stored n h (fresh n h) []
  | store {s s1 : State} {log : List (Key × Nat × Nat)} {key : Key} {len data d : Nat} :
      Stored n h s log → store s key len data = .ok (d, s1) →
      Stored n h s1 (log ++ [(key, len, data)])
  | delete {s s1 : State} {log : List (Key × Nat × Nat)} {key : Key} {len d : Nat} :
      Stored n h s log → delete s key len = .ok (d, s1) → Stored n h s1 log

/-! ## Linked cells -/

theorem bucketAt_eq {heap : List Bucket} {a : Nat} {b : Bucket} (h : heap[a]? = some b) :
    bucketAt heap a = b := by
  simp [bucketAt, List.getD_eq_getElem?_getD, h]

theorem rd_ok {heap : List Bucket} {a : Nat} {b : Bucket} (h : heap[a]? = some b) :
    rd heap a = .ok b := by
  simp [rd, h]

theorem modify_ok {heap : List Bucket} {a : Nat} {b : Bucket} (f : Bucket → Bucket)
    (h : heap[a]? = some b) : modify heap a f = .ok (heap.set a (f b)) := by
  simp [modify, h]

theorem lt_of_get {heap : List Bucket} {a : Nat} {b : Bucket} (h : heap[a]? = some b) :
    a < heap.length := by
  rcases List.getElem?_eq_some.1 h with ⟨h1, _⟩
  exact h1

theorem get_set_self {heap : List Bucket} {a : Nat} {b : Bucket} (x : Bucket)
    (h : heap[a]? = some b) : (heap.set a x)[a]? = some x :=
  List.getElem?_set_self (lt_of_get h)

theorem get_set_other {heap : List Bucket} {a c : Nat} (x : Bucket) (h : a ≠ c) :
    (heap.set a x)[c]? = heap[c]? :=
  List.getElem?_set_ne h

theorem Linked.none_nil {f : Bucket → Ptr} {heap : List Bucket} {l : List Nat}
    (h : Linked f heap none l) : l = [] := by
  cases l with
  | nil => rfl
  | cons a t => exact absurd h.1 (by simp)

theorem Linked.valid {f : Bucket → Ptr} {heap : List Bucket} :
    ∀ {l : List Nat} {p : Ptr}, Linked f heap p l → ∀ a ∈ l, ∃ b, heap[a]? = some b := by
  intro l
  induction l with
  | nil => intro p _ a ha; simp at ha
  | cons x t ih =>
    intro p h a ha
    obtain ⟨_, b, hb, ht⟩ := h
    rcases List.mem_cons.1 ha with rfl | ha
    · exact ⟨b, hb⟩
    · exact ih ht a ha

/-- A chain is kept by every change of the heap that keeps the field `f` of its
cells. -/
theorem Linked.frame {f : Bucket → Ptr} {heap heap1 : List Bucket} :
    ∀ {l : List Nat} {p : Ptr}, Linked f heap p l →
      (∀ a ∈ l, ∀ b, heap[a]? = some b → ∃ b1, heap1[a]? = some b1 ∧ f b1 = f b) →
      Linked f heap1 p l := by
  intro l
  induction l with
  | nil => intro p h _; exact h
  | cons x t ih =>
    intro p h hfr
    obtain ⟨hp, b, hb, ht⟩ := h
    obtain ⟨b1, hb1, hf⟩ := hfr x (List.mem_cons_self _ _) b hb
    refine ⟨hp, b1, hb1, ?_⟩
    rw [hf]
    exact ih ht (fun a ha => hfr a (List.mem_cons_of_mem _ ha))

theorem Linked.unique {f : Bucket → Ptr} {heap : List Bucket} :
    ∀ {l1 l2 : List Nat} {p : Ptr}, Linked f heap p l1 → Linked f heap p l2 → l1 = l2 := by
  intro l1
  induction l1 with
  | nil =>
    intro l2 p h1 h2
    have hp : p = none := h1
    subst hp
    exact h2.none_nil.symm
  | cons x t ih =>
    intro l2 p h1 h2
    obtain ⟨hp, b, hb, ht⟩ := h1
    subst hp
    cases l2 with
    | nil => exact absurd (show (some x : Ptr) = none from h2) (by simp)
    | cons y t2 =>
      obtain ⟨hy, b2, hb2, ht2⟩ := h2
      have hxy : x = y := by simpa using hy
      subst hxy
      have hbb : b = b2 := by
        rw [hb] at hb2
        exact Option.some.inj hb2
      subst hbb
      rw [ih ht ht2]

theorem Linked.suffix {f : Bucket → Ptr} {heap : List Bucket} :
    ∀ {l1 : List Nat} {p : Ptr} {a : Nat} {l2 : List Nat},
      Linked f heap p (l1 ++ a :: l2) → Linked f heap (some a) (a :: l2) := by
  intro l1
  induction l1 with
  | nil =>
    intro p a l2 h
    have hp : p = some a := h.1
    rw [← hp]
    exact h
  | cons x t ih =>
    intro p a l2 h
    obtain ⟨_, b, _, ht⟩ := h
    exact ih ht

/-- A null-terminated chain meets no cell twice. -/
theorem Linked.nodup {f : Bucket → Ptr} {heap : List Bucket} :
    ∀ {l : List Nat} {p : Ptr}, Linked f heap p l → l.Nodup := by
  intro l
  induction l with
  | nil => intro p _; exact List.nodup_nil
  | cons x t ih =>
    intro p h
    have hx : Linked f heap (some x) (x :: t) := by
      have hp : p = some x := h.1
      rw [← hp]
      exact h
    obtain ⟨_, b, hb, ht⟩ := h
    refine List.nodup_cons.2 ⟨?_, ih ht⟩
    intro hmem
    obtain ⟨t1, t2, ht12⟩ := List.append_of_mem hmem
    rw [ht12] at ht
    have h2 := Linked.unique hx ht.suffix
    have hlen := congrArg List.length h2
    rw [ht12] at hlen
    simp at hlen
    omega

theorem length_le_of_nodup_lt {l : List Nat} {n : Nat} (hd : l.Nodup)
    (hlt : ∀ a ∈ l, a < n) : l.length ≤ n := by
  have hsub : l ⊆ List.range n := fun a ha => List.mem_range.2 (hlt a ha)
  have := (List.subperm_of_subset hd hsub).length_le
  simpa using this

/-- A null-terminated chain has at most as many cells as the heap. -/
theorem Linked.length_le {f : Bucket → Ptr} {heap : List Bucket} {l : List Nat} {p : Ptr}
    (h : Linked f heap p l) : l.length ≤ heap.length :=
  length_le_of_nodup_lt h.nodup (fun a ha => by
    obtain ⟨b, hb⟩ := h.valid a ha
    exact lt_of_get hb)

theorem lastRef_append (r : Ref) (c : List Nat) (z : Nat) :
    lastRef r (c ++ [z]) = .next z := by
  induction c generalizing r with
  | nil => rfl
  | cons a t ih => exact ih (.next a)

/-! ## The loops on a well-formed chain -/

theorem searchLoop_spec {heap : List Bucket} :
    ∀ (c : List Nat) (p : Ptr) (r : Ref) (fuel : Nat),
      Linked Bucket.next heap p c → c.length ≤ fuel →
      searchLoop heap fuel p r = .ok (lastRef r c) := by
  intro c
  induction c with
  | nil =>
    intro p r fuel h _
    have hp : p = none := h
    subst hp
    cases fuel <;> rfl
  | cons a t ih =>
    intro p r fuel h hlen
    obtain ⟨hp, b, hb, ht⟩ := h
    subst hp
    cases fuel with
    | zero => simp at hlen
    | succ n =>
      have hlen1 : t.length ≤ n := by simpa using hlen
      simp only [searchLoop, rd_ok hb]
      exact ih b.next (.next a) n ht hlen1

theorem findLoop_spec {heap : List Bucket} (hash : Nat) :
    ∀ (c : List Nat) (v : Nat) (r : Ref) (fuel : Nat),
      Linked Bucket.next heap (some v) c → c.length ≤ fuel →
      ∃ r1, findLoop heap hash fuel v r =
        .ok (c.find? (fun a => decide ((bucketAt heap a).hash = hash)), r1) := by
  intro c
  induction c with
  | nil => intro v r fuel h _; exact absurd (show (some v : Ptr) = none from h) (by simp)
  | cons a t ih =>
    intro v r fuel h hlen
    obtain ⟨hp, b, hb, ht⟩ := h
    have hva : v = a := by simpa using hp
    subst hva
    cases fuel with
    | zero => simp at hlen
    | succ n =>
      have hlen1 : t.length ≤ n := by simpa using hlen
      simp only [findLoop, rd_ok hb, List.find?_cons, bucketAt_eq hb]
      by_cases hh : b.hash = hash
      · simp [hh]
      · simp only [hh, if_false, decide_False]
        cases hnx : b.next with
        | none =>
          rw [hnx] at ht
          simp [ht.none_nil]
        | some nx =>
          rw [hnx] at ht
          exact ih nx (.next v) n ht hlen1

/-! ## What `insert_bucket` does to the heap -/

theorem modify_mapped {heap : List Bucket} {p : Nat} {b : Bucket} (f : Bucket → Bucket)
    (h : heap[p]? = some b) :
    ∃ heap1, modify heap p f = .ok heap1 ∧
      Mapped (fun x y => if x = p then f y else y) heap heap1 := by
  refine ⟨heap.set p (f b), modify_ok f h, ?_⟩
  intro x
  by_cases hx : x = p
  · subst hx
    simp [get_set_self _ h, h]
  · rw [get_set_other _ (Ne.symm hx)]
    cases heap[x]? <;> simp [hx]

theorem Mapped.get {g : Nat → Bucket → Bucket} {heap heap1 : List Bucket}
    (hm : Mapped g heap heap1) {x : Nat} {b : Bucket} (h : heap[x]? = some b) :
    heap1[x]? = some (g x b) := by
  rw [hm x, h]; rfl

theorem Mapped.length {g : Nat → Bucket → Bucket} {heap heap1 : List Bucket}
    (hm : Mapped g heap heap1) : heap1.length = heap.length := by
  apply Nat.le_antisymm
  · by_contra hlt
    have h1 : heap.length < heap1.length := by omega
    have h2 := hm heap.length
    rw [List.getElem?_eq_getElem h1, List.getElem?_eq_none (Nat.le_refl _)] at h2
    simp at h2
  · by_contra hlt
    have h1 : heap1.length < heap.length := by omega
    have h2 := hm heap1.length
    rw [List.getElem?_eq_getElem h1, List.getElem?_eq_none (Nat.le_refl _)] at h2
    simp at h2

theorem Mapped.comp {g1 g2 : Nat → Bucket → Bucket} {h0 h1 h2 : List Bucket}
    (m1 : Mapped g1 h0 h1) (m2 : Mapped g2 h1 h2) :
    Mapped (fun x y => g2 x (g1 x y)) h0 h2 := by
  intro x
  rw [m2 x, m1 x]
  cases h0[x]? <;> rfl

theorem linkUpd_hash (a : Nat) (z : Option Nat) (hd : Ptr) (x : Nat) (y : Bucket) :
    (linkUpd a z hd x y).hash = y.hash := by
  unfold linkUpd; dsimp only; split_ifs <;> rfl

theorem linkUpd_key (a : Nat) (z : Option Nat) (hd : Ptr) (x : Nat) (y : Bucket) :
    (linkUpd a z hd x y).key = y.key := by
  unfold linkUpd; dsimp only; split_ifs <;> rfl

theorem linkUpd_data (a : Nat) (z : Option Nat) (hd : Ptr) (x : Nat) (y : Bucket) :
    (linkUpd a z hd x y).data = y.data := by
  unfold linkUpd; dsimp only; split_ifs <;> rfl

theorem linkUpd_next (a : Nat) (z : Option Nat) (hd : Ptr) (x : Nat) (y : Bucket) :
    (linkUpd a z hd x y).next = if some x = z then some a else y.next := by
  unfold linkUpd; dsimp only; split_ifs <;> rfl

theorem linkUpd_link1 (a : Nat) (z : Option Nat) (hd : Ptr) (x : Nat) (y : Bucket) :
    (linkUpd a z hd x y).link1 = if x = a then hd else y.link1 := by
  unfold linkUpd; dsimp only; split_ifs <;> rfl

/-- The run of `insert_bucket` on a bucket `a` whose slot chain is the
null-terminated chain `c`: it returns, the bucket is hung on the last cell of `c`
(or into the empty slot) and put in front of the traversal list. -/
theorem insert_bucket_run {heap : List Bucket} {htab : Table} {a : Nat} {ba : Bucket}
    {c : List Nat}
    (ha : heap[a]? = some ba) (hsz : 0 < htab.size)
    (hslots : htab.buckets.length = htab.size)
    (hc : Linked Bucket.next heap (htab.buckets.getD (ba.hash % htab.size) none) c)
    (hac : a ∉ c)
    (hhd : ∀ hd, htab.list = some hd → hd ≠ a ∧ ∃ b, heap[hd]? = some b) :
    ∃ heap3, insert_bucket heap htab a =
        .ok (heap3,
          { htab with
            buckets := if c = [] then htab.buckets.set (ba.hash % htab.size) (some a)
              else htab.buckets,
            entries := htab.entries + 1,
            list := some a }) ∧
      Mapped (linkUpd a c.getLast? htab.list) heap heap3 := by
  have hslot : ba.hash % htab.size < htab.buckets.length := by
    rw [hslots]; exact Nat.mod_lt _ hsz
  have hsz0 : htab.size ≠ 0 := by omega
  have hread : readRef heap htab (.slot (ba.hash % htab.size)) =
      .ok (htab.buckets.getD (ba.hash % htab.size) none) := by
    simp [readRef, List.getD_eq_getElem?_getD, List.getElem?_eq_getElem hslot]
  have hsearch := searchLoop_spec c _ (.slot (ba.hash % htab.size)) (heap.length + 1) hc
    (Nat.le_succ_of_le hc.length_le)
  -- the write through `search`
  have hwrite : ∃ heap1, writeRef heap htab (lastRef (.slot (ba.hash % htab.size)) c) (some a) =
        .ok (heap1, { htab with buckets :=
          if c = [] then htab.buckets.set (ba.hash % htab.size) (some a) else htab.buckets }) ∧
      Mapped (fun x y => if some x = c.getLast? then { y with next := some a } else y)
        heap heap1 := by
    rcases List.eq_nil_or_concat c with hnil | ⟨c1, z, hcz⟩
    · subst hnil
      refine ⟨heap, ?_, ?_⟩
      · simp [lastRef, writeRef, hslot]
      · intro x
        cases heap[x]? <;> simp
    · rw [List.concat_eq_append] at hcz
      subst hcz
      obtain ⟨bz, hbz⟩ := hc.valid z (by simp)
      obtain ⟨heap1, hm1, hmap1⟩ := modify_mapped (fun x => { x with next := some a }) hbz
      refine ⟨heap1, ?_, ?_⟩
      · rw [lastRef_append]
        simp [writeRef, hm1]
      · intro x
        rw [hmap1 x]
        cases heap[x]? <;> simp [eq_comm]
  obtain ⟨heap1, hw, hmap1⟩ := hwrite
  have hz_ne_a : ¬ (some a = c.getLast?) := by
    intro h
    exact hac (List.mem_of_getLast?_eq_some h.symm)
  have ha1 : heap1[a]? = some ba := by
    rw [hmap1.get ha]; simp [hz_ne_a]
  obtain ⟨heap2, hm2, hmap2⟩ := modify_mapped (fun x => { x with link1 := htab.list }) ha1
  have ha2 : heap2[a]? = some { ba with link1 := htab.list } := by
    rw [hmap2.get ha1]; simp
  cases hl : htab.list with
  | none =>
    refine ⟨heap2, ?_, ?_⟩
    · rw [hl] at hm2 ha2
      simp only [insert_bucket, bind, Except.bind, pure, Except.pure, rd_ok ha, hsz0,
        if_false, hread, hsearch, hw, hl, hm2, rd_ok ha2]
    · intro x
      rw [(hmap1.comp hmap2) x]
      cases heap[x]? <;> simp [linkUpd, hl]
  | some hd =>
    obtain ⟨hne, bh, hbh⟩ := hhd hd hl
    have hbh2 : ∃ b2, heap2[hd]? = some b2 := by
      rw [(hmap1.comp hmap2) hd, hbh]; exact ⟨_, rfl⟩
    obtain ⟨bh2, hbh2⟩ := hbh2
    obtain ⟨heap3, hm3, hmap3⟩ := modify_mapped (fun x => { x with link0 := some a }) hbh2
    refine ⟨heap3, ?_, ?_⟩
    · rw [hl] at hm2 ha2
      simp only [insert_bucket, bind, Except.bind, pure, Except.pure, rd_ok ha, hsz0,
        if_false, hread, hsearch, hw, hl, hm2, rd_ok ha2, hm3]
    · intro x
      rw [((hmap1.comp hmap2).comp hmap3) x]
      cases heap[x]? <;> simp [linkUpd, hl, eq_comm]

/-! ## The loop of `resize_table` -/

theorem writeRef_list {heap heap1 : List Bucket} {htab htab1 : Table} {r : Ref} {v : Ptr}
    (h : writeRef heap htab r v = .ok (heap1, htab1)) : htab1.list = htab.list := by
  cases r with
  | slot i =>
    simp only [writeRef] at h
    split at h
    · cases h; rfl
    · cases h
  | next b =>
    simp only [writeRef] at h
    split at h
    · cases h; rfl
    · cases h

theorem modify_rd {heap heap1 : List Bucket} {p : Nat} {f : Bucket → Bucket}
    (h : modify heap p f = .ok heap1) : ∃ y, heap[p]? = some y ∧ rd heap1 p = .ok (f y) := by
  unfold modify at h
  split at h
  · rename_i y hy
    cases h
    exact ⟨y, hy, rd_ok (get_set_self _ hy)⟩
  · cases h

/-- After `insert_bucket` into a table with an empty traversal list the inserted
bucket has no successor in the traversal list. -/
theorem insert_bucket_link1 {heap heap1 : List Bucket} {htab htab1 : Table} {b : Nat}
    (h : insert_bucket heap htab b = .ok (heap1, htab1)) (hl : htab.list = none) :
    ∃ x, rd heap1 b = .ok x ∧ x.link1 = none := by
  simp only [insert_bucket, bind, Except.bind, pure, Except.pure] at h
  split at h
  · cases h
  split at h
  · cases h
  split at h
  · cases h
  split at h
  · cases h
  split at h
  · cases h
  rename_i w hw
  split at h
  · cases h
  rename_i heap2 hm
  obtain ⟨y, _, hrd⟩ := modify_rd hm
  have hwl : w.2.list = none := by
    have := @writeRef_list _ w.1 _ w.2 _ _ hw
    rw [this, hl]
  rw [hrd] at h
  simp only [hwl] at h hrd
  cases h
  exact ⟨_, hrd, rfl⟩

/-- The loop of `resize_table` makes one pass: it is one call of `insert_bucket`
on the head of the old traversal list. -/
theorem resizeLoop_one_pass (fuel : Nat) (heap : List Bucket) (newtab : Table) (b : Nat)
    (hl : newtab.list = none) :
    resizeLoop (fuel + 1) heap newtab (some b) = insert_bucket heap newtab b := by
  cases hi : insert_bucket heap newtab b with
  | error e => simp only [resizeLoop, hi]
  | ok r =>
    obtain ⟨heap1, nt1⟩ := r
    obtain ⟨x, hx, hx1⟩ := insert_bucket_link1 hi hl
    simp only [resizeLoop, hi, hx, hx1]

/-! ## The shape of a table built by `store` -/

theorem SameCore.refl (heap : List Bucket) : SameCore heap heap :=
  fun _ b h => ⟨b, h, rfl, rfl, rfl⟩

theorem SameCore.trans {h0 h1 h2 : List Bucket} (a : SameCore h0 h1) (b : SameCore h1 h2) :
    SameCore h0 h2 := by
  intro x y hy
  obtain ⟨y1, hy1, e1, e2, e3⟩ := a x y hy
  obtain ⟨y2, hy2, f1, f2, f3⟩ := b x y1 hy1
  exact ⟨y2, hy2, f1.trans e1, f2.trans e2, f3.trans e3⟩

theorem SameCore.of_linkUpd {heap heap1 : List Bucket} {a : Nat} {z : Option Nat} {hd : Ptr}
    (hm : Mapped (linkUpd a z hd) heap heap1) : SameCore heap heap1 :=
  fun _ _ h => ⟨_, hm.get h, linkUpd_hash _ _ _ _ _, linkUpd_key _ _ _ _ _,
    linkUpd_data _ _ _ _ _⟩

theorem SameCore.of_append (heap : List Bucket) (nb : Bucket) : SameCore heap (heap ++ [nb]) := by
  intro x b h
  refine ⟨b, ?_, rfl, rfl, rfl⟩
  rw [List.getElem?_append_left (lt_of_get h)]
  exact h

theorem SameCore.bucketAt_hash {heap heap1 : List Bucket} (h : SameCore heap heap1) {x : Nat}
    {b : Bucket} (hx : heap[x]? = some b) : (bucketAt heap1 x).hash = (bucketAt heap x).hash := by
  obtain ⟨b1, hb1, e, _, _⟩ := h x b hx
  rw [bucketAt_eq hb1, bucketAt_eq hx, e]

theorem SameCore.bucketAt_data {heap heap1 : List Bucket} (h : SameCore heap heap1) {x : Nat}
    {b : Bucket} (hx : heap[x]? = some b) : (bucketAt heap1 x).data = (bucketAt heap x).data := by
  obtain ⟨b1, hb1, _, _, e⟩ := h x b hx
  rw [bucketAt_eq hb1, bucketAt_eq hx, e]

theorem mem_chainOf {heap : List Bucket} {size : Nat} {ord : List Nat} {i x : Nat}
    (h : x ∈ chainOf heap size ord i) : x ∈ ord ∧ (bucketAt heap x).hash % size = i := by
  unfold chainOf at h
  rw [List.mem_filter] at h
  exact ⟨List.mem_reverse.1 h.1, by simpa using h.2⟩

/-- The chains of a set of cells only depend on the hashes of these cells. -/
theorem chainOf_congr {heap heap1 : List Bucket} (size : Nat) {ord : List Nat} (i : Nat)
    (h : ∀ x ∈ ord, (bucketAt heap1 x).hash = (bucketAt heap x).hash) :
    chainOf heap1 size ord i = chainOf heap size ord i := by
  unfold chainOf
  apply List.filter_congr
  intro x hx
  rw [h x (List.mem_reverse.1 hx)]

theorem chainOf_cons (heap : List Bucket) (size : Nat) (ord : List Nat) (i a : Nat) :
    chainOf heap size (a :: ord) i =
      chainOf heap size ord i ++ (if (bucketAt heap a).hash % size = i then [a] else []) := by
  unfold chainOf
  rw [List.reverse_cons, List.filter_append]
  congr 1
  by_cases h : (bucketAt heap a).hash % size = i <;> simp [List.filter, h]

theorem Linked.last_next {f : Bucket → Ptr} {heap : List Bucket} :
    ∀ {c : List Nat} {p : Ptr} {z : Nat}, Linked f heap p (c ++ [z]) →
      ∃ b, heap[z]? = some b ∧ f b = none := by
  intro c
  induction c with
  | nil =>
    intro p z h
    obtain ⟨_, b, hb, ht⟩ := h
    exact ⟨b, hb, ht⟩
  | cons x t ih =>
    intro p z h
    obtain ⟨_, b, _, ht⟩ := h
    exact ih ht

/-- Hanging the cell `a` on the `next` field of the last cell `z` of a chain
appends it to the chain. -/
theorem Linked.snoc {heap heap1 : List Bucket} {a z : Nat} {b1 : Bucket}
    (hz : ∃ bz, heap1[z]? = some bz ∧ bz.next = some a)
    (ha : heap1[a]? = some b1) (hn : b1.next = none) :
    ∀ {c : List Nat} {p : Ptr}, Linked Bucket.next heap p (c ++ [z]) →
      (∀ x ∈ c, ∀ b, heap[x]? = some b → ∃ b2, heap1[x]? = some b2 ∧ b2.next = b.next) →
      Linked Bucket.next heap1 p (c ++ [z] ++ [a]) := by
  intro c
  induction c with
  | nil =>
    intro p h _
    obtain ⟨hp, _, _, _⟩ := h
    obtain ⟨bz, hbz, hnz⟩ := hz
    refine ⟨hp, bz, hbz, ?_⟩
    rw [hnz]
    exact ⟨rfl, b1, ha, hn⟩
  | cons x t ih =>
    intro p h hfr
    obtain ⟨hp, b, hb, ht⟩ := h
    obtain ⟨b2, hb2, hnx⟩ := hfr x (List.mem_cons_self _ _) b hb
    refine ⟨hp, b2, hb2, ?_⟩
    rw [hnx]
    exact ih ht (fun y hy => hfr y (List.mem_cons_of_mem _ hy))

theorem Linked.head_eq {f : Bucket → Ptr} {heap : List Bucket} {hd : Nat} {l : List Nat}
    (h : Linked f heap (some hd) l) : ∃ t, l = hd :: t := by
  cases l with
  | nil => exact absurd (show (some hd : Ptr) = none from h) (by simp)
  | cons x t =>
    have : hd = x := by simpa using h.1
    exact ⟨t, by rw [this]⟩

/-- Inserting a cell that is not in the table and whose `next` field is `NULL`
returns and yields the table that holds it in front of the others. -/
theorem insert_bucket_wf {heap : List Bucket} {htab : Table} {ord : List Nat} {a : Nat}
    {ba : Bucket} (wf : WF heap htab ord) (ha : heap[a]? = some ba) (hnext : ba.next = none)
    (hnew : a ∉ ord) :
    ∃ heap1 htab1, insert_bucket heap htab a = .ok (heap1, htab1) ∧
      WF heap1 htab1 (a :: ord) ∧ htab1.size = htab.size ∧ htab1.hfunc = htab.hfunc ∧
      ∃ z, Mapped (linkUpd a z htab.list) heap heap1 := by
  have hslotlt : ba.hash % htab.size < htab.size := Nat.mod_lt _ wf.size_pos
  have hc := wf.chains _ hslotlt
  have hac : a ∉ chainOf heap htab.size ord (ba.hash % htab.size) :=
    fun h => hnew (mem_chainOf h).1
  have hhd : ∀ hd, htab.list = some hd → hd ≠ a ∧ ∃ b, heap[hd]? = some b := by
    intro hd hl
    have ho := wf.order
    rw [hl] at ho
    obtain ⟨t, ht⟩ := ho.head_eq
    have hmem : hd ∈ ord := by rw [ht]; exact List.mem_cons_self _ _
    exact ⟨fun e => hnew (e ▸ hmem), wf.order.valid hd hmem⟩
  obtain ⟨heap3, hrun, hmap⟩ := insert_bucket_run ha wf.size_pos wf.slots hc hac hhd
  refine ⟨heap3, _, hrun, ?_, rfl, rfl, _, hmap⟩
  have hcore : SameCore heap heap3 := SameCore.of_linkUpd hmap
  have hhash : ∀ x ∈ a :: ord, (bucketAt heap3 x).hash = (bucketAt heap x).hash := by
    intro x hx
    rcases List.mem_cons.1 hx with rfl | hx
    · exact hcore.bucketAt_hash ha
    · obtain ⟨b, hb⟩ := wf.order.valid x hx
      exact hcore.bucketAt_hash hb
  have ha3 : heap3[a]? = some (linkUpd a (chainOf heap htab.size ord
      (ba.hash % htab.size)).getLast? htab.list a ba) := hmap.get ha
  refine ⟨wf.size_pos, ?_, ?_, ?_, ?_⟩
  · show (if _ then _ else _ : List Ptr).length = htab.size
    split_ifs <;> simp [wf.slots]
  · refine ⟨rfl, _, ha3, ?_⟩
    rw [linkUpd_link1, if_pos rfl]
    refine wf.order.frame ?_
    intro x hx b hb
    refine ⟨_, hmap.get hb, ?_⟩
    have hxa : x ≠ a := fun e => hnew (e ▸ hx)
    rw [linkUpd_link1, if_neg hxa]
  · intro i hi
    show Linked Bucket.next heap3 ((if _ then _ else _ : List Ptr).getD i none) _
    rw [chainOf_congr _ _ hhash, chainOf_cons, bucketAt_eq ha]
    by_cases his : ba.hash % htab.size = i
    · subst his
      rw [if_pos rfl]
      rcases List.eq_nil_or_concat (chainOf heap htab.size ord (ba.hash % htab.size)) with
        hnil | ⟨c1, z, hcz⟩
      · rw [hnil] at ha3 ⊢
        rw [if_pos rfl, List.getD_eq_getElem?_getD,
          List.getElem?_set_self (by rw [wf.slots]; exact hi)]
        refine ⟨rfl, _, ha3, ?_⟩
        rw [linkUpd_next]
        simpa using hnext
      · rw [List.concat_eq_append] at hcz
        rw [hcz] at hc hac ha3 hmap ⊢
        rw [if_neg (by simp)]
        obtain ⟨bz, hbz⟩ := hc.valid z (by simp)
        have hnd := hc.nodup
        rw [List.nodup_append] at hnd
        refine Linked.snoc ⟨_, hmap.get hbz, ?_⟩ ha3 ?_ hc ?_
        · rw [linkUpd_next]; simp
        · rw [linkUpd_next]
          have : a ≠ z := fun e => hac (by simp [e])
          simpa [this] using hnext
        · intro x hx b hb
          refine ⟨_, hmap.get hb, ?_⟩
          rw [linkUpd_next]
          have : x ≠ z := fun e => hnd.2.2 hx (by simp [e])
          simp [this]
    · rw [if_neg his, List.append_nil]
      have hget : (if chainOf heap htab.size ord (ba.hash % htab.size) = [] then
            htab.buckets.set (ba.hash % htab.size) (some a) else htab.buckets).getD i none =
          htab.buckets.getD i none := by
        split_ifs
        · rw [List.getD_eq_getElem?_getD, List.getD_eq_getElem?_getD,
            List.getElem?_set_ne his]
        · rfl
      rw [hget]
      refine (wf.chains i hi).frame ?_
      intro x hx b hb
      refine ⟨_, hmap.get hb, ?_⟩
      rw [linkUpd_next]
      have hxi := (mem_chainOf hx).2
      have : ¬ (some x = (chainOf heap htab.size ord (ba.hash % htab.size)).getLast?) := by
        intro e
        have := (mem_chainOf (List.mem_of_getLast?_eq_some e.symm)).2
        exact his (this.symm.trans hxi)
      rw [if_neg this]
  · show htab.entries + 1 = (a :: ord).length
    rw [wf.count]; rfl

theorem WF.new {heap : List Bucket} {n : Nat} (h : Key → Nat → Nat) (hn : 0 < n) :
    WF heap (new n h) [] := by
  refine ⟨hn, by simp [Htable.new], rfl, ?_, rfl⟩
  intro i hi
  show Linked Bucket.next heap ((List.replicate n none).getD i none) []
  rw [List.getD_eq_getElem?_getD, List.getElem?_replicate, if_pos (show i < n from hi)]
  rfl

/-- Allocating a further bucket leaves the table as it is. -/
theorem WF.append {heap : List Bucket} {htab : Table} {ord : List Nat} (wf : WF heap htab ord)
    (nb : Bucket) : WF (heap ++ [nb]) htab ord := by
  have hsame : ∀ x ∈ ord, ∀ b, heap[x]? = some b → (heap ++ [nb])[x]? = some b := by
    intro x _ b hb
    rw [List.getElem?_append_left (lt_of_get hb)]
    exact hb
  have hhash : ∀ x ∈ ord, (bucketAt (heap ++ [nb]) x).hash = (bucketAt heap x).hash := by
    intro x hx
    obtain ⟨b, hb⟩ := wf.order.valid x hx
    rw [bucketAt_eq (hsame x hx b hb), bucketAt_eq hb]
  refine ⟨wf.size_pos, wf.slots, ?_, ?_, wf.count⟩
  · exact wf.order.frame (fun x hx b hb => ⟨b, hsame x hx b hb, rfl⟩)
  · intro i hi
    rw [chainOf_congr _ _ hhash]
    exact (wf.chains i hi).frame
      (fun x hx b hb => ⟨b, hsame x (mem_chainOf hx).1 b hb, rfl⟩)

/-- The newest cell of a table ends its slot chain. -/
theorem WF.head_next {heap : List Bucket} {htab : Table} {hd : Nat} {rest : List Nat}
    (wf : WF heap htab (hd :: rest)) : ∃ b, heap[hd]? = some b ∧ b.next = none := by
  have hlt : (bucketAt heap hd).hash % htab.size < htab.size := Nat.mod_lt _ wf.size_pos
  have hc := wf.chains _ hlt
  rw [chainOf_cons, if_pos rfl] at hc
  exact hc.last_next

theorem load_factor_lt_iff {htab : Table} (hsz : 0 < htab.size) :
    load_factor htab = .ok (htab.entries / htab.size) ∧
      (htab.entries / htab.size < HTAB_LOAD_MAX ↔ htab.entries < htab.size) := by
  constructor
  · simp [load_factor, Nat.pos_iff_ne_zero.1 hsz]
  · unfold HTAB_LOAD_MAX
    rw [Nat.lt_one_iff, Nat.div_eq_zero_iff hsz]

/-- The run of `resize_table`: below the load limit nothing happens; at or above
it the table gets twice the slots and only the head of the traversal list is
moved into them. -/
theorem resize_table_spec {s : State} {ord : List Nat} (wf : WF s.heap s.htab ord) :
    (s.htab.entries < s.htab.size → resize_table s = .ok s) ∧
    (s.htab.size ≤ s.htab.entries →
      ∃ hd rest heap1 htab1, ord = hd :: rest ∧
        resize_table s = .ok { heap := heap1, htab := htab1 } ∧
        WF heap1 htab1 [hd] ∧ htab1.size = s.htab.size * 2 ∧ htab1.hfunc = s.htab.hfunc ∧
        heap1.length = s.heap.length ∧ SameCore s.heap heap1) := by
  obtain ⟨hlf, hiff⟩ := load_factor_lt_iff wf.size_pos
  constructor
  · intro hlt
    simp only [resize_table, hlf, hiff.2 hlt, if_true]
  · intro hge
    have hnot : ¬ (s.htab.entries / s.htab.size < HTAB_LOAD_MAX) := by
      rw [hiff]; omega
    have hpos : 0 < ord.length := by
      have := wf.size_pos
      have := wf.count
      omega
    obtain ⟨hd, rest, hord⟩ := List.exists_cons_of_length_pos hpos
    subst hord
    obtain ⟨bh, hbh, hbn⟩ := wf.head_next
    have hl : s.htab.list = some hd := wf.order.1
    have wfn : WF s.heap (new (s.htab.size * 2) s.htab.hfunc) [] :=
      WF.new _ (by have := wf.size_pos; omega)
    obtain ⟨heap1, htab1, hins, wf1, hsize, hfun, z, hmap⟩ :=
      insert_bucket_wf wfn hbh hbn (by simp)
    refine ⟨hd, rest, heap1, htab1, rfl, ?_, wf1, hsize, hfun, hmap.length,
      SameCore.of_linkUpd hmap⟩
    have hrd : rd heap1 hd = .ok (linkUpd hd z none hd bh) := rd_ok (hmap.get hbh)
    have hlink : (linkUpd hd z none hd bh).link1 = none := by
      rw [linkUpd_link1, if_pos rfl]
    simp only [resize_table, hlf, hnot, if_false, hl, resizeLoop, hins]
    have hnew : (new (s.htab.size * 2) s.htab.hfunc).list = none := rfl
    rw [hnew] at hmap
    simp only [rd_ok (hmap.get hbh), hlink, resizeLoop]

/-- The run of `store` on a well-formed table. -/
theorem store_spec {s : State} {ord : List Nat} (wf : WF s.heap s.htab ord)
    (key : Key) (len data : Nat) :
    ∃ s1 ord1, store s key len data = .ok (data, s1) ∧ WF s1.heap s1.htab ord1 ∧
      s1.htab.hfunc = s.htab.hfunc ∧
      SameCore s.heap s1.heap ∧
      (∃ nb, s1.heap[s.heap.length]? = some nb ∧ nb.hash = s.htab.hfunc key len ∧
        nb.key = key ∧ nb.data = data) ∧
      ((s.htab.entries < s.htab.size ∧ ord1 = s.heap.length :: ord ∧
          s1.htab.size = s.htab.size) ∨
       (s.htab.size ≤ s.htab.entries ∧ s1.htab.size = s.htab.size * 2 ∧
          ∃ hd rest, ord = hd :: rest ∧ ord1 = [s.heap.length, hd])) := by
  have key_step : ∀ (heap1 : List Bucket) (htab1 : Table) (ord0 : List Nat),
      WF heap1 htab1 ord0 → heap1.length = s.heap.length → htab1.hfunc = s.htab.hfunc →
      SameCore s.heap heap1 →
      ∃ heap3 htab3,
        insert_bucket (make_bucket { heap := heap1, htab := htab1 } key len data).1.heap
          (make_bucket { heap := heap1, htab := htab1 } key len data).1.htab
          (make_bucket { heap := heap1, htab := htab1 } key len data).2 = .ok (heap3, htab3) ∧
        WF heap3 htab3 (s.heap.length :: ord0) ∧ htab3.hfunc = s.htab.hfunc ∧
        htab3.size = htab1.size ∧ SameCore s.heap heap3 ∧
        (∃ nb, heap3[s.heap.length]? = some nb ∧ nb.hash = s.htab.hfunc key len ∧
          nb.key = key ∧ nb.data = data) := by
    intro heap1 htab1 ord0 wf1 hlen hfun hcore
    have hnb : (heap1 ++ [(⟨htab1.hfunc key len, key, data, none, none, none⟩ : Bucket)])[
        heap1.length]? = some ⟨htab1.hfunc key len, key, data, none, none, none⟩ :=
      List.getElem?_concat_length _ _
    have hfresh : heap1.length ∉ ord0 := by
      intro hmem
      obtain ⟨b, hb⟩ := wf1.order.valid _ hmem
      exact absurd (lt_of_get hb) (Nat.lt_irrefl _)
    obtain ⟨heap3, htab3, hins, wf3, hsize, hfun3, z, hmap⟩ :=
      insert_bucket_wf (wf1.append _) hnb rfl hfresh
    refine ⟨heap3, htab3, hins, hlen ▸ wf3, hfun3.trans hfun, hsize,
      (hcore.trans (SameCore.of_append _ _)).trans (SameCore.of_linkUpd hmap), ?_⟩
    rw [← hlen]
    refine ⟨_, hmap.get hnb, ?_, ?_, ?_⟩
    · rw [linkUpd_hash, hfun]
    · rw [linkUpd_key]
    · rw [linkUpd_data]
  obtain ⟨hno, hyes⟩ := resize_table_spec wf
  rcases Nat.lt_or_ge s.htab.entries s.htab.size with hlt | hge
  · obtain ⟨heap3, htab3, hins, wf3, hfun3, hsize, hcore, hnb⟩ :=
      key_step s.heap s.htab ord wf rfl rfl (SameCore.refl _)
    refine ⟨{ heap := heap3, htab := htab3 }, _, ?_, wf3, hfun3, hcore, hnb,
      Or.inl ⟨hlt, rfl, hsize⟩⟩
    simp only [store, hno hlt]
    rw [hins]
  · obtain ⟨hd, rest, heap1, htab1, hord, hres, wf1, hsize1, hfun1, hlen1, hcore1⟩ := hyes hge
    obtain ⟨heap3, htab3, hins, wf3, hfun3, hsize, hcore, hnb⟩ :=
      key_step heap1 htab1 [hd] wf1 hlen1 hfun1 hcore1
    refine ⟨{ heap := heap3, htab := htab3 }, _, ?_, wf3, hfun3, hcore, hnb,
      Or.inr ⟨hge, hsize.trans hsize1, hd, rest, hord, rfl⟩⟩
    simp only [store, hres]
    rw [hins]

theorem find_chainOf (heap : List Bucket) (size : Nat) (ord : List Nat) (hash : Nat) :
    (chainOf heap size ord (hash % size)).find?
        (fun a => decide ((bucketAt heap a).hash = hash)) =
      ord.reverse.find? (fun a => decide ((bucketAt heap a).hash = hash)) := by
  unfold chainOf
  rw [List.find?_filter]
  congr 1
  funext a
  by_cases h : (bucketAt heap a).hash = hash <;> simp [h]

/-- The run of `find` on a well-formed table: the oldest cell with the hash of
the key. -/
theorem find_spec {s : State} {ord : List Nat} (wf : WF s.heap s.htab ord) (key : Key)
    (len : Nat) :
    ∃ r, find s key len =
      .ok (ord.reverse.find? (fun a => decide ((bucketAt s.heap a).hash = s.htab.hfunc key len)),
        r) := by
  have hsz0 : s.htab.size ≠ 0 := Nat.pos_iff_ne_zero.1 wf.size_pos
  have hlt : s.htab.hfunc key len % s.htab.size < s.htab.size := Nat.mod_lt _ wf.size_pos
  have hc := wf.chains _ hlt
  have hget : s.htab.buckets[s.htab.hfunc key len % s.htab.size]? =
      some (s.htab.buckets.getD (s.htab.hfunc key len % s.htab.size) none) := by
    rw [List.getD_eq_getElem?_getD, List.getElem?_eq_getElem (by rw [wf.slots]; exact hlt)]
    rfl
  rw [← find_chainOf s.heap s.htab.size ord]
  cases hp : s.htab.buckets.getD (s.htab.hfunc key len % s.htab.size) none with
  | none =>
    rw [hp] at hc hget
    refine ⟨none, ?_⟩
    simp only [find, hsz0, if_false, hget, hc.none_nil, List.find?_nil]
  | some v =>
    rw [hp] at hc hget
    obtain ⟨r1, hr1⟩ := findLoop_spec (s.htab.hfunc key len) _ v
      (.slot (s.htab.hfunc key len % s.htab.size)) (s.heap.length + 1) hc
      (Nat.le_succ_of_le hc.length_le)
    refine ⟨some r1, ?_⟩
    simp only [find, hsz0, if_false, hget, hr1]

/-- The run of `lookup` on a well-formed table: the data of the oldest cell with
the hash of the key, `NULL` when there is none. -/
theorem lookup_spec {s : State} {ord : List Nat} (wf : WF s.heap s.htab ord) (key : Key)
    (len : Nat) :
    lookup s key len =
      .ok (match ord.reverse.find?
          (fun a => decide ((bucketAt s.heap a).hash = s.htab.hfunc key len)) with
        | none => 0
        | some a => (bucketAt s.heap a).data) := by
  obtain ⟨r, hr⟩ := find_spec wf key len
  cases hf : ord.reverse.find?
      (fun a => decide ((bucketAt s.heap a).hash = s.htab.hfunc key len)) with
  | none =>
    rw [hf] at hr
    simp only [lookup, hr]
  | some a =>
    rw [hf] at hr
    have hmem : a ∈ ord := List.mem_reverse.1 (List.mem_of_find?_eq_some hf)
    obtain ⟨b, hb⟩ := wf.order.valid a hmem
    simp only [lookup, hr, rd_ok hb, bucketAt_eq hb]

theorem eachLoop_calls {heap : List Bucket} (each : Bucket → Int) :
    ∀ (l : List Nat) (p : Ptr) (fuel : Nat),
      Linked Bucket.link1 heap p l → l.length ≤ fuel →
      eachLoop heap each fuel p =
        .ok (callsUpToFirstStop (fun a => decide (each (bucketAt heap a) ≠ 0)) l) := by
  intro l
  induction l with
  | nil =>
    intro p fuel h _
    have hp : p = none := h
    subst hp
    cases fuel <;> rfl
  | cons a t ih =>
    intro p fuel h hlen
    obtain ⟨hp, b, hb, ht⟩ := h
    subst hp
    cases fuel with
    | zero => simp at hlen
    | succ n =>
      have hlen1 : t.length ≤ n := by simpa using hlen
      have hih := ih b.link1 n ht hlen1
      unfold callsUpToFirstStop at hih ⊢
      simp only [eachLoop, rd_ok hb, List.takeWhile_cons, List.dropWhile_cons, bucketAt_eq hb]
      by_cases hz : each b = 0
      · simp [hz]
      · simp [hz, hih]

theorem callsUpToFirstStop_all {cont : Nat → Bool} {ord : List Nat}
    (h : ∀ a ∈ ord, cont a = true) : callsUpToFirstStop cont ord = ord := by
  unfold callsUpToFirstStop
  rw [List.takeWhile_eq_self_iff.2 h, List.dropWhile_eq_nil_iff.2 h]
  simp

/-- The run of a traversal on a well-formed table. -/
theorem foreach_spec {s : State} {ord : List Nat}
    (hord : Linked Bucket.link1 s.heap s.htab.list ord) (each : Key → Nat → Int) :
    foreach s each = .ok (callsUpToFirstStop
      (fun a => decide (each (bucketAt s.heap a).key (bucketAt s.heap a).data ≠ 0)) ord, s) := by
  simp only [foreach,
    eachLoop_calls (fun b => each b.key b.data) ord _ _ hord (Nat.le_succ_of_le hord.length_le)]

/-- Every table built by `store` from `new(n, h)` with `n ≥ 1` is well formed and
keeps the hash function. -/
theorem Reach.wf {n : Nat} {h : Key → Nat → Nat} (hn : 1 ≤ n) {s : State}
    (hr : Reach n h s) : ∃ ord, WF s.heap s.htab ord ∧ s.htab.hfunc = h := by
  induction hr with
  | new => exact ⟨[], WF.new h hn, rfl⟩
  | store _ hst ih =>
    obtain ⟨ord, wf, hfun⟩ := ih
    obtain ⟨s2, ord2, hs2, wf2, hfun2, _⟩ := store_spec wf _ _ _
    rw [hs2] at hst
    have : s2 = _ := (Prod.mk.inj (Except.ok.inj hst)).2
    subst this
    exact ⟨ord2, wf2, hfun2.trans hfun⟩

theorem Reach.of_stores {n : Nat} {h : Key → Nat → Nat} :
    ∀ (cmds : List (Key × Nat × Nat)) {s s1 : State}, Reach n h s →
      stores s cmds = .ok s1 → Reach n h s1 := by
  intro cmds
  induction cmds with
  | nil =>
    intro s s1 hr hs
    have : s = s1 := Except.ok.inj hs
    exact this ▸ hr
  | cons c rest ih =>
    intro s s1 hr hs
    obtain ⟨key, len, data⟩ := c
    unfold stores at hs
    cases hst : Htable.store s key len data with
    | error e => rw [hst] at hs; exact absurd hs (by simp)
    | ok r =>
      obtain ⟨d, s2⟩ := r
      rw [hst] at hs
      exact ih (Reach.store hr hst) hs

theorem find?_congr_mem {p q : Nat → Bool} :
    ∀ {l : List Nat}, (∀ x ∈ l, p x = q x) → l.find? p = l.find? q := by
  intro l
  induction l with
  | nil => intro _; rfl
  | cons a t ih =>
    intro h
    rw [List.find?_cons, List.find?_cons, h a (List.mem_cons_self _ _),
      ih (fun x hx => h x (List.mem_cons_of_mem _ hx))]

/-- After `store(key, data)` on a table none of whose cells carries the hash of
`key`, the call returns and `lookup(key)` finds `data`. -/
theorem lookup_store_new {s : State} {ord : List Nat} (wf : WF s.heap s.htab ord)
    (key : Key) (len data : Nat)
    (hno : ∀ a ∈ ord, (bucketAt s.heap a).hash ≠ s.htab.hfunc key len) :
    ∃ s1, store s key len data = .ok (data, s1) ∧ lookup s1 key len = .ok data := by
  obtain ⟨s1, ord1, hst, wf1, hfun, hcore, ⟨nb, hnb, hnh, _, hnd⟩, hshape⟩ :=
    store_spec wf key len data
  refine ⟨s1, hst, ?_⟩
  have hord : ∃ ord0, ord1 = s.heap.length :: ord0 ∧ ∀ a ∈ ord0, a ∈ ord := by
    rcases hshape with ⟨_, h1, _⟩ | ⟨_, _, hd, rest, h1, h2⟩
    · exact ⟨ord, h1, fun _ h => h⟩
    · refine ⟨[hd], h2, ?_⟩
      intro a ha
      rw [h1]
      simp at ha
      simp [ha]
  obtain ⟨ord0, hord1, hsub⟩ := hord
  have hold : ord0.reverse.find?
      (fun a => decide ((bucketAt s1.heap a).hash = s1.htab.hfunc key len)) = none := by
    rw [List.find?_eq_none]
    intro a ha
    have hmem := hsub a (List.mem_reverse.1 ha)
    obtain ⟨b, hb⟩ := wf.order.valid a hmem
    rw [hcore.bucketAt_hash hb, hfun]
    simpa using hno a hmem
  rw [lookup_spec wf1, hord1, List.reverse_cons, List.find?_append, hold]
  simp [bucketAt_eq hnb, hnh, hfun, hnd]

/-- A `store` that does not resize leaves `lookup` of every key as it was, when
the key has another hash than the stored one or a cell with its hash is already
in the table. -/
theorem lookup_store_old {s : State} {ord : List Nat} (wf : WF s.heap s.htab ord)
    (key : Key) (len data : Nat) (hroom : s.htab.entries < s.htab.size)
    (key1 : Key) (len1 : Nat)
    (hcase : s.htab.hfunc key1 len1 ≠ s.htab.hfunc key len ∨
      ∃ a ∈ ord, (bucketAt s.heap a).hash = s.htab.hfunc key1 len1) :
    ∃ s1, store s key len data = .ok (data, s1) ∧
      s1.htab.entries = s.htab.entries + 1 ∧ s1.htab.size = s.htab.size ∧
      lookup s1 key1 len1 = lookup s key1 len1 := by
  obtain ⟨s1, ord1, hst, wf1, hfun, hcore, ⟨nb, hnb, hnh, _, _⟩, hshape⟩ :=
    store_spec wf key len data
  rcases hshape with ⟨_, hord1, hsize⟩ | ⟨hge, _⟩
  swap
  · omega
  refine ⟨s1, hst, ?_, hsize, ?_⟩
  · rw [wf1.count, wf.count, hord1]; rfl
  have hsame : ord.reverse.find?
        (fun a => decide ((bucketAt s1.heap a).hash = s1.htab.hfunc key1 len1)) =
      ord.reverse.find?
        (fun a => decide ((bucketAt s.heap a).hash = s.htab.hfunc key1 len1)) := by
    apply find?_congr_mem
    intro a ha
    obtain ⟨b, hb⟩ := wf.order.valid a (List.mem_reverse.1 ha)
    rw [hcore.bucketAt_hash hb, hfun]
  rw [lookup_spec wf1, lookup_spec wf, hord1, List.reverse_cons, List.find?_append, hsame]
  cases hf : ord.reverse.find?
      (fun a => decide ((bucketAt s.heap a).hash = s.htab.hfunc key1 len1)) with
  | some a =>
    obtain ⟨b, hb⟩ := wf.order.valid a (List.mem_reverse.1 (List.mem_of_find?_eq_some hf))
    simp [hcore.bucketAt_data hb]
  | none =>
    rcases hcase with hne | ⟨a, ha, hh⟩
    · simp [bucketAt_eq hnb, hnh, hfun, Ne.symm hne]
    · rw [List.find?_eq_none] at hf
      exact absurd (by simpa using hh) (hf a (List.mem_reverse.2 ha))

/-- Stores of keys with pairwise distinct hashes, none of them in the table, that
fit below the load limit: the table is not resized, `entries` grows by their
number and every one of them is found by `lookup`. -/
theorem stores_no_resize :
    ∀ (cmds : List (Key × Nat × Nat)) (s : State) (ord : List Nat),
      WF s.heap s.htab ord → s.htab.entries + cmds.length ≤ s.htab.size →
      (cmds.map (fun c => s.htab.hfunc c.1 c.2.1)).Nodup →
      (∀ c ∈ cmds, ∀ a ∈ ord, (bucketAt s.heap a).hash ≠ s.htab.hfunc c.1 c.2.1) →
      ∃ s1, stores s cmds = .ok s1 ∧ s1.htab.size = s.htab.size ∧
        s1.htab.entries = s.htab.entries + cmds.length ∧
        (∀ c ∈ cmds, lookup s1 c.1 c.2.1 = .ok c.2.2) ∧
        (∀ key len, (∀ c ∈ cmds, s.htab.hfunc c.1 c.2.1 ≠ s.htab.hfunc key len) →
          lookup s1 key len = lookup s key len) := by
  intro cmds
  induction cmds with
  | nil =>
    intro s ord _ _ _ _
    exact ⟨s, rfl, rfl, rfl, fun c hc => absurd hc (by simp), fun _ _ _ => rfl⟩
  | cons c rest ih =>
    intro s ord wf hfit hnd hfresh
    obtain ⟨key, len, data⟩ := c
    have hroom : s.htab.entries < s.htab.size := by simp at hfit; omega
    rw [List.map_cons, List.nodup_cons] at hnd
    obtain ⟨s1, ord1, hst, wf1, hfun, hcore, ⟨nb, hnb, hnh, _, _⟩, hshape⟩ :=
      store_spec wf key len data
    have hshape1 : ord1 = s.heap.length :: ord ∧ s1.htab.size = s.htab.size := by
      rcases hshape with ⟨_, h1, h2⟩ | ⟨hge, _⟩
      · exact ⟨h1, h2⟩
      · omega
    obtain ⟨hord1, hsize1⟩ := hshape1
    have hent1 : s1.htab.entries = s.htab.entries + 1 := by
      rw [wf1.count, wf.count, hord1]; rfl
    obtain ⟨s1a, hst1, hlook⟩ := lookup_store_new wf key len data
      (hfresh (key, len, data) (List.mem_cons_self _ _))
    have hs1 : s1a = s1 := by
      rw [hst] at hst1
      exact ((Prod.mk.inj (Except.ok.inj hst1)).2).symm
    subst hs1
    have hfresh1 : ∀ c ∈ rest, ∀ a ∈ ord1,
        (bucketAt s1a.heap a).hash ≠ s1a.htab.hfunc c.1 c.2.1 := by
      intro c hc a ha
      rw [hfun]
      rw [hord1] at ha
      rcases List.mem_cons.1 ha with rfl | ha
      · rw [bucketAt_eq hnb, hnh]
        intro e
        exact hnd.1 (List.mem_map.2 ⟨c, hc, e.symm⟩)
      · obtain ⟨b, hb⟩ := wf.order.valid a ha
        rw [hcore.bucketAt_hash hb]
        exact hfresh c (List.mem_cons_of_mem _ hc) a ha
    obtain ⟨s2, hs2, hsize2, hent2, hall, hothers⟩ := ih s1a ord1 wf1
      (by simp at hfit; omega) (by rw [hfun]; exact hnd.2) hfresh1
    refine ⟨s2, ?_, hsize2.trans hsize1, ?_, ?_, ?_⟩
    · simp only [stores, hst, hs2]
    · rw [hent2, hent1, List.length_cons]; omega
    · intro c hc
      rcases List.mem_cons.1 hc with rfl | hc
      · rw [hothers key len ?_, hlook]
        intro c hc e
        rw [hfun] at e
        exact hnd.1 (List.mem_map.2 ⟨c, hc, e⟩)
      · exact hall c hc
    · intro key1 len1 hne
      rw [hothers key1 len1 (fun c hc => by rw [hfun]; exact hne c (List.mem_cons_of_mem _ hc))]
      obtain ⟨s1b, hst2, _, _, hl⟩ := lookup_store_old wf key len data hroom key1 len1
        (Or.inl (Ne.symm (hne (key, len, data) (List.mem_cons_self _ _))))
      have hs1b : s1b = s1a := by
        rw [hst] at hst2
        exact ((Prod.mk.inj (Except.ok.inj hst2)).2).symm
      rw [← hs1b]
      exact hl

/-! ## The claims -/

/-- C1, as stated, fails: on `new(4, myhashfunc)`, after `store("a", 1)` the call
`store("a", 2)` returns and the `lookup("a")` right after it answers `1`, not the
`2` that was just stored. -/
theorem lookup_after_store_shadowed :
    (stores (fresh 4 myhashfunc) [([97], 1, 1)] >>= fun s =>
      store s [97] 1 2 >>= fun r => lookup r.2 [97] 1) = .ok 1 ∧
    (Except.ok 1 : Except Fault Nat) ≠ .ok 2 :=
  ⟨rfl, by simp⟩

/-- C1, amended: for every table reachable from `new(n, h)`, `n ≥ 1`, by stores
and every key for which `find` finds no bucket in it (no entry of its slot chain
carries its hash), `store(key, data)` returns `data` and the `lookup(key)` right
after it returns `data`, also when the store resized the table. -/
theorem lookup_after_store_of_miss (n : Nat) (h : Key → Nat → Nat) (hn : 1 ≤ n) (s : State)
    (hr : Reach n h s) (key : Key) (len data : Nat)
    (hmiss : ∃ r, find s key len = .ok (none, r)) :
    ∃ s1, store s key len data = .ok (data, s1) ∧ lookup s1 key len = .ok data := by
  obtain ⟨ord, wf, _⟩ := hr.wf hn
  obtain ⟨r, hr1⟩ := hmiss
  obtain ⟨r2, hr2⟩ := find_spec wf key len
  rw [hr1] at hr2
  have hnone := (Prod.mk.inj (Except.ok.inj hr2)).1.symm
  rw [List.find?_eq_none] at hnone
  refine lookup_store_new wf key len data ?_
  intro a ha
  simpa using hnone a (List.mem_reverse.2 ha)

/-- C1, amended, on a store that resizes: the table of one slot that holds `"a"`
takes `store("b", 2)`. -/
theorem lookup_after_store_of_miss_witness :
    ∃ s1, store (built 1 myhashfunc [([97], 1, 1)]) [98] 1 2 = .ok (2, s1) ∧
      lookup s1 [98] 1 = .ok 2 :=
  lookup_after_store_of_miss 1 myhashfunc (by decide) _
    (Reach.of_stores [([97], 1, 1)] Reach.new rfl) [98] 1 2 ⟨_, rfl⟩

/-- C2, as stated, fails: on `new(4, myhashfunc)`, after `store("a", 1)` and
`store("a", 2)` the call `lookup("a")` answers `1` and `entries` is `2` (the claim
says `2` and `1`). -/
theorem store_same_key_inserts_again :
    (stores (fresh 4 myhashfunc) [([97], 1, 1), ([97], 1, 2)] >>= fun s =>
      (lookup s [97] 1).map (fun d => (d, entries s))) = .ok (1, 2) ∧
    (Except.ok (1, 2) : Except Fault (Nat × Nat)) ≠ .ok (2, 1) :=
  ⟨rfl, by simp⟩

/-- C2, amended: `store` always inserts and never updates.  For every table
reachable from `new(n, h)`, `n ≥ 1`, by stores, with `entries < size`, and every
key that `find` finds in it, `store(key, data2)` returns, raises `entries` by one,
keeps `size`, and a following `lookup(key)` returns what it returned before the
store. -/
theorem store_existing_key_appends (n : Nat) (h : Key → Nat → Nat) (hn : 1 ≤ n) (s : State)
    (hr : Reach n h s) (key : Key) (len data2 : Nat)
    (hfound : ∃ b r, find s key len = .ok (some b, r))
    (hroom : entries s < size s) :
    ∃ s1, store s key len data2 = .ok (data2, s1) ∧ entries s1 = entries s + 1 ∧
      size s1 = size s ∧ lookup s1 key len = lookup s key len := by
  obtain ⟨ord, wf, _⟩ := hr.wf hn
  obtain ⟨b, r, hr1⟩ := hfound
  obtain ⟨r2, hr2⟩ := find_spec wf key len
  rw [hr1] at hr2
  have hsome := (Prod.mk.inj (Except.ok.inj hr2)).1.symm
  refine lookup_store_old wf key len data2 hroom key len (Or.inr ⟨b, ?_, ?_⟩)
  · exact List.mem_reverse.1 (List.mem_of_find?_eq_some hsome)
  · simpa using List.find?_some hsome

/-- C2, amended, on the scenario of the claim: `store("a", 2)` on the table that
holds `"a"` with `1`. -/
theorem store_existing_key_appends_witness :
    ∃ s1, store (built 4 myhashfunc [([97], 1, 1)]) [97] 1 2 = .ok (2, s1) ∧
      entries s1 = entries (built 4 myhashfunc [([97], 1, 1)]) + 1 ∧
      size s1 = size (built 4 myhashfunc [([97], 1, 1)]) ∧
      lookup s1 [97] 1 = lookup (built 4 myhashfunc [([97], 1, 1)]) [97] 1 :=
  store_existing_key_appends 4 myhashfunc (by decide) _
    (Reach.of_stores [([97], 1, 1)] Reach.new rfl) [97] 1 2 ⟨_, _, rfl⟩ (by decide)

/-- C3 fails on the code: on `new(2, myhashfunc)`, after the stores of `"a"`,
`"b"`, `"c"` (three distinct keys with distinct hashes; the third store resizes),
`lookup("a")` answers not-found: `resize_table` moved only the head of the
traversal list into the new slots. -/
theorem resize_drops_older_entries :
    (stores (fresh 2 myhashfunc) [([97], 1, 1), ([98], 1, 2), ([99], 1, 3)] >>= fun s =>
      lookup s [97] 1) = .ok 0 :=
  rfl

/-- C4 fails on the code: on `new(4, myhashfunc)`, `delete("x")` right after
`store("x", 1)` dereferences `NULL`: the stored bucket ends its chain, so `*ref`
is `NULL` when `(*ref)->link[1]` is written. -/
theorem delete_after_store_null_deref :
    (stores (fresh 4 myhashfunc) [([120], 1, 1)] >>= fun s => delete s [120] 1) =
      .error .nullDeref :=
  rfl

/-- C5, as stated, fails: on `new(4, myhashfunc)` holding only the key with bytes
`0, 2` (data `5`), `lookup` of the key with bytes `1, 0`, which has other bytes
and the same hash, answers `5` instead of not-found. -/
theorem lookup_finds_colliding_key :
    (stores (fresh 4 myhashfunc) [([0, 2], 2, 5)] >>= fun s => lookup s [1, 0] 2) = .ok 5 ∧
    ([0, 2] : Key) ≠ [1, 0] ∧ myhashfunc [0, 2] 2 = myhashfunc [1, 0] 2 :=
  ⟨rfl, by decide, rfl⟩

/-- C5, amended: `lookup` matches on the cached hash alone.  For every table
reachable from `new(n, h)`, `n ≥ 1`, by stores and every key such that no entry
of the table (as a full traversal visits them) has a cached hash equal to the hash
of the key, `lookup(key)` returns not-found. -/
theorem lookup_miss_of_no_hash (n : Nat) (h : Key → Nat → Nat) (hn : 1 ≤ n) (s : State)
    (hr : Reach n h s) (key : Key) (len : Nat) (calls : List Nat)
    (hcalls : foreach s (fun _ _ => 1) = .ok (calls, s))
    (hno : ∀ a ∈ calls, (bucketAt s.heap a).hash ≠ h key len) :
    lookup s key len = .ok 0 := by
  obtain ⟨ord, wf, hfun⟩ := hr.wf hn
  rw [foreach_spec wf.order, callsUpToFirstStop_all (by simp)] at hcalls
  have hc : ord = calls := (Prod.mk.inj (Except.ok.inj hcalls)).1
  subst hc
  have hnone : ord.reverse.find?
      (fun a => decide ((bucketAt s.heap a).hash = s.htab.hfunc key len)) = none := by
    rw [List.find?_eq_none]
    intro a ha
    rw [hfun]
    simpa using hno a (List.mem_reverse.1 ha)
  rw [lookup_spec wf, hnone]

/-- C5, amended, on the table that holds the key with bytes `0, 2`: `lookup("a")`
is a miss. -/
theorem lookup_miss_of_no_hash_witness :
    lookup (built 4 myhashfunc [([0, 2], 2, 5)]) [97] 1 = .ok 0 :=
  lookup_miss_of_no_hash 4 myhashfunc (by decide) _
    (Reach.of_stores [([0, 2], 2, 5)] Reach.new rfl) [97] 1 [0] rfl
    (by intro a ha; rw [List.mem_singleton] at ha; subst ha; decide)

/-- C6, as stated, fails: after `new(4, myhashfunc)` and the stores of the four
distinct keys `"a"`, `"b"`, `"c"`, `"d"` the size is `4`, not `8`, and `entries` is
`4`, so `entries < size` does not hold after the fourth store. -/
theorem four_stores_no_resize :
    (stores (fresh 4 myhashfunc)
        [([97], 1, 1), ([98], 1, 2), ([99], 1, 3), ([100], 1, 4)]).map
      (fun s => (size s, entries s, decide (entries s < size s))) = .ok (4, 4, false) :=
  rfl

/-- C6, amended: for every table reachable from `new(n, h)`, `n ≥ 1`, by stores,
every `store` returns and leaves `entries ≤ size`; and after `new(n, h)` and `n`
stores of keys with pairwise distinct hashes (four stores for `n = 4`) the size is
still `n`, `entries` is `n`, and every one of the keys is found by `lookup` with
its data. -/
theorem entries_le_size_after_store (n : Nat) (h : Key → Nat → Nat) (hn : 1 ≤ n) (s : State)
    (hr : Reach n h s) (key : Key) (len data : Nat) :
    (∃ s1, store s key len data = .ok (data, s1) ∧ entries s1 ≤ size s1) ∧
    (∀ cmds : List (Key × Nat × Nat), cmds.length = n →
      (cmds.map (fun c => h c.1 c.2.1)).Nodup →
      ∃ s4, stores (fresh n h) cmds = .ok s4 ∧ size s4 = n ∧ entries s4 = n ∧
        ∀ c ∈ cmds, lookup s4 c.1 c.2.1 = .ok c.2.2) := by
  constructor
  · obtain ⟨ord, wf, _⟩ := hr.wf hn
    obtain ⟨s1, ord1, hst, wf1, _, _, _, hshape⟩ := store_spec wf key len data
    refine ⟨s1, hst, ?_⟩
    show s1.htab.entries ≤ s1.htab.size
    rw [wf1.count]
    rcases hshape with ⟨hlt, h1, h2⟩ | ⟨_, h2, hd, rest, _, h1⟩
    · rw [h1, h2, List.length_cons, ← wf.count]; omega
    · rw [h1, h2]
      have := wf.size_pos
      simp
      omega
  · intro cmds hlen hnd
    obtain ⟨s4, hs4, hsize, hent, hall, _⟩ :=
      stores_no_resize cmds (fresh n h) [] (WF.new h hn)
        (by show 0 + cmds.length ≤ n; omega) hnd (fun _ _ a ha => absurd ha (by simp))
    refine ⟨s4, hs4, hsize, ?_, hall⟩
    show s4.htab.entries = n
    rw [hent, hlen]
    show 0 + n = n
    omega

/-- C6, amended, on `new(4, myhashfunc)`: the store into the table that holds
`"a"`, `"b"`, `"c"` and the four stores of `"a"`, `"b"`, `"c"`, `"d"`. -/
theorem entries_le_size_after_store_witness :
    (∃ s1, store (built 4 myhashfunc [([97], 1, 1), ([98], 1, 2), ([99], 1, 3)]) [100] 1 4 =
        .ok (4, s1) ∧ entries s1 ≤ size s1) ∧
    (∃ s4, stores (fresh 4 myhashfunc)
        [([97], 1, 1), ([98], 1, 2), ([99], 1, 3), ([100], 1, 4)] = .ok s4 ∧
      size s4 = 4 ∧ entries s4 = 4 ∧
      ∀ c ∈ [(([97] : Key), 1, 1), ([98], 1, 2), ([99], 1, 3), ([100], 1, 4)],
        lookup s4 c.1 c.2.1 = .ok c.2.2) :=
  ⟨(entries_le_size_after_store 4 myhashfunc (by decide) _
      (Reach.of_stores [([97], 1, 1), ([98], 1, 2), ([99], 1, 3)] Reach.new rfl)
      [100] 1 4).1,
   (entries_le_size_after_store 4 myhashfunc (by decide) _ Reach.new [100] 1 4).2
      [([97], 1, 1), ([98], 1, 2), ([99], 1, 3), ([100], 1, 4)] rfl (by decide)⟩

/-- C7 fails on the code: on `new(2, myhashfunc)`, after the stores of the three
distinct keys `"a"`, `"b"`, `"c"` (the third one resizes) `entries` is `2`, not
`3`: the resize restarts the count at the one entry it moved. -/
theorem entries_reset_by_resize :
    (stores (fresh 2 myhashfunc) [([97], 1, 1), ([98], 1, 2), ([99], 1, 3)]).map entries =
      .ok 2 :=
  rfl

/-- C8: for every table reachable from `new(n, h)`, `n ≥ 1`, by stores (resizes
included), a `foreach` whose predicate always answers true returns, calls the
predicate exactly `entries` times and on no bucket twice, and leaves the table as
it is. -/
theorem foreach_visits_entries_once (n : Nat) (h : Key → Nat → Nat) (hn : 1 ≤ n) (s : State)
    (hr : Reach n h s) (each : Key → Nat → Int) (htrue : ∀ k d, each k d ≠ 0) :
    ∃ calls, foreach s each = .ok (calls, s) ∧ calls.length = entries s ∧ calls.Nodup := by
  obtain ⟨ord, wf, _⟩ := hr.wf hn
  refine ⟨ord, ?_, wf.count.symm, wf.order.nodup⟩
  rw [foreach_spec wf.order, callsUpToFirstStop_all]
  intro a _
  simpa using htrue _ _

/-- C8 on the table built by the stores of `"a"`, `"b"`, `"c"` on
`new(2, myhashfunc)`, the last of which resizes. -/
theorem foreach_visits_entries_once_witness :
    ∃ calls, foreach (built 2 myhashfunc [([97], 1, 1), ([98], 1, 2), ([99], 1, 3)])
        (fun _ _ => 1) =
        .ok (calls, built 2 myhashfunc [([97], 1, 1), ([98], 1, 2), ([99], 1, 3)]) ∧
      calls.length = entries (built 2 myhashfunc [([97], 1, 1), ([98], 1, 2), ([99], 1, 3)]) ∧
      calls.Nodup :=
  foreach_visits_entries_once 2 myhashfunc (by decide) _
    (Reach.of_stores [([97], 1, 1), ([98], 1, 2), ([99], 1, 3)] Reach.new rfl)
    (fun _ _ => 1) (fun _ _ => one_ne_zero)

/-- C9: for every table whose traversal list is a null-terminated list `ord` of
buckets and every predicate, `foreach`, `foreach_keys` and `foreach_values` return,
call the predicate on the buckets of `ord` from its head, in order, up to and
including the first one on which it answers false (`0`) and on none after it, and
leave the table unchanged; a predicate that never answers false is called on every
bucket of `ord`. -/
theorem foreach_early_stop (s : State) (ord : List Nat)
    (hord : Linked Bucket.link1 s.heap s.htab.list ord) :
    (∀ each : Key → Nat → Int, foreach s each = .ok (callsUpToFirstStop
      (fun a => decide (each (bucketAt s.heap a).key (bucketAt s.heap a).data ≠ 0)) ord, s)) ∧
    (∀ each : Key → Int, foreach_keys s each = .ok (callsUpToFirstStop
      (fun a => decide (each (bucketAt s.heap a).key ≠ 0)) ord, s)) ∧
    (∀ each : Nat → Int, foreach_values s each = .ok (callsUpToFirstStop
      (fun a => decide (each (bucketAt s.heap a).data ≠ 0)) ord, s)) ∧
    (∀ cont : Nat → Bool, (∀ a ∈ ord, cont a = true) → callsUpToFirstStop cont ord = ord) := by
  refine ⟨fun each => foreach_spec hord each, ?_, ?_, fun _ h => callsUpToFirstStop_all h⟩
  · intro each
    simp only [foreach_keys,
      eachLoop_calls (fun b => each b.key) ord _ _ hord (Nat.le_succ_of_le hord.length_le)]
  · intro each
    simp only [foreach_values,
      eachLoop_calls (fun b => each b.data) ord _ _ hord (Nat.le_succ_of_le hord.length_le)]

/-- C9 on `new(4, myhashfunc)` holding the keys with byte `2`, `3`, `6` (buckets
`0`, `1`, `2`; traversal list `2, 1, 0`): a predicate that stops on the key with
byte `3` is called on the buckets `2` and `1` and not on bucket `0`. -/
theorem foreach_early_stop_witness :
    foreach (built 4 myhashfunc [([2], 1, 1), ([3], 1, 2), ([6], 1, 3)])
        (fun k _ => if k = [3] then 0 else 1) =
      .ok ([2, 1], built 4 myhashfunc [([2], 1, 1), ([3], 1, 2), ([6], 1, 3)]) :=
  (foreach_early_stop (built 4 myhashfunc [([2], 1, 1), ([3], 1, 2), ([6], 1, 3)]) [2, 1, 0]
    ⟨rfl, _, rfl, rfl, _, rfl, rfl, _, rfl, rfl⟩).1 (fun k _ => if k = [3] then 0 else 1)

/-- C10 fails on the code: on `new(4, myhashfunc)` holding the keys with byte `2`,
`3`, `6` (buckets `0`, `1`, `2`; the keys with byte `2` and `6` share slot 0) a
full traversal visits the buckets `2, 1, 0`; after `delete` of the key with byte
`2`, which returns its data `1` and leaves `entries = 2`, a full traversal visits
bucket `2` only: bucket `1` is cut off the traversal list together with the
deleted bucket `0`, though `lookup` still finds its key. -/
theorem delete_cuts_order_list :
    (stores (fresh 4 myhashfunc) [([2], 1, 1), ([3], 1, 2), ([6], 1, 3)] >>= fun s =>
      (foreach s (fun _ _ => 1)).map Prod.fst) = .ok [2, 1, 0] ∧
    (stores (fresh 4 myhashfunc) [([2], 1, 1), ([3], 1, 2), ([6], 1, 3)] >>= fun s =>
      delete s [2] 1 >>= fun r =>
        (foreach r.2 (fun _ _ => 1)).map (fun t => (r.1, entries r.2, t.1))) =
      .ok (1, 2, [2]) ∧
    (stores (fresh 4 myhashfunc) [([2], 1, 1), ([3], 1, 2), ([6], 1, 3)] >>= fun s =>
      delete s [2] 1 >>= fun r => lookup r.2 [3] 1) = .ok 2 :=
  ⟨rfl, rfl, rfl⟩

/-! ## What every returning call does to the table record -/

theorem writeRef_fields {heap heap1 : List Bucket} {htab htab1 : Table} {r : Ref} {v : Ptr}
    (h : writeRef heap htab r v = .ok (heap1, htab1)) :
    htab1.size = htab.size ∧ htab1.hfunc = htab.hfunc ∧ htab1.entries = htab.entries ∧
      htab1.buckets.length = htab.buckets.length ∧ heap1.length = heap.length := by
  cases r with
  | slot i =>
    simp only [writeRef] at h
    split at h
    · cases h
      exact ⟨rfl, rfl, rfl, by simp, rfl⟩
    · cases h
  | next b =>
    simp only [writeRef] at h
    split at h
    · rename_i heap2 hm
      cases h
      unfold modify at hm
      split at hm
      · cases hm
        exact ⟨rfl, rfl, rfl, rfl, by simp⟩
      · cases hm
    · cases h

theorem modify_length {heap heap1 : List Bucket} {p : Nat} {f : Bucket → Bucket}
    (h : modify heap p f = .ok heap1) : heap1.length = heap.length := by
  unfold modify at h
  split at h
  · cases h; simp
  · cases h

/-- Whenever `insert_bucket` returns, it has kept `size`, `hfunc` and the number of
slots and of allocated buckets, has raised `entries` by one and has made the
bucket the head of the traversal list. -/
theorem insert_bucket_fields {heap heap1 : List Bucket} {htab htab1 : Table} {b : Nat}
    (h : insert_bucket heap htab b = .ok (heap1, htab1)) :
    htab1.size = htab.size ∧ htab1.hfunc = htab.hfunc ∧ htab1.entries = htab.entries + 1 ∧
      htab1.list = some b ∧ htab1.buckets.length = htab.buckets.length ∧
      heap1.length = heap.length := by
  simp only [insert_bucket, bind, Except.bind, pure, Except.pure] at h
  split at h
  · cases h
  split at h
  · cases h
  split at h
  · cases h
  split at h
  · cases h
  split at h
  · cases h
  rename_i w hw
  obtain ⟨e1, e2, e3, e4, e5⟩ := @writeRef_fields _ w.1 _ w.2 _ _ hw
  split at h
  · cases h
  rename_i heap2 hm
  have l2 := modify_length hm
  split at h
  · cases h
  split at h
  · cases h
    exact ⟨e1, e2, by rw [e3], rfl, e4, by rw [l2, e5]⟩
  · split at h
    · cases h
    · rename_i heap3 hm3
      have l3 := modify_length hm3
      cases h
      exact ⟨e1, e2, by rw [e3], rfl, e4, by rw [l3, l2, e5]⟩

/-- Whenever `resize_table` returns on a table with `size ≥ 1`: below the load
limit the state is untouched, at or above it the table has twice the slots and at
most one entry. -/
theorem resize_table_fields {s s1 : State} (hsz : 0 < s.htab.size)
    (h : resize_table s = .ok s1) :
    s1.htab.hfunc = s.htab.hfunc ∧ s1.heap.length = s.heap.length ∧
      ((s.htab.entries < s.htab.size ∧ s1 = s) ∨
       (s.htab.size ≤ s.htab.entries ∧ s1.htab.size = s.htab.size * 2 ∧
          s1.htab.entries ≤ 1 ∧ s1.htab.buckets.length = s.htab.size * 2)) := by
  obtain ⟨hlf, hiff⟩ := load_factor_lt_iff hsz
  by_cases hlt : s.htab.entries < s.htab.size
  · simp only [resize_table, hlf, hiff.2 hlt, if_true] at h
    cases h
    exact ⟨rfl, rfl, Or.inl ⟨hlt, rfl⟩⟩
  · have hnot : ¬ (s.htab.entries / s.htab.size < HTAB_LOAD_MAX) := by
      rw [hiff]; exact hlt
    simp only [resize_table, hlf, hnot, if_false] at h
    cases hl : s.htab.list with
    | none =>
      rw [hl] at h
      simp only [resizeLoop] at h
      cases h
      exact ⟨rfl, rfl, Or.inr ⟨by omega, rfl, Nat.zero_le _, by simp [Htable.new]⟩⟩
    | some b =>
      rw [hl, resizeLoop_one_pass _ _ _ _ rfl] at h
      split at h
      · cases h
      · rename_i heap1 nt1 hins
        cases h
        obtain ⟨e1, e2, e3, _, e5, e6⟩ := insert_bucket_fields hins
        refine ⟨e2, e6, Or.inr ⟨by omega, e1, ?_, ?_⟩⟩
        · show nt1.entries ≤ 1
          rw [e3]; exact Nat.le_refl _
        · show nt1.buckets.length = s.htab.size * 2
          rw [e5]; simp [Htable.new]

/-- Whenever `store` returns on a table with `size ≥ 1`: it returns `data`, the
size is doubled exactly when `entries ≥ size` held before the call, `entries` is at
most the size afterwards, and one bucket has been allocated. -/
theorem store_fields {s s1 : State} {key : Key} {len data d : Nat} (hsz : 0 < s.htab.size)
    (h : store s key len data = .ok (d, s1)) :
    d = data ∧ s1.htab.hfunc = s.htab.hfunc ∧ s1.heap.length = s.heap.length + 1 ∧
      s1.htab.size = (if s.htab.size ≤ s.htab.entries then s.htab.size * 2 else s.htab.size) ∧
      (s.htab.entries < s.htab.size → s1.htab.entries = s.htab.entries + 1) ∧
      s1.htab.entries ≤ s1.htab.size := by
  simp only [store] at h
  split at h
  · cases h
  rename_i s2 hres
  obtain ⟨f1, f2, f3⟩ := resize_table_fields hsz hres
  split at h
  · cases h
  rename_i heap3 htab3 hins
  cases h
  obtain ⟨e1, e2, e3, _, _, e6⟩ := insert_bucket_fields hins
  have hh : (make_bucket s2 key len data).1.htab = s2.htab := rfl
  have hl : (make_bucket s2 key len data).1.heap.length = s2.heap.length + 1 := by
    simp [make_bucket]
  rw [hh] at e1 e2 e3
  rw [hl] at e6
  refine ⟨rfl, e2.trans f1, ?_, ?_, ?_, ?_⟩
  · show heap3.length = s.heap.length + 1
    rw [e6, f2]
  · show htab3.size = _
    rcases f3 with ⟨hlt, heq⟩ | ⟨hge, hs, _, _⟩
    · rw [e1, heq, if_neg (by omega)]
    · rw [e1, hs, if_pos hge]
  · intro hlt
    show htab3.entries = _
    rcases f3 with ⟨_, heq⟩ | ⟨hge, _⟩
    · rw [e3, heq]
    · omega
  · show htab3.entries ≤ htab3.size
    rcases f3 with ⟨hlt, heq⟩ | ⟨hge, hs, he, _⟩
    · rw [e1, e3, heq]; omega
    · rw [e1, e3, hs]; omega

/-! ## Walks and chains -/

theorem walk_linked {f : Bucket → Ptr} {heap : List Bucket} :
    ∀ (fuel : Nat) (p : Ptr) (l : List Nat), walk f heap fuel p = .ok l → Linked f heap p l := by
  intro fuel
  induction fuel with
  | zero =>
    intro p l h
    cases p with
    | none => simp only [walk] at h; cases h; rfl
    | some a => simp only [walk] at h; cases h
  | succ n ih =>
    intro p l h
    cases p with
    | none => simp only [walk] at h; cases h; rfl
    | some a =>
      simp only [walk] at h
      split at h
      · cases h
      rename_i b hb
      split at h
      · cases h
      rename_i rest hrest
      cases h
      have hget : heap[a]? = some b := by
        unfold rd at hb
        split at hb
        · rename_i y hy
          cases hb
          exact hy
        · cases hb
      exact ⟨rfl, b, hget, ih _ _ hrest⟩

theorem walk_spec {f : Bucket → Ptr} {heap : List Bucket} :
    ∀ (l : List Nat) (p : Ptr) (fuel : Nat), Linked f heap p l → l.length ≤ fuel →
      walk f heap fuel p = .ok l := by
  intro l
  induction l with
  | nil =>
    intro p fuel h _
    have hp : p = none := h
    subst hp
    cases fuel <;> rfl
  | cons a t ih =>
    intro p fuel h hlen
    obtain ⟨hp, b, hb, ht⟩ := h
    subst hp
    cases fuel with
    | zero => simp at hlen
    | succ n =>
      have hlen1 : t.length ≤ n := by simpa using hlen
      simp only [walk, rd_ok hb, ih (f b) n ht hlen1]

/-- A slot whose chain walk returns `c` holds the null-terminated chain `c`. -/
theorem chain_linked {s : State} {i : Nat} {c : List Nat} (h : chain s i = .ok c) :
    i < s.htab.buckets.length ∧
      Linked Bucket.next s.heap (s.htab.buckets.getD i none) c := by
  unfold chain at h
  split at h
  · cases h
  · rename_i p hp
    have hlt : i < s.htab.buckets.length := by
      rcases List.getElem?_eq_some.1 hp with ⟨h1, _⟩
      exact h1
    refine ⟨hlt, ?_⟩
    rw [List.getD_eq_getElem?_getD, hp]
    exact walk_linked _ _ _ h

theorem chain_of_linked {s : State} {i : Nat} {c : List Nat} (hlt : i < s.htab.buckets.length)
    (h : Linked Bucket.next s.heap (s.htab.buckets.getD i none) c) : chain s i = .ok c := by
  have hget : s.htab.buckets[i]? = some (s.htab.buckets.getD i none) := by
    rw [List.getD_eq_getElem?_getD, List.getElem?_eq_getElem hlt]
    rfl
  simp only [chain, hget]
  exact walk_spec c _ _ h (Nat.le_succ_of_le h.length_le)

/-- The run of `find` on a key whose slot chain is the null-terminated chain `c`:
the first cell of `c` whose cached hash is the hash of the key. -/
theorem find_of_chain {s : State} {key : Key} {len : Nat} {c : List Nat}
    (hsz : 0 < s.htab.size)
    (hc : chain s (s.htab.hfunc key len % s.htab.size) = .ok c) :
    ∃ r, find s key len =
      .ok (c.find? (fun a => decide ((bucketAt s.heap a).hash = s.htab.hfunc key len)), r) := by
  have hsz0 : s.htab.size ≠ 0 := Nat.pos_iff_ne_zero.1 hsz
  obtain ⟨hlt, hl⟩ := chain_linked hc
  have hget : s.htab.buckets[s.htab.hfunc key len % s.htab.size]? =
      some (s.htab.buckets.getD (s.htab.hfunc key len % s.htab.size) none) := by
    rw [List.getD_eq_getElem?_getD, List.getElem?_eq_getElem hlt]
    rfl
  cases hp : s.htab.buckets.getD (s.htab.hfunc key len % s.htab.size) none with
  | none =>
    rw [hp] at hl hget
    refine ⟨none, ?_⟩
    simp only [find, hsz0, if_false, hget, hl.none_nil, List.find?_nil]
  | some v =>
    rw [hp] at hl hget
    obtain ⟨r1, hr1⟩ := findLoop_spec (s.htab.hfunc key len) _ v
      (.slot (s.htab.hfunc key len % s.htab.size)) (s.heap.length + 1) hl
      (Nat.le_succ_of_le hl.length_le)
    refine ⟨some r1, ?_⟩
    simp only [find, hsz0, if_false, hget, hr1]

/-! ## The claims on misses, on the fresh table and on the hash -/

/-- C11, as stated, fails: on `new(4, myhashfunc)` holding the keys with bytes
`0, 2` (data `5`) and `0, 6` (data `7`), both in slot 2, no entry has the key bytes
`1, 0`; yet `delete` of the key with bytes `1, 0`, which has the hash of the first
one, returns `5` instead of not-found and takes that entry out of the table:
`entries` goes from `2` to `1` and `lookup` of the key with bytes `0, 2` then
misses. -/
theorem delete_removes_colliding_key :
    (stores (fresh 4 myhashfunc) [([0, 2], 2, 5), ([0, 6], 2, 7)] >>= fun s =>
      delete s [1, 0] 2 >>= fun r =>
        (lookup r.2 [0, 2] 2).map (fun d => (entries s, r.1, entries r.2, d))) =
      .ok (2, 5, 1, 0) ∧
    ([1, 0] : Key) ≠ [0, 2] ∧ ([1, 0] : Key) ≠ [0, 6] :=
  ⟨rfl, by decide, by decide⟩

/-- C11, amended: for every table with `size ≥ 1` and every key such that the
chain of its slot is a null-terminated chain `c` in which no entry has a cached
hash equal to the hash of the key (the only test `find` makes; key bytes are never
compared), `delete` returns not-found and leaves the state, with its slot chains,
traversal list, `entries` and `size`, exactly as it was. -/
theorem delete_miss_unchanged (s : State) (key : Key) (len : Nat) (c : List Nat)
    (hsz : 1 ≤ size s)
    (hc : chain s (hfunc s key len % size s) = .ok c)
    (hno : ∀ a ∈ c, (bucketAt s.heap a).hash ≠ hfunc s key len) :
    delete s key len = .ok (0, s) := by
  obtain ⟨r, hr⟩ := find_of_chain hsz hc
  have hnone : c.find? (fun a => decide ((bucketAt s.heap a).hash = s.htab.hfunc key len)) =
      none := by
    rw [List.find?_eq_none]
    intro a ha
    simpa using hno a ha
  rw [hnone] at hr
  simp only [delete, hr, bind, Except.bind, pure, Except.pure]

/-- C11, amended, on `new(4, myhashfunc)` holding the keys with byte `2`, `3`,
`6`: `delete` of the key with byte `10`, whose slot 0 holds the buckets `0` and `2`
with other hashes. -/
theorem delete_miss_unchanged_witness :
    delete (built 4 myhashfunc [([2], 1, 1), ([3], 1, 2), ([6], 1, 3)]) [10] 1 =
      .ok (0, built 4 myhashfunc [([2], 1, 1), ([3], 1, 2), ([6], 1, 3)]) :=
  delete_miss_unchanged (built 4 myhashfunc [([2], 1, 1), ([3], 1, 2), ([6], 1, 3)]) [10] 1
    [0, 2] (by decide) rfl
    (by
      intro a ha
      rcases List.mem_cons.1 ha with rfl | ha
      · decide
      · rw [List.mem_singleton] at ha
        subst ha
        decide)

/-- C12: for every `n ≥ 1` and hash function `h`, the table of `new(n, h)` (over
any bucket arena) has `size = n`, `entries = 0`, `hfunc = h`, `n` slots that are
all empty and an empty traversal list; `lookup` of every key returns not-found and
`foreach`, `foreach_keys`, `foreach_values` make no call. -/
theorem new_is_empty (n : Nat) (h : Key → Nat → Nat) (hn : 1 ≤ n) (heap : List Bucket) :
    size ⟨heap, new n h⟩ = n ∧ entries ⟨heap, new n h⟩ = 0 ∧ hfunc ⟨heap, new n h⟩ = h ∧
    (new n h).buckets.length = n ∧
    (∀ i, i < n → (new n h).buckets[i]? = some none ∧ chain ⟨heap, new n h⟩ i = .ok []) ∧
    list ⟨heap, new n h⟩ = none ∧ order ⟨heap, new n h⟩ = .ok [] ∧
    (∀ (key : Key) (len : Nat), lookup ⟨heap, new n h⟩ key len = .ok 0) ∧
    (∀ each, foreach ⟨heap, new n h⟩ each = .ok ([], ⟨heap, new n h⟩)) ∧
    (∀ each, foreach_keys ⟨heap, new n h⟩ each = .ok ([], ⟨heap, new n h⟩)) ∧
    (∀ each, foreach_values ⟨heap, new n h⟩ each = .ok ([], ⟨heap, new n h⟩)) := by
  have hslot : ∀ i, i < n → (new n h).buckets[i]? = some none := by
    intro i hi
    show (List.replicate n (none : Ptr))[i]? = some none
    rw [List.getElem?_replicate, if_pos hi]
  refine ⟨rfl, rfl, rfl, by simp [Htable.new], ?_, rfl, rfl, ?_, ?_, ?_, ?_⟩
  · intro i hi
    refine ⟨hslot i hi, ?_⟩
    simp only [chain, hslot i hi, walk]
  · intro key len
    have hlt : h key len % n < n := Nat.mod_lt _ (by omega)
    have hc : chain ⟨heap, new n h⟩ (h key len % n) = .ok [] := by
      simp only [chain, hslot _ hlt, walk]
    obtain ⟨r, hr⟩ := @find_of_chain ⟨heap, new n h⟩ key len [] (by show 0 < n; omega) hc
    simp only [lookup, hr, List.find?_nil]
  · intro each; rfl
  · intro each; rfl
  · intro each; rfl

/-- C12 on `new(4, myhashfunc)`. -/
theorem new_is_empty_witness :
    size (fresh 4 myhashfunc) = 4 ∧ entries (fresh 4 myhashfunc) = 0 ∧
      lookup (fresh 4 myhashfunc) [97] 1 = .ok 0 ∧
      foreach (fresh 4 myhashfunc) (fun _ _ => 1) = .ok ([], fresh 4 myhashfunc) :=
  ⟨(new_is_empty 4 myhashfunc (by decide) []).1,
   (new_is_empty 4 myhashfunc (by decide) []).2.1,
   (new_is_empty 4 myhashfunc (by decide) []).2.2.2.2.2.2.2.1 [97] 1,
   (new_is_empty 4 myhashfunc (by decide) []).2.2.2.2.2.2.2.2.1 (fun _ _ => 1)⟩

/-- C20: for every table with `size ≥ 1` and all keys with the same hash,
`lookup` of the one and of the other return the same result; and when the chain of
slot `hash mod size` is the null-terminated chain `c`, that result is the data of
the first entry of `c` whose cached hash equals the hash, or not-found if `c` has
none. -/
theorem lookup_by_hash_only (s : State) (k1 k2 : Key) (l1 l2 : Nat) (hsz : 1 ≤ size s)
    (heq : hfunc s k1 l1 = hfunc s k2 l2) :
    lookup s k1 l1 = lookup s k2 l2 ∧
    (∀ c, chain s (hfunc s k1 l1 % size s) = .ok c →
      lookup s k2 l2 = .ok
        (match c.find? (fun a => decide ((bucketAt s.heap a).hash = hfunc s k1 l1)) with
          | none => 0
          | some a => (bucketAt s.heap a).data)) := by
  have hh : s.htab.hfunc k1 l1 = s.htab.hfunc k2 l2 := heq
  have hfind : find s k1 l1 = find s k2 l2 := by
    unfold find
    simp only [hh]
  have hlook : lookup s k1 l1 = lookup s k2 l2 := by
    unfold lookup
    rw [hfind]
  refine ⟨hlook, ?_⟩
  intro c hc
  rw [← hlook]
  obtain ⟨r, hr⟩ := find_of_chain hsz hc
  show lookup s k1 l1 = .ok
    (match c.find? (fun a => decide ((bucketAt s.heap a).hash = s.htab.hfunc k1 l1)) with
      | none => 0
      | some a => (bucketAt s.heap a).data)
  cases hf : c.find? (fun a => decide ((bucketAt s.heap a).hash = s.htab.hfunc k1 l1)) with
  | none =>
    rw [hf] at hr
    simp only [lookup, hr]
  | some a =>
    rw [hf] at hr
    obtain ⟨b, hb⟩ := (chain_linked hc).2.valid a (List.mem_of_find?_eq_some hf)
    simp only [lookup, hr, rd_ok hb, bucketAt_eq hb]

/-- C20 on `new(4, myhashfunc)` holding the key with bytes `0, 2` (data `5`): the
keys with bytes `0, 2` and `1, 0` have the same hash and `lookup` of both gives the
data of bucket `0`, the first of the chain of their slot. -/
theorem lookup_by_hash_only_witness :
    lookup (built 4 myhashfunc [([0, 2], 2, 5)]) [0, 2] 2 =
        lookup (built 4 myhashfunc [([0, 2], 2, 5)]) [1, 0] 2 ∧
      lookup (built 4 myhashfunc [([0, 2], 2, 5)]) [1, 0] 2 = .ok 5 :=
  ⟨(lookup_by_hash_only (built 4 myhashfunc [([0, 2], 2, 5)]) [0, 2] [1, 0] 2 2
      (by decide) rfl).1,
   (lookup_by_hash_only (built 4 myhashfunc [([0, 2], 2, 5)]) [0, 2] [1, 0] 2 2
      (by decide) rfl).2 [0] rfl⟩

/-! ## The chains and the traversal list after `insert_bucket` -/

theorem Mapped.inv {g : Nat → Bucket → Bucket} {heap heap1 : List Bucket}
    (hm : Mapped g heap heap1) {x : Nat} {b1 : Bucket} (h : heap1[x]? = some b1) :
    ∃ b, heap[x]? = some b ∧ b1 = g x b := by
  have := hm x
  rw [h] at this
  cases hx : heap[x]? with
  | none => rw [hx] at this; cases this
  | some b =>
    rw [hx] at this
    exact ⟨b, rfl, Option.some.inj this⟩

theorem getD_set_ite_other {buckets : List Ptr} {c : List Nat} {slot i : Nat} {v : Ptr}
    (h : slot ≠ i) :
    (if c = [] then buckets.set slot v else buckets).getD i none = buckets.getD i none := by
  split_ifs
  · rw [List.getD_eq_getElem?_getD, List.getD_eq_getElem?_getD, List.getElem?_set_ne h]
  · rfl

/-- After `insert_bucket` the chain of the slot of the inserted bucket is the old
chain followed by that bucket. -/
theorem insert_chain_slot {heap heap3 : List Bucket} {buckets : List Ptr} {slot a : Nat}
    {ba : Bucket} {c : List Nat} {hd : Ptr}
    (hc : Linked Bucket.next heap (buckets.getD slot none) c)
    (hslot : slot < buckets.length) (ha : heap[a]? = some ba) (hnext : ba.next = none)
    (hac : a ∉ c) (hmap : Mapped (linkUpd a c.getLast? hd) heap heap3) :
    Linked Bucket.next heap3
      ((if c = [] then buckets.set slot (some a) else buckets).getD slot none) (c ++ [a]) := by
  have ha3 := hmap.get ha
  rcases List.eq_nil_or_concat c with hnil | ⟨c1, z, hcz⟩
  · rw [hnil] at ha3 ⊢
    rw [if_pos rfl, List.getD_eq_getElem?_getD, List.getElem?_set_self hslot]
    refine ⟨rfl, _, ha3, ?_⟩
    rw [linkUpd_next]
    simpa using hnext
  · rw [List.concat_eq_append] at hcz
    rw [hcz] at hc hac ha3 hmap ⊢
    rw [if_neg (by simp)]
    obtain ⟨bz, hbz⟩ := hc.valid z (by simp)
    have hnd := hc.nodup
    rw [List.nodup_append] at hnd
    refine Linked.snoc ⟨_, hmap.get hbz, ?_⟩ ha3 ?_ hc ?_
    · rw [linkUpd_next]; simp
    · rw [linkUpd_next]
      have : a ≠ z := fun e => hac (by simp [e])
      simpa [this] using hnext
    · intro x hx b hb
      refine ⟨_, hmap.get hb, ?_⟩
      rw [linkUpd_next]
      have : x ≠ z := fun e => hnd.2.2 hx (by simp [e])
      simp [this]

/-- After `insert_bucket` a chain of another slot, which does not hold the last
cell of the chain that was extended, is as before. -/
theorem insert_chain_other {heap heap3 : List Bucket} {buckets : List Ptr} {slot i a : Nat}
    {c ci : List Nat} {hd : Ptr}
    (hci : Linked Bucket.next heap (buckets.getD i none) ci) (his : slot ≠ i)
    (hz : ∀ z, c.getLast? = some z → z ∉ ci)
    (hmap : Mapped (linkUpd a c.getLast? hd) heap heap3) :
    Linked Bucket.next heap3
      ((if c = [] then buckets.set slot (some a) else buckets).getD i none) ci := by
  rw [getD_set_ite_other his]
  refine hci.frame ?_
  intro x hx b hb
  refine ⟨_, hmap.get hb, ?_⟩
  rw [linkUpd_next]
  have : ¬ (some x = c.getLast?) := fun e => hz x e.symm hx
  rw [if_neg this]

/-- After `insert_bucket` the traversal list is the inserted bucket followed by
the old traversal list. -/
theorem insert_order {heap heap3 : List Bucket} {a : Nat} {ba : Bucket} {z : Option Nat}
    {hd : Ptr} {ord : List Nat}
    (ho : Linked Bucket.link1 heap hd ord) (ha : heap[a]? = some ba) (hnew : a ∉ ord)
    (hmap : Mapped (linkUpd a z hd) heap heap3) :
    Linked Bucket.link1 heap3 (some a) (a :: ord) := by
  refine ⟨rfl, _, hmap.get ha, ?_⟩
  rw [linkUpd_link1, if_pos rfl]
  refine ho.frame ?_
  intro x hx b hb
  refine ⟨_, hmap.get hb, ?_⟩
  have hxa : x ≠ a := fun e => hnew (e ▸ hx)
  rw [linkUpd_link1, if_neg hxa]

/-! ## The shape is kept by `store` and `delete` -/

/-- The run of `insert_bucket` on a table of the shape above and a bucket `a` that
ends no chain yet and is newer than the cells of the table. -/
theorem insert_bucket_shape {heap : List Bucket} {htab : Table} {a : Nat} {ba : Bucket}
    (sh : Shape heap htab) (ha : heap[a]? = some ba) (hnext : ba.next = none)
    (hfresh : ∀ i, i < htab.size → ∀ c,
      Linked Bucket.next heap (htab.buckets.getD i none) c → ∀ z ∈ c, z < a)
    (hhd : ∀ hd, htab.list = some hd → hd < a) :
    ∃ heap1 c, Linked Bucket.next heap (htab.buckets.getD (ba.hash % htab.size) none) c ∧
      insert_bucket heap htab a =
        .ok (heap1,
          { htab with
            buckets := if c = [] then htab.buckets.set (ba.hash % htab.size) (some a)
              else htab.buckets,
            entries := htab.entries + 1,
            list := some a }) ∧
      Mapped (linkUpd a c.getLast? htab.list) heap heap1 ∧
      Shape heap1
          { htab with
            buckets := if c = [] then htab.buckets.set (ba.hash % htab.size) (some a)
              else htab.buckets,
            entries := htab.entries + 1,
            list := some a } := by
  have hslotlt : ba.hash % htab.size < htab.size := Nat.mod_lt _ sh.size_pos
  obtain ⟨c, hc, hch⟩ := sh.chains _ hslotlt
  have hac : a ∉ c := fun hmem => Nat.lt_irrefl _ (hfresh _ hslotlt c hc a hmem)
  have hhd1 : ∀ hd, htab.list = some hd → hd ≠ a ∧ ∃ b, heap[hd]? = some b := by
    intro hd hl
    obtain ⟨b, hb, _⟩ := sh.head hd hl
    exact ⟨Nat.ne_of_lt (hhd hd hl), b, hb⟩
  obtain ⟨heap3, hrun, hmap⟩ := insert_bucket_run ha sh.size_pos sh.slots hc hac hhd1
  refine ⟨heap3, c, hc, hrun, hmap, ?_⟩
  have hcore : SameCore heap heap3 := SameCore.of_linkUpd hmap
  have hlast : ∀ z, c.getLast? = some z → z ∈ c := fun z hz => List.mem_of_getLast?_eq_some hz
  refine ⟨sh.size_pos, ?_, ?_, ?_, ?_, ?_, ?_⟩
  · show (if _ then _ else _ : List Ptr).length = htab.size
    split_ifs <;> simp [sh.slots]
  · intro i hi
    by_cases his : ba.hash % htab.size = i
    · subst his
      refine ⟨c ++ [a], insert_chain_slot hc (by rw [sh.slots]; exact hi) ha hnext hac hmap, ?_⟩
      intro x hx
      show (bucketAt heap3 x).hash % htab.size = _
      rcases List.mem_append.1 hx with hx | hx
      · obtain ⟨b, hb⟩ := hc.valid x hx
        rw [hcore.bucketAt_hash hb]
        exact hch x hx
      · rw [List.mem_singleton] at hx
        subst hx
        rw [hcore.bucketAt_hash ha, bucketAt_eq ha]
    · obtain ⟨ci, hci, hcih⟩ := sh.chains i hi
      refine ⟨ci, insert_chain_other hci his ?_ hmap, ?_⟩
      · intro z hz hzi
        exact his ((hch z (hlast z hz)).symm.trans (hcih z hzi))
      · intro x hx
        show (bucketAt heap3 x).hash % htab.size = _
        obtain ⟨b, hb⟩ := hci.valid x hx
        rw [hcore.bucketAt_hash hb]
        exact hcih x hx
  · intro hd hl
    have hda : hd = a := (Option.some.inj hl).symm
    subst hda
    refine ⟨_, hmap.get ha, ?_⟩
    rw [linkUpd_next, if_neg (fun e => hac (hlast _ e.symm))]
    exact hnext
  · intro x b1 hb1
    obtain ⟨b, hb, hbe⟩ := hmap.inv hb1
    obtain ⟨len, hlen⟩ := sh.hashes x b hb
    refine ⟨len, ?_⟩
    rw [hbe, linkUpd_hash, linkUpd_key]
    exact hlen
  · intro x b1 hb1 y hy
    obtain ⟨b, hb, hbe⟩ := hmap.inv hb1
    rw [hbe, linkUpd_link1] at hy
    by_cases hxa : x = a
    · rw [if_pos hxa] at hy
      rw [hxa]
      exact hhd y hy
    · rw [if_neg hxa] at hy
      exact sh.older x b hb y hy
  · intro x b1 hb1 y hy
    obtain ⟨b, hb, hbe⟩ := hmap.inv hb1
    rw [hbe, linkUpd_next] at hy
    by_cases hxz : some x = c.getLast?
    · rw [if_pos hxz] at hy
      have hya : a = y := Option.some.inj hy
      rw [← hya]
      exact hfresh _ hslotlt c hc x (hlast x hxz.symm)
    · rw [if_neg hxz] at hy
      exact sh.newer x b hb y hy

/-- Allocating a further bucket with a hash of its key keeps the shape. -/
theorem Shape.grow {heap : List Bucket} {htab : Table} (sh : Shape heap htab)
    (key : Key) (len data : Nat) :
    Shape (heap ++ [⟨htab.hfunc key len, key, data, none, none, none⟩]) htab := by
  have hsame : ∀ (x : Nat) (b : Bucket), heap[x]? = some b →
      (heap ++ [(⟨htab.hfunc key len, key, data, none, none, none⟩ : Bucket)])[x]? = some b := by
    intro x b hb
    rw [List.getElem?_append_left (lt_of_get hb)]
    exact hb
  have hcases : ∀ (x : Nat) (b1 : Bucket),
      (heap ++ [(⟨htab.hfunc key len, key, data, none, none, none⟩ : Bucket)])[x]? = some b1 →
      heap[x]? = some b1 ∨ b1 = ⟨htab.hfunc key len, key, data, none, none, none⟩ := by
    intro x b1 hb1
    by_cases hx : x < heap.length
    · rw [List.getElem?_append_left hx] at hb1
      exact Or.inl hb1
    · rw [List.getElem?_append_right (by omega)] at hb1
      right
      cases hk : x - heap.length with
      | zero => rw [hk] at hb1; exact (Option.some.inj hb1).symm
      | succ m => rw [hk] at hb1; cases hb1
  refine ⟨sh.size_pos, sh.slots, ?_, ?_, ?_, ?_, ?_⟩
  · intro i hi
    obtain ⟨c, hc, hch⟩ := sh.chains i hi
    refine ⟨c, hc.frame (fun x _ b hb => ⟨b, hsame x b hb, rfl⟩), ?_⟩
    intro x hx
    obtain ⟨b, hb⟩ := hc.valid x hx
    rw [bucketAt_eq (hsame x b hb), ← bucketAt_eq hb]
    exact hch x hx
  · intro hd hl
    obtain ⟨b, hb, hn⟩ := sh.head hd hl
    exact ⟨b, hsame hd b hb, hn⟩
  · intro x b1 hb1
    rcases hcases x b1 hb1 with h1 | h1
    · exact sh.hashes x b1 h1
    · exact ⟨len, by rw [h1]⟩
  · intro x b1 hb1 y hy
    rcases hcases x b1 hb1 with h1 | h1
    · exact sh.older x b1 h1 y hy
    · rw [h1] at hy; cases hy
  · intro x b1 hb1 y hy
    rcases hcases x b1 hb1 with h1 | h1
    · exact sh.newer x b1 h1 y hy
    · rw [h1] at hy; cases hy

/-- The empty table `new(n, h)` over the arena of a table of the shape above has
that shape. -/
theorem Shape.renew {heap : List Bucket} {htab : Table} (sh : Shape heap htab) {n : Nat}
    (hn : 0 < n) : Shape heap (new n htab.hfunc) := by
  refine ⟨hn, by simp [Htable.new], ?_, ?_, sh.hashes, sh.older, sh.newer⟩
  · intro i hi
    refine ⟨[], ?_, fun a ha => absurd ha (by simp)⟩
    show Linked Bucket.next heap ((List.replicate n none).getD i none) []
    rw [List.getD_eq_getElem?_getD, List.getElem?_replicate, if_pos (show i < n from hi)]
    rfl
  · intro hd hl
    cases hl

theorem Shape.of_fresh {n : Nat} (h : Key → Nat → Nat) (hn : 0 < n) :
    Shape (fresh n h).heap (fresh n h).htab := by
  refine ⟨hn, by simp [Htable.fresh, Htable.new], ?_, ?_, ?_, ?_, ?_⟩
  · intro i hi
    refine ⟨[], ?_, fun a ha => absurd ha (by simp)⟩
    show Linked Bucket.next [] ((List.replicate n none).getD i none) []
    rw [List.getD_eq_getElem?_getD, List.getElem?_replicate, if_pos (show i < n from hi)]
    rfl
  · intro hd hl
    cases hl
  · intro x b hb
    cases hb
  · intro x b hb
    cases hb
  · intro x b hb
    cases hb

/-- The run of `resize_table` on a table of the shape above. -/
theorem resize_table_shape {s : State} (sh : Shape s.heap s.htab) :
    ∃ s2, resize_table s = .ok s2 ∧ Shape s2.heap s2.htab ∧
      s2.heap.length = s.heap.length ∧ (s.htab.entries < s.htab.size → s2 = s) := by
  obtain ⟨hlf, hiff⟩ := load_factor_lt_iff sh.size_pos
  by_cases hlt : s.htab.entries < s.htab.size
  · refine ⟨s, ?_, sh, rfl, fun _ => rfl⟩
    simp only [resize_table, hlf, hiff.2 hlt, if_true]
  · have hnot : ¬ (s.htab.entries / s.htab.size < HTAB_LOAD_MAX) := by
      rw [hiff]; exact hlt
    have hpos : 0 < s.htab.size * 2 := by have := sh.size_pos; omega
    have shn : Shape s.heap (new (s.htab.size * 2) s.htab.hfunc) := sh.renew hpos
    cases hl : s.htab.list with
    | none =>
      refine ⟨⟨s.heap, new (s.htab.size * 2) s.htab.hfunc⟩, ?_, shn, rfl,
        fun h => absurd h hlt⟩
      simp only [resize_table, hlf, hnot, if_false, hl, resizeLoop]
    | some b =>
      obtain ⟨bb, hbb, hbn⟩ := sh.head b hl
      obtain ⟨heap1, c, _, hrun, hmap, sh1⟩ := insert_bucket_shape shn hbb hbn
        (by
          intro i hi c hc z hz
          have hnil : c = [] := by
            have hg : (new (s.htab.size * 2) s.htab.hfunc).buckets.getD i none = none := by
              show (List.replicate (s.htab.size * 2) (none : Ptr)).getD i none = none
              rw [List.getD_eq_getElem?_getD, List.getElem?_replicate]
              split_ifs <;> rfl
            rw [hg] at hc
            exact hc.none_nil
          rw [hnil] at hz
          exact absurd hz (by simp))
        (by intro hd hl1; cases hl1)
      refine ⟨⟨heap1, _⟩, ?_, sh1, hmap.length, fun h => absurd h hlt⟩
      simp only [resize_table, hlf, hnot, if_false, hl]
      rw [resizeLoop_one_pass _ _ _ _ rfl, hrun]

/-- On a table of the shape above `store` returns and keeps the shape. -/
theorem store_shape {s : State} (sh : Shape s.heap s.htab) (key : Key) (len data : Nat) :
    ∃ s1, store s key len data = .ok (data, s1) ∧ Shape s1.heap s1.htab := by
  obtain ⟨s2, hres, sh2, _, _⟩ := resize_table_shape sh
  have hnb : (s2.heap ++ [(⟨s2.htab.hfunc key len, key, data, none, none, none⟩ : Bucket)])[
      s2.heap.length]? = some ⟨s2.htab.hfunc key len, key, data, none, none, none⟩ :=
    List.getElem?_concat_length _ _
  obtain ⟨heap1, c, _, hrun, _, sh1⟩ := insert_bucket_shape (sh2.grow key len data) hnb rfl
    (by
      intro i hi c hc z hz
      obtain ⟨c0, hc0, _⟩ := sh2.chains i hi
      have hc0' : Linked Bucket.next
          (s2.heap ++ [(⟨s2.htab.hfunc key len, key, data, none, none, none⟩ : Bucket)])
          (s2.htab.buckets.getD i none) c0 :=
        hc0.frame (fun x _ b hb => ⟨b, by
          rw [List.getElem?_append_left (lt_of_get hb)]; exact hb, rfl⟩)
      have hcc : c = c0 := Linked.unique hc hc0'
      rw [hcc] at hz
      obtain ⟨b, hb⟩ := hc0.valid z hz
      exact lt_of_get hb)
    (by
      intro hd hl
      obtain ⟨b, hb, _⟩ := sh2.head hd hl
      exact lt_of_get hb)
  refine ⟨⟨heap1, _⟩, ?_, sh1⟩
  simp only [store, hres]
  rw [show (make_bucket s2 key len data).1.heap =
      s2.heap ++ [(⟨s2.htab.hfunc key len, key, data, none, none, none⟩ : Bucket)] from rfl,
    show (make_bucket s2 key len data).1.htab = s2.htab from rfl,
    show (make_bucket s2 key len data).2 = s2.heap.length from rfl, hrun]

theorem unlinkUpd_hash (xo : Option Nat) (nx : Nat) (l1 : Ptr) (x : Nat) (y : Bucket) :
    (unlinkUpd xo nx l1 x y).hash = y.hash := by
  unfold unlinkUpd; dsimp only; split_ifs <;> rfl

theorem unlinkUpd_key (xo : Option Nat) (nx : Nat) (l1 : Ptr) (x : Nat) (y : Bucket) :
    (unlinkUpd xo nx l1 x y).key = y.key := by
  unfold unlinkUpd; dsimp only; split_ifs <;> rfl

theorem unlinkUpd_data (xo : Option Nat) (nx : Nat) (l1 : Ptr) (x : Nat) (y : Bucket) :
    (unlinkUpd xo nx l1 x y).data = y.data := by
  unfold unlinkUpd; dsimp only; split_ifs <;> rfl

theorem unlinkUpd_next (xo : Option Nat) (nx : Nat) (l1 : Ptr) (x : Nat) (y : Bucket) :
    (unlinkUpd xo nx l1 x y).next = if some x = xo then some nx else y.next := by
  unfold unlinkUpd; dsimp only; split_ifs <;> rfl

theorem unlinkUpd_link1 (xo : Option Nat) (nx : Nat) (l1 : Ptr) (x : Nat) (y : Bucket) :
    (unlinkUpd xo nx l1 x y).link1 = if x = nx then l1 else y.link1 := by
  unfold unlinkUpd; dsimp only; split_ifs <;> rfl

/-- When `findLoop` finds a bucket in a null-terminated chain, the returned
reference is the cell that points to it: the starting reference, or the `next`
field of its chain predecessor. -/
theorem findLoop_found {heap : List Bucket} (hash : Nat) :
    ∀ (c : List Nat) (v : Nat) (r0 : Ref) (fuel : Nat) (found : Nat) (r : Ref),
      Linked Bucket.next heap (some v) c → c.length ≤ fuel →
      findLoop heap hash fuel v r0 = .ok (some found, r) →
      ∃ pre post, c = pre ++ found :: post ∧ r = lastRef r0 pre := by
  intro c
  induction c with
  | nil => intro v r0 fuel _ _ h; exact absurd (show (some v : Ptr) = none from h) (by simp)
  | cons a t ih =>
    intro v r0 fuel found r h hlen hf
    obtain ⟨hp, b, hb, ht⟩ := h
    have hva : v = a := by simpa using hp
    subst hva
    cases fuel with
    | zero => simp at hlen
    | succ n =>
      have hlen1 : t.length ≤ n := by simpa using hlen
      simp only [findLoop, rd_ok hb] at hf
      by_cases hh : b.hash = hash
      · rw [if_pos hh] at hf
        have h1 := Prod.mk.inj (Except.ok.inj hf)
        refine ⟨[], t, ?_, h1.2.symm⟩
        rw [← Option.some.inj h1.1]
        rfl
      · rw [if_neg hh] at hf
        cases hnx : b.next with
        | none =>
          rw [hnx] at hf
          have h1 := Prod.mk.inj (Except.ok.inj hf)
          cases h1.1
        | some nx =>
          rw [hnx] at hf ht
          obtain ⟨pre, post, hc, hr⟩ := ih nx (.next v) n found r ht hlen1 hf
          exact ⟨v :: pre, post, by rw [hc]; rfl, hr⟩

/-- When `find` finds a bucket on a table whose slot chain for the key is the
null-terminated chain `c`, the bucket is in `c` and the reference points to it. -/
theorem find_found {s : State} {key : Key} {len : Nat} {c : List Nat} {found : Nat}
    {ref : Option Ref} (hsz : 0 < s.htab.size)
    (hc : Linked Bucket.next s.heap
      (s.htab.buckets.getD (s.htab.hfunc key len % s.htab.size) none) c)
    (hslot : s.htab.hfunc key len % s.htab.size < s.htab.buckets.length)
    (hf : find s key len = .ok (some found, ref)) :
    ∃ pre post, c = pre ++ found :: post ∧
      ref = some (lastRef (.slot (s.htab.hfunc key len % s.htab.size)) pre) := by
  have hsz0 : s.htab.size ≠ 0 := Nat.pos_iff_ne_zero.1 hsz
  have hget : s.htab.buckets[s.htab.hfunc key len % s.htab.size]? =
      some (s.htab.buckets.getD (s.htab.hfunc key len % s.htab.size) none) := by
    rw [List.getD_eq_getElem?_getD, List.getElem?_eq_getElem hslot]
    rfl
  cases hp : s.htab.buckets.getD (s.htab.hfunc key len % s.htab.size) none with
  | none =>
    rw [hp] at hget
    simp only [find, hsz0, if_false, hget] at hf
    have h1 := Prod.mk.inj (Except.ok.inj hf)
    cases h1.1
  | some v =>
    rw [hp] at hget hc
    simp only [find, hsz0, if_false, hget] at hf
    split at hf
    · cases hf
    · rename_i v1 r1 hloop
      have h1 := Prod.mk.inj (Except.ok.inj hf)
      have hv1 : v1 = some found := h1.1
      subst hv1
      obtain ⟨pre, post, hcc, hr⟩ := findLoop_found _ c v _ _ found r1 hc
        (Nat.le_succ_of_le hc.length_le) hloop
      exact ⟨pre, post, hcc, by rw [← h1.2, hr]⟩

/-- Writing through the reference `find` returns: the slot is overwritten when the
found bucket heads its chain, else the `next` field of its predecessor; reading
the reference back gives the written pointer. -/
theorem writeRef_lastRef {heap : List Bucket} {htab : Table} {slot : Nat} {pre : List Nat}
    (v : Ptr) (hslot : slot < htab.buckets.length)
    (hpre : ∀ x ∈ pre, ∃ b, heap[x]? = some b) :
    ∃ heap1, writeRef heap htab (lastRef (.slot slot) pre) v =
        .ok (heap1, { htab with buckets :=
          if pre = [] then htab.buckets.set slot v else htab.buckets }) ∧
      Mapped (fun x y => if some x = pre.getLast? then { y with next := v } else y)
        heap heap1 ∧
      readRef heap1 { htab with buckets :=
          if pre = [] then htab.buckets.set slot v else htab.buckets }
        (lastRef (.slot slot) pre) = .ok v := by
  rcases List.eq_nil_or_concat pre with hnil | ⟨c1, z, hcz⟩
  · subst hnil
    refine ⟨heap, ?_, ?_, ?_⟩
    · simp [lastRef, writeRef, hslot]
    · intro x
      cases heap[x]? <;> simp
    · simp only [lastRef, readRef, if_true, List.getElem?_set_self hslot]
  · rw [List.concat_eq_append] at hcz
    subst hcz
    obtain ⟨bz, hbz⟩ := hpre z (by simp)
    obtain ⟨heap1, hm1, hmap1⟩ := modify_mapped (fun x => { x with next := v }) hbz
    refine ⟨heap1, ?_, ?_, ?_⟩
    · rw [lastRef_append]
      simp [writeRef, hm1]
    · intro x
      rw [hmap1 x]
      cases heap[x]? <;> simp [eq_comm]
    · rw [lastRef_append]
      have hz1 : heap1[z]? = some { bz with next := v } := by
        rw [hmap1.get hbz]; simp
      simp only [readRef, rd_ok hz1]

theorem readRef_frame {heap1 heap2 : List Bucket} {htab : Table} {r : Ref} {v : Ptr}
    (h : readRef heap1 htab r = .ok v)
    (hfr : ∀ (x : Nat) (b : Bucket), heap1[x]? = some b →
      ∃ b2 : Bucket, heap2[x]? = some b2 ∧ b2.next = b.next) :
    readRef heap2 htab r = .ok v := by
  cases r with
  | slot i => exact h
  | next x =>
    simp only [readRef] at h ⊢
    split at h
    · rename_i y hy
      have hget : heap1[x]? = some y := by
        unfold rd at hy
        split at hy
        · rename_i y1 hy1
          cases hy
          exact hy1
        · cases hy
      obtain ⟨b2, hb2, hn⟩ := hfr x y hget
      rw [rd_ok hb2]
      cases h
      simp only [hn]
    · cases h

/-- The run of `delete` when `find` has found the bucket `found` in the chain
`pre ++ found :: post` of the slot of the key: with no chain successor the call
dereferences `NULL`; with the successor `nx` it returns the data of the bucket,
takes the bucket out of the chain, decrements `entries` and writes `link[1]` of
`nx`. -/
theorem delete_run {s : State} {key : Key} {len : Nat} {pre post : List Nat} {found : Nat}
    {bf : Bucket}
    (hslot : s.htab.hfunc key len % s.htab.size < s.htab.buckets.length)
    (hc : Linked Bucket.next s.heap
      (s.htab.buckets.getD (s.htab.hfunc key len % s.htab.size) none) (pre ++ found :: post))
    (hf : find s key len =
      .ok (some found, some (lastRef (.slot (s.htab.hfunc key len % s.htab.size)) pre)))
    (hb : s.heap[found]? = some bf)
    (hold : ∀ y, bf.link1 = some y → ∃ b, s.heap[y]? = some b) :
    (bf.next = none → delete s key len = .error .nullDeref) ∧
    (∀ nx, bf.next = some nx →
      ∃ heap3, delete s key len =
          .ok (bf.data, { heap := heap3, htab := { s.htab with
            buckets := if pre = [] then
                s.htab.buckets.set (s.htab.hfunc key len % s.htab.size) (some nx)
              else s.htab.buckets,
            entries := if s.htab.entries = 0 then 2 ^ 64 - 1 else s.htab.entries - 1 } }) ∧
        Mapped (unlinkUpd pre.getLast? nx bf.link1) s.heap heap3) := by
  have hnd := hc.nodup
  have hpre : ∀ x ∈ pre, ∃ b, s.heap[x]? = some b :=
    fun x hx => hc.valid x (List.mem_append_left _ hx)
  obtain ⟨heap1, hw, hmap1, hread⟩ := writeRef_lastRef bf.next hslot hpre
  have hfpre : ¬ (some found = pre.getLast?) := by
    intro e
    have hmem := List.mem_of_getLast?_eq_some e.symm
    rw [List.nodup_append] at hnd
    exact hnd.2.2 hmem (List.mem_cons_self _ _)
  have hb1 : heap1[found]? = some bf := by
    rw [hmap1.get hb]; simp [hfpre]
  constructor
  · intro hnone
    rw [hnone] at hw hread
    simp only [delete, bind, Except.bind, pure, Except.pure, hf, rd_ok hb, hnone, hw, hread,
      rd_ok hb1]
  · intro nx hnx
    rw [hnx] at hw hread hmap1
    have hpost : Linked Bucket.next s.heap (some nx) post := by
      obtain ⟨_, b, hb', ht⟩ := hc.suffix
      rw [hb] at hb'
      cases hb'
      rw [← hnx]
      exact ht
    obtain ⟨t, ht⟩ := hpost.head_eq
    have hnxmem : nx ∈ post := by rw [ht]; exact List.mem_cons_self _ _
    have hne : found ≠ nx := by
      intro e
      rw [List.nodup_append] at hnd
      have := (List.nodup_cons.1 hnd.2.1).1
      exact this (e ▸ hnxmem)
    obtain ⟨bn, hbn⟩ := hpost.valid nx hnxmem
    obtain ⟨heap2, hm2, hmap2⟩ :=
      modify_mapped (fun x => { x with link1 := bf.link1 }) (hmap1.get hbn)
    have hb2 : heap2[found]? = some bf := by
      rw [hmap2.get hb1]; simp [hne]
    cases hl : bf.link1 with
    | none =>
      rw [hl] at hm2
      refine ⟨heap2, ?_, ?_⟩
      · simp only [delete, bind, Except.bind, pure, Except.pure, hf, rd_ok hb, hnx, hw, hread,
          rd_ok hb1, hl, hm2, rd_ok hb2]
      · intro x
        rw [(hmap1.comp hmap2) x]
        cases s.heap[x]? <;> simp [unlinkUpd, hl]
    | some y =>
      obtain ⟨by0, hby0⟩ := hold y hl
      have hby2 : ∃ b2, heap2[y]? = some b2 := by
        rw [(hmap1.comp hmap2) y, hby0]; exact ⟨_, rfl⟩
      obtain ⟨by2, hby2⟩ := hby2
      obtain ⟨heap3, hm3, hmap3⟩ := modify_mapped (fun x => { x with link0 := some nx }) hby2
      have hread2 := @readRef_frame _ heap2 _ _ _ hread (by
        intro x b hxb
        refine ⟨_, hmap2.get hxb, ?_⟩
        dsimp only
        split_ifs <;> rfl)
      rw [hl] at hm2
      refine ⟨heap3, ?_, ?_⟩
      · simp only [delete, bind, Except.bind, pure, Except.pure, hf, rd_ok hb, hnx, hw, hread,
          rd_ok hb1, hl, hm2, rd_ok hb2, hread2, hm3]
      · intro x
        rw [((hmap1.comp hmap2).comp hmap3) x]
        cases s.heap[x]? <;> simp [unlinkUpd, hl, eq_comm]

theorem SameCore.of_unlinkUpd {heap heap1 : List Bucket} {xo : Option Nat} {nx : Nat}
    {l1 : Ptr} (hm : Mapped (unlinkUpd xo nx l1) heap heap1) : SameCore heap heap1 :=
  fun _ _ h => ⟨_, hm.get h, unlinkUpd_hash _ _ _ _ _, unlinkUpd_key _ _ _ _ _,
    unlinkUpd_data _ _ _ _ _⟩

/-- The cell before `found` in a chain points to `found`. -/
theorem Linked.next_of_last {f : Bucket → Ptr} {heap : List Bucket} {p : Ptr}
    {pre post : List Nat} {found x : Nat}
    (h : Linked f heap p (pre ++ found :: post)) (hx : pre.getLast? = some x) :
    ∃ b, heap[x]? = some b ∧ f b = some found := by
  obtain ⟨ys, hys⟩ := List.getLast?_eq_some_iff.1 hx
  subst hys
  rw [List.append_assoc] at h
  obtain ⟨_, b, hb, ht⟩ := h.suffix
  exact ⟨b, hb, ht.1⟩

/-- Taking the cell `found` out of a chain by redirecting the pointer to it. -/
theorem Linked.remove {heap heap1 : List Bucket} {found : Nat} {post : List Nat} {v : Ptr}
    (hpost : Linked Bucket.next heap1 v post) :
    ∀ {pre : List Nat} {p : Ptr}, Linked Bucket.next heap p (pre ++ found :: post) →
      (pre ++ found :: post).Nodup →
      (∀ x ∈ pre, ∀ b, heap[x]? = some b →
        ∃ b1, heap1[x]? = some b1 ∧
          b1.next = if some x = pre.getLast? then v else b.next) →
      Linked Bucket.next heap1 (if pre = [] then v else p) (pre ++ post) := by
  intro pre
  induction pre with
  | nil =>
    intro p _ _ _
    rw [if_pos rfl]
    exact hpost
  | cons x t ih =>
    intro p h hnd hfr
    obtain ⟨hp, b, hb, ht⟩ := h
    rw [if_neg (by simp)]
    obtain ⟨b1, hb1, hn1⟩ := hfr x (List.mem_cons_self _ _) b hb
    refine ⟨hp, b1, hb1, ?_⟩
    have hnd1 : (t ++ found :: post).Nodup := (List.nodup_cons.1 hnd).2
    have hxt : x ∉ t := fun hm => (List.nodup_cons.1 hnd).1 (List.mem_append_left _ hm)
    cases t with
    | nil =>
      rw [List.getLast?_singleton, if_pos rfl] at hn1
      rw [hn1]
      exact hpost
    | cons y t1 =>
      have hne : ¬ (some x = (x :: y :: t1).getLast?) := by
        intro e
        rw [List.getLast?_cons_cons] at e
        exact hxt (List.mem_of_getLast?_eq_some e.symm)
      rw [if_neg hne] at hn1
      rw [hn1]
      have := ih ht hnd1 (by
        intro x1 hx1 b2 hb2
        obtain ⟨b3, hb3, hn3⟩ := hfr x1 (List.mem_cons_of_mem _ hx1) b2 hb2
        rw [List.getLast?_cons_cons] at hn3
        exact ⟨b3, hb3, hn3⟩)
      rw [if_neg (by simp)] at this
      exact this

theorem getD_set_ite_self {buckets : List Ptr} {c : List Nat} {slot : Nat} {v : Ptr}
    (h : slot < buckets.length) :
    (if c = [] then buckets.set slot v else buckets).getD slot none =
      if c = [] then v else buckets.getD slot none := by
  split_ifs
  · rw [List.getD_eq_getElem?_getD, List.getElem?_set_self h]
    rfl
  · rfl

/-- Every `delete` that returns keeps the shape of the table. -/
theorem delete_shape {s s1 : State} {key : Key} {len d : Nat} (sh : Shape s.heap s.htab)
    (h : delete s key len = .ok (d, s1)) :
    Shape s1.heap s1.htab ∧ s1.htab.hfunc = s.htab.hfunc ∧ s1.htab.size = s.htab.size := by
  have hslotlt : s.htab.hfunc key len % s.htab.size < s.htab.size := Nat.mod_lt _ sh.size_pos
  have hslot : s.htab.hfunc key len % s.htab.size < s.htab.buckets.length := by
    rw [sh.slots]; exact hslotlt
  obtain ⟨c, hc, hch⟩ := sh.chains _ hslotlt
  cases hfind : find s key len with
  | error e =>
    simp only [delete, bind, Except.bind, hfind] at h
    cases h
  | ok r =>
    obtain ⟨fo, ref⟩ := r
    cases fo with
    | none =>
      simp only [delete, bind, Except.bind, pure, Except.pure, hfind] at h
      cases h
      exact ⟨sh, rfl, rfl⟩
    | some found =>
      obtain ⟨pre, post, hcc, hr⟩ := find_found sh.size_pos hc hslot hfind
      subst hcc
      subst hr
      obtain ⟨bf, hb⟩ := hc.valid found (by simp)
      have hold : ∀ y, bf.link1 = some y → ∃ b, s.heap[y]? = some b := by
        intro y hy
        have h1 := sh.older found bf hb y hy
        have h2 := lt_of_get hb
        exact ⟨_, List.getElem?_eq_getElem (by omega)⟩
      obtain ⟨hnull, hok⟩ := delete_run hslot hc hfind hb hold
      cases hnx : bf.next with
      | none =>
        rw [hnull hnx] at h
        cases h
      | some nx =>
        obtain ⟨heap3, hdel, hmap⟩ := hok nx hnx
        rw [hdel] at h
        have hs1 := (Prod.mk.inj (Except.ok.inj h)).2
        subst hs1
        have hcore : SameCore s.heap heap3 := SameCore.of_unlinkUpd hmap
        have hnd := hc.nodup
        have hfn : found < nx := sh.newer found bf hb nx hnx
        have hlastmem : ∀ x, pre.getLast? = some x → x ∈ pre :=
          fun x hx => List.mem_of_getLast?_eq_some hx
        have hpost : Linked Bucket.next s.heap (some nx) post := by
          obtain ⟨_, b, hb', ht⟩ := hc.suffix
          rw [hb] at hb'
          cases hb'
          rw [← hnx]
          exact ht
        have hpost3 : Linked Bucket.next heap3 (some nx) post := by
          refine hpost.frame ?_
          intro x hx b hxb
          refine ⟨_, hmap.get hxb, ?_⟩
          rw [unlinkUpd_next, if_neg]
          intro e
          rw [List.nodup_append] at hnd
          exact hnd.2.2 (hlastmem x e.symm) (List.mem_cons_of_mem _ hx)
        refine ⟨⟨sh.size_pos, ?_, ?_, ?_, ?_, ?_, ?_⟩, rfl, rfl⟩
        · show (if _ then _ else _ : List Ptr).length = s.htab.size
          split_ifs <;> simp [sh.slots]
        · intro i hi
          by_cases his : s.htab.hfunc key len % s.htab.size = i
          · subst his
            refine ⟨pre ++ post, ?_, ?_⟩
            · show Linked Bucket.next heap3
                ((if _ then _ else _ : List Ptr).getD _ none) _
              rw [getD_set_ite_self hslot]
              refine Linked.remove hpost3 hc hnd ?_
              intro x hx b hxb
              refine ⟨_, hmap.get hxb, ?_⟩
              rw [unlinkUpd_next]
            · intro x hx
              show (bucketAt heap3 x).hash % s.htab.size = _
              have hxc : x ∈ pre ++ found :: post := by
                rcases List.mem_append.1 hx with h1 | h1
                · exact List.mem_append_left _ h1
                · exact List.mem_append_right _ (List.mem_cons_of_mem _ h1)
              obtain ⟨b, hxb⟩ := hc.valid x hxc
              rw [hcore.bucketAt_hash hxb]
              exact hch x hxc
          · obtain ⟨ci, hci, hcih⟩ := sh.chains i hi
            refine ⟨ci, ?_, ?_⟩
            · show Linked Bucket.next heap3
                ((if _ then _ else _ : List Ptr).getD _ none) _
              rw [getD_set_ite_other his]
              refine hci.frame ?_
              intro x hx b hxb
              refine ⟨_, hmap.get hxb, ?_⟩
              rw [unlinkUpd_next, if_neg]
              intro e
              have hxpre := hlastmem x e.symm
              exact his ((hch x (List.mem_append_left _ hxpre)).symm.trans (hcih x hx))
            · intro x hx
              show (bucketAt heap3 x).hash % s.htab.size = _
              obtain ⟨b, hxb⟩ := hci.valid x hx
              rw [hcore.bucketAt_hash hxb]
              exact hcih x hx
        · intro hd hl
          obtain ⟨bh, hbh, hbn⟩ := sh.head hd hl
          refine ⟨_, hmap.get hbh, ?_⟩
          rw [unlinkUpd_next, if_neg]
          · exact hbn
          · intro e
            obtain ⟨bx, hbx, hbxn⟩ := hc.next_of_last e.symm
            rw [hbh] at hbx
            cases hbx
            rw [hbn] at hbxn
            cases hbxn
        · intro x b1 hb1
          obtain ⟨b, hxb, hbe⟩ := hmap.inv hb1
          obtain ⟨len1, hlen1⟩ := sh.hashes x b hxb
          refine ⟨len1, ?_⟩
          rw [hbe, unlinkUpd_hash, unlinkUpd_key]
          exact hlen1
        · intro x b1 hb1 y hy
          obtain ⟨b, hxb, hbe⟩ := hmap.inv hb1
          rw [hbe, unlinkUpd_link1] at hy
          by_cases hxn : x = nx
          · rw [if_pos hxn] at hy
            have := sh.older found bf hb y hy
            omega
          · rw [if_neg hxn] at hy
            exact sh.older x b hxb y hy
        · intro x b1 hb1 y hy
          obtain ⟨b, hxb, hbe⟩ := hmap.inv hb1
          rw [hbe, unlinkUpd_next] at hy
          by_cases hxz : some x = pre.getLast?
          · rw [if_pos hxz] at hy
            obtain ⟨bx, hbx, hbxn⟩ := hc.next_of_last hxz.symm
            have h1 := sh.newer x bx hbx found hbxn
            have h2 : nx = y := Option.some.inj hy
            omega
          · rw [if_neg hxz] at hy
            exact sh.newer x b hxb y hy

/-- Every table reached from `new(n, h)`, `n ≥ 1`, by calls of `store` and
`delete` that return has the shape above and the hash function `h`. -/
theorem Reachable.shape {n : Nat} {h : Key → Nat → Nat} (hn : 1 ≤ n) {s : State}
    (hr : Reachable n h s) : Shape s.heap s.htab ∧ s.htab.hfunc = h := by
  induction hr with
  | new => exact ⟨Shape.of_fresh h hn, rfl⟩
  | store _ hst ih =>
    obtain ⟨sh, hfun⟩ := ih
    obtain ⟨s2, hs2, sh2⟩ := store_shape sh _ _ _
    have hf := (store_fields sh.size_pos hst).2.1
    rw [hs2] at hst
    have : s2 = _ := (Prod.mk.inj (Except.ok.inj hst)).2
    subst this
    exact ⟨sh2, hf.trans hfun⟩
  | delete _ hdel ih =>
    obtain ⟨sh, hfun⟩ := ih
    obtain ⟨sh2, hf, _⟩ := delete_shape sh hdel
    exact ⟨sh2, hf.trans hfun⟩

/-- In a table of the shape above the traversal list is null-terminated. -/
theorem Shape.order_linked {heap : List Bucket} {htab : Table} (sh : Shape heap htab) :
    ∃ ord, Linked Bucket.link1 heap htab.list ord := by
  have hcell : ∀ x : Nat, ∀ b : Bucket, heap[x]? = some b →
      ∃ l, Linked Bucket.link1 heap (some x) l := by
    intro x
    induction x using Nat.strong_induction_on with
    | _ x ih =>
      intro b hb
      cases hl : b.link1 with
      | none => exact ⟨[x], rfl, b, hb, by rw [hl]; rfl⟩
      | some y =>
        have hy := sh.older x b hb y hl
        have hx := lt_of_get hb
        obtain ⟨l, hlk⟩ := ih y hy _ (List.getElem?_eq_getElem (by omega))
        exact ⟨x :: l, rfl, b, hb, by rw [hl]; exact hlk⟩
  cases hl : htab.list with
  | none => exact ⟨[], rfl⟩
  | some hd =>
    obtain ⟨b, hb, _⟩ := sh.head hd hl
    exact hcell hd b hb

theorem Reach.reachable {n : Nat} {h : Key → Nat → Nat} {s : State} (hr : Reach n h s) :
    Reachable n h s := by
  induction hr with
  | new => exact Reachable.new
  | store _ hst ih => exact Reachable.store ih hst

/-- The run of a `store` that does not resize, on a table of the shape above with
the slot chain `c` for the key. -/
theorem store_no_resize_run {s : State} (sh : Shape s.heap s.htab) (key : Key)
    (len data : Nat) (hroom : s.htab.entries < s.htab.size) :
    ∃ heap1 c,
      Linked Bucket.next s.heap
        (s.htab.buckets.getD (s.htab.hfunc key len % s.htab.size) none) c ∧
      store s key len data =
        .ok (data, { heap := heap1, htab := { s.htab with
          buckets := if c = [] then
              s.htab.buckets.set (s.htab.hfunc key len % s.htab.size) (some s.heap.length)
            else s.htab.buckets,
          entries := s.htab.entries + 1,
          list := some s.heap.length } }) ∧
      Mapped (linkUpd s.heap.length c.getLast? s.htab.list)
        (s.heap ++ [⟨s.htab.hfunc key len, key, data, none, none, none⟩]) heap1 := by
  obtain ⟨s2, hres, _, _, hsame⟩ := resize_table_shape sh
  have hs2 : s2 = s := hsame hroom
  subst hs2
  have hnb : (s2.heap ++ [(⟨s2.htab.hfunc key len, key, data, none, none, none⟩ : Bucket)])[
      s2.heap.length]? = some ⟨s2.htab.hfunc key len, key, data, none, none, none⟩ :=
    List.getElem?_concat_length _ _
  have hslotlt : s2.htab.hfunc key len % s2.htab.size < s2.htab.size :=
    Nat.mod_lt _ sh.size_pos
  obtain ⟨c, hc, _⟩ := sh.chains _ hslotlt
  have hc' : Linked Bucket.next
      (s2.heap ++ [(⟨s2.htab.hfunc key len, key, data, none, none, none⟩ : Bucket)])
      (s2.htab.buckets.getD (s2.htab.hfunc key len % s2.htab.size) none) c :=
    hc.frame (fun x _ b hb => ⟨b, by
      rw [List.getElem?_append_left (lt_of_get hb)]; exact hb, rfl⟩)
  have hac : s2.heap.length ∉ c := by
    intro hmem
    obtain ⟨b, hb⟩ := hc.valid _ hmem
    exact Nat.lt_irrefl _ (lt_of_get hb)
  have hhd : ∀ hd, s2.htab.list = some hd → hd ≠ s2.heap.length ∧
      ∃ b, (s2.heap ++ [(⟨s2.htab.hfunc key len, key, data, none, none, none⟩ : Bucket)])[hd]? =
        some b := by
    intro hd hl
    obtain ⟨b, hb, _⟩ := sh.head hd hl
    refine ⟨Nat.ne_of_lt (lt_of_get hb), b, ?_⟩
    rw [List.getElem?_append_left (lt_of_get hb)]
    exact hb
  obtain ⟨heap3, hrun, hmap⟩ := insert_bucket_run hnb sh.size_pos sh.slots hc' hac hhd
  refine ⟨heap3, c, hc, ?_, hmap⟩
  simp only [store, hres]
  rw [show (make_bucket s2 key len data).1.heap =
      s2.heap ++ [(⟨s2.htab.hfunc key len, key, data, none, none, none⟩ : Bucket)] from rfl,
    show (make_bucket s2 key len data).1.htab = s2.htab from rfl,
    show (make_bucket s2 key len data).2 = s2.heap.length from rfl, hrun]

/-- Stores that fit below the load limit all return, keep the size and raise
`entries` by their number. -/
theorem stores_count :
    ∀ (cmds : List (Key × Nat × Nat)) (s : State), Shape s.heap s.htab →
      s.htab.entries + cmds.length ≤ s.htab.size →
      ∃ s1, stores s cmds = .ok s1 ∧ s1.htab.size = s.htab.size ∧
        s1.htab.entries = s.htab.entries + cmds.length := by
  intro cmds
  induction cmds with
  | nil => intro s _ _; exact ⟨s, rfl, rfl, rfl⟩
  | cons c rest ih =>
    intro s sh hfit
    obtain ⟨key, len, data⟩ := c
    have hroom : s.htab.entries < s.htab.size := by simp at hfit; omega
    obtain ⟨s1, hst, sh1⟩ := store_shape sh key len data
    obtain ⟨_, _, _, hsize, hent, _⟩ := store_fields sh.size_pos hst
    rw [if_neg (by omega)] at hsize
    have hent1 := hent hroom
    obtain ⟨s2, hs2, hsize2, hent2⟩ := ih s1 sh1 (by simp at hfit; omega)
    refine ⟨s2, ?_, hsize2.trans hsize, ?_⟩
    · simp only [stores, hst, hs2]
    · rw [hent2, hent1, List.length_cons]; omega

/-- In a table built by stores the head of the traversal list is the bucket
allocated last. -/
theorem Reach.head_newest {n : Nat} {h : Key → Nat → Nat} (hn : 1 ≤ n) {s : State}
    (hr : Reach n h s) : ∀ hd, s.htab.list = some hd → hd + 1 = s.heap.length := by
  induction hr with
  | new => intro hd hl; cases hl
  | @store s0 s1 key len data d hr1 hst _ =>
    intro hd hl
    obtain ⟨ord, wf, _⟩ := hr1.wf hn
    obtain ⟨s2, ord2, hs2, wf2, _, _, _, hshape⟩ := store_spec wf key len data
    have hlen := (store_fields wf.size_pos hst).2.2.1
    rw [hs2] at hst
    have : s2 = s1 := (Prod.mk.inj (Except.ok.inj hst)).2
    subst this
    have hhead : s2.htab.list = some s0.heap.length := by
      rcases hshape with ⟨_, h1, _⟩ | ⟨_, _, _, _, _, h1⟩
      · have := wf2.order
        rw [h1] at this
        exact this.1
      · have := wf2.order
        rw [h1] at this
        exact this.1
    rw [hhead] at hl
    rw [hlen, ← Option.some.inj hl]

theorem Reachable.of_built {n : Nat} {h : Key → Nat → Nat} {cmds : List (Key × Nat × Nat)}
    (hok : stores (fresh n h) cmds = .ok (built n h cmds)) :
    Reachable n h (built n h cmds) :=
  (Reach.of_stores cmds Reach.new hok).reachable

theorem Reachable.of_builtDel {n : Nat} {h : Key → Nat → Nat} {cmds : List (Key × Nat × Nat)}
    {key : Key} {len d : Nat}
    (hok : stores (fresh n h) cmds = .ok (built n h cmds))
    (hdel : Htable.delete (built n h cmds) key len = .ok (d, builtDel n h cmds key len)) :
    Reachable n h (builtDel n h cmds key len) :=
  Reachable.delete (Reachable.of_built hok) hdel

/-! ## Hash, key and data of a bucket never change -/

theorem modify_core {heap heap1 : List Bucket} {p : Nat} {f : Bucket → Bucket}
    (h : modify heap p f = .ok heap1)
    (hf : ∀ y : Bucket, (f y).hash = y.hash ∧ (f y).key = y.key ∧ (f y).data = y.data) :
    SameCore heap heap1 := by
  unfold modify at h
  split at h
  · rename_i y hy
    cases h
    intro x b hb
    by_cases hx : x = p
    · subst hx
      rw [hy] at hb
      cases hb
      exact ⟨f y, get_set_self _ hy, (hf y).1, (hf y).2.1, (hf y).2.2⟩
    · exact ⟨b, by rw [get_set_other _ (Ne.symm hx)]; exact hb, rfl, rfl, rfl⟩
  · cases h

theorem writeRef_core {heap heap1 : List Bucket} {htab htab1 : Table} {r : Ref} {v : Ptr}
    (h : writeRef heap htab r v = .ok (heap1, htab1)) : SameCore heap heap1 := by
  cases r with
  | slot i =>
    simp only [writeRef] at h
    split at h
    · cases h
      exact SameCore.refl _
    · cases h
  | next b =>
    simp only [writeRef] at h
    split at h
    · rename_i heap2 hm
      cases h
      exact modify_core hm (fun _ => ⟨rfl, rfl, rfl⟩)
    · cases h

/-- Whenever `insert_bucket` returns, every bucket has kept its hash, key and
data. -/
theorem insert_bucket_core {heap heap1 : List Bucket} {htab htab1 : Table} {b : Nat}
    (h : insert_bucket heap htab b = .ok (heap1, htab1)) : SameCore heap heap1 := by
  simp only [insert_bucket, bind, Except.bind, pure, Except.pure] at h
  split at h
  · cases h
  split at h
  · cases h
  split at h
  · cases h
  split at h
  · cases h
  split at h
  · cases h
  rename_i w hw
  have c1 : SameCore heap w.1 := @writeRef_core _ w.1 _ w.2 _ _ hw
  split at h
  · cases h
  rename_i heap2 hm
  have c2 : SameCore w.1 heap2 := modify_core hm (fun _ => ⟨rfl, rfl, rfl⟩)
  split at h
  · cases h
  split at h
  · cases h
    exact c1.trans c2
  · split at h
    · cases h
    · rename_i heap3 hm3
      cases h
      exact (c1.trans c2).trans (modify_core hm3 (fun _ => ⟨rfl, rfl, rfl⟩))

/-- Whenever `resize_table` returns, every bucket has kept its hash, key and
data. -/
theorem resize_table_core {s s1 : State} (hsz : 0 < s.htab.size)
    (h : resize_table s = .ok s1) : SameCore s.heap s1.heap := by
  obtain ⟨hlf, hiff⟩ := load_factor_lt_iff hsz
  by_cases hlt : s.htab.entries < s.htab.size
  · simp only [resize_table, hlf, hiff.2 hlt, if_true] at h
    cases h
    exact SameCore.refl _
  · have hnot : ¬ (s.htab.entries / s.htab.size < HTAB_LOAD_MAX) := by
      rw [hiff]; exact hlt
    simp only [resize_table, hlf, hnot, if_false] at h
    cases hl : s.htab.list with
    | none =>
      rw [hl] at h
      simp only [resizeLoop] at h
      cases h
      exact SameCore.refl _
    | some b =>
      rw [hl, resizeLoop_one_pass _ _ _ _ rfl] at h
      split at h
      · cases h
      · rename_i heap1 nt1 hins
        cases h
        exact insert_bucket_core hins

/-- Whenever `store(key, len, data)` returns on a table with `size ≥ 1`, the bucket
it has allocated holds `key`, `data` and the hash `hfunc(key, len)`, and every
other bucket has kept its hash, key and data. -/
theorem store_core {s s1 : State} {key : Key} {len data d : Nat} (hsz : 0 < s.htab.size)
    (h : store s key len data = .ok (d, s1)) :
    SameCore s.heap s1.heap ∧
      ∃ nb, s1.heap[s.heap.length]? = some nb ∧ nb.hash = s.htab.hfunc key len ∧
        nb.key = key ∧ nb.data = data := by
  simp only [store] at h
  split at h
  · cases h
  rename_i s2 hres
  obtain ⟨f1, f2, _⟩ := resize_table_fields hsz hres
  have c0 := resize_table_core hsz hres
  split at h
  · cases h
  rename_i heap3 htab3 hins
  cases h
  have c1 : SameCore (s2.heap ++
      [(⟨s2.htab.hfunc key len, key, data, none, none, none⟩ : Bucket)]) heap3 :=
    insert_bucket_core hins
  refine ⟨(c0.trans (SameCore.of_append _ _)).trans c1, ?_⟩
  obtain ⟨nb, hnb, e1, e2, e3⟩ := c1 s2.heap.length _ (List.getElem?_concat_length _ _)
  rw [f2] at hnb
  exact ⟨nb, hnb, by rw [e1, f1], e2, e3⟩

/-- Whenever `delete` returns on a table of the shape above, every bucket has kept
its hash, key and data, and no bucket was allocated or freed. -/
theorem delete_core {s s1 : State} {key : Key} {len d : Nat} (sh : Shape s.heap s.htab)
    (h : delete s key len = .ok (d, s1)) :
    SameCore s.heap s1.heap ∧ s1.heap.length = s.heap.length := by
  have hslotlt : s.htab.hfunc key len % s.htab.size < s.htab.size := Nat.mod_lt _ sh.size_pos
  have hslot : s.htab.hfunc key len % s.htab.size < s.htab.buckets.length := by
    rw [sh.slots]; exact hslotlt
  obtain ⟨c, hc, _⟩ := sh.chains _ hslotlt
  cases hfind : find s key len with
  | error e =>
    simp only [delete, bind, Except.bind, hfind] at h
    cases h
  | ok r =>
    obtain ⟨fo, ref⟩ := r
    cases fo with
    | none =>
      simp only [delete, bind, Except.bind, pure, Except.pure, hfind] at h
      cases h
      exact ⟨SameCore.refl _, rfl⟩
    | some found =>
      obtain ⟨pre, post, hcc, hr⟩ := find_found sh.size_pos hc hslot hfind
      subst hcc
      subst hr
      obtain ⟨bf, hb⟩ := hc.valid found (by simp)
      have hold : ∀ y, bf.link1 = some y → ∃ b, s.heap[y]? = some b := by
        intro y hy
        have h1 := sh.older found bf hb y hy
        have h2 := lt_of_get hb
        exact ⟨_, List.getElem?_eq_getElem (by omega)⟩
      obtain ⟨hnull, hok⟩ := delete_run hslot hc hfind hb hold
      cases hnx : bf.next with
      | none =>
        rw [hnull hnx] at h
        cases h
      | some nx =>
        obtain ⟨heap3, hdel, hmap⟩ := hok nx hnx
        rw [hdel] at h
        have hs1 := (Prod.mk.inj (Except.ok.inj h)).2
        subst hs1
        exact ⟨SameCore.of_unlinkUpd hmap, hmap.length⟩

theorem Stored.to_reachable {n : Nat} {h : Key → Nat → Nat} {s : State}
    {log : List (Key × Nat × Nat)} (hr : Stored n h s log) : Reachable n h s := by
  induction hr with
  | new => exact Reachable.new
  | store _ hst ih => exact Reachable.store ih hst
  | delete _ hdel ih => exact Reachable.delete ih hdel

/-- In a table reached by `store` and `delete` calls the bucket at address `a` is
the one the `a`-th `store` call allocated: it holds the key and the data of that
call and the hash of that key with the length passed in that call. -/
theorem Stored.log_spec {n : Nat} {h : Key → Nat → Nat} (hn : 1 ≤ n) {s : State}
    {log : List (Key × Nat × Nat)} (hr : Stored n h s log) :
    s.heap.length = log.length ∧
      ∀ (a : Nat) (b : Bucket), s.heap[a]? = some b →
        ∃ key len data, log[a]? = some (key, len, data) ∧ b.key = key ∧
          b.hash = h key len ∧ b.data = data := by
  induction hr with
  | new =>
    refine ⟨rfl, ?_⟩
    intro a b hb
    cases hb
  | @store s0 s1 log0 key len data d hr0 hst ih =>
    obtain ⟨hlen, hlog⟩ := ih
    obtain ⟨sh, hfun⟩ := hr0.to_reachable.shape hn
    obtain ⟨hcore, nb, hnb, e1, e2, e3⟩ := store_core sh.size_pos hst
    have hl1 := (store_fields sh.size_pos hst).2.2.1
    refine ⟨by rw [hl1, hlen]; simp, ?_⟩
    intro a b hb
    have ha : a < s0.heap.length + 1 := by
      have := lt_of_get hb
      omega
    by_cases hlt : a < s0.heap.length
    · obtain ⟨b1, hb1, f1, f2, f3⟩ := hcore a _ (List.getElem?_eq_getElem hlt)
      rw [hb] at hb1
      cases hb1
      obtain ⟨k0, l0, d0, hl0, g1, g2, g3⟩ := hlog a _ (List.getElem?_eq_getElem hlt)
      refine ⟨k0, l0, d0, ?_, f2.trans g1, f1.trans g2, f3.trans g3⟩
      rw [List.getElem?_append_left (by rw [← hlen]; exact hlt)]
      exact hl0
    · have hae : a = s0.heap.length := by omega
      subst hae
      rw [hb] at hnb
      cases hnb
      refine ⟨key, len, data, ?_, e2, by rw [e1, hfun], e3⟩
      rw [hlen]
      exact List.getElem?_concat_length _ _
  | @delete s0 s1 log0 key len d hr0 hdel ih =>
    obtain ⟨hlen, hlog⟩ := ih
    obtain ⟨sh, _⟩ := hr0.to_reachable.shape hn
    obtain ⟨hcore, hl1⟩ := delete_core sh hdel
    refine ⟨hl1.trans hlen, ?_⟩
    intro a b hb
    have hlt : a < s0.heap.length := by
      have := lt_of_get hb
      omega
    obtain ⟨b1, hb1, f1, f2, f3⟩ := hcore a _ (List.getElem?_eq_getElem hlt)
    rw [hb] at hb1
    cases hb1
    obtain ⟨k0, l0, d0, hl0, g1, g2, g3⟩ := hlog a _ (List.getElem?_eq_getElem hlt)
    exact ⟨k0, l0, d0, hl0, f2.trans g1, f1.trans g2, f3.trans g3⟩

theorem Stored.from_stores {n : Nat} {h : Key → Nat → Nat} :
    ∀ (cmds : List (Key × Nat × Nat)) {s s1 : State} {log : List (Key × Nat × Nat)},
      Stored n h s log → stores s cmds = .ok s1 → Stored n h s1 (log ++ cmds) := by
  intro cmds
  induction cmds with
  | nil =>
    intro s s1 log hr hs
    have : s = s1 := Except.ok.inj hs
    rw [List.append_nil]
    exact this ▸ hr
  | cons c rest ih =>
    intro s s1 log hr hs
    obtain ⟨key, len, data⟩ := c
    unfold stores at hs
    cases hst : Htable.store s key len data with
    | error e => rw [hst] at hs; exact absurd hs (by simp)
    | ok r =>
      obtain ⟨d, s2⟩ := r
      rw [hst] at hs
      have := ih (Stored.store hr hst) hs
      rw [List.append_assoc] at this
      exact this

theorem Stored.from_builtDel {n : Nat} {h : Key → Nat → Nat} {cmds : List (Key × Nat × Nat)}
    {key : Key} {len d : Nat}
    (hok : stores (fresh n h) cmds = .ok (built n h cmds))
    (hdel : Htable.delete (built n h cmds) key len = .ok (d, builtDel n h cmds key len)) :
    Stored n h (builtDel n h cmds key len) cmds := by
  have h1 := Stored.from_stores cmds Stored.new hok
  rw [List.nil_append] at h1
  exact Stored.delete h1 hdel

/-! ## The claims on invariants and on the resize -/

/-- C13 fails on the code: on `new(4, myhashfunc)` holding the keys with byte `2`,
`3`, `6`, after `delete` of the key with byte `2` the chains of the four slots
hold `1 + 1 + 0 + 0 = 2` buckets and `entries` is `2`, but the traversal list has
length `1`: `delete` cut the live bucket `1` off the traversal list. -/
theorem delete_breaks_order_count :
    (stores (fresh 4 myhashfunc) [([2], 1, 1), ([3], 1, 2), ([6], 1, 3)] >>= fun s =>
      delete s [2] 1 >>= fun r =>
      chain r.2 0 >>= fun c0 => chain r.2 1 >>= fun c1 =>
      chain r.2 2 >>= fun c2 => chain r.2 3 >>= fun c3 =>
        (order r.2).map (fun o =>
          (entries r.2, c0.length + c1.length + c2.length + c3.length, o.length))) =
      .ok (2, 2, 1) :=
  rfl

/-- C14: in every table reachable from `new(n, h)`, `n ≥ 1`, by calls of `store`
and `delete` that return (resizes included), `log` being the list of the
`store(key, len, data)` calls made so far: the chain of every slot `i` is a
null-terminated chain without repetition; every bucket `a` in it has a cached hash
with `hash mod size = i`, holds the key of the `a`-th `store` call, and its cached
hash is `h` of that key with the length passed in that call; and no bucket of it
occurs in the chain of another slot. -/
theorem slot_consistency (n : Nat) (h : Key → Nat → Nat) (hn : 1 ≤ n) (s : State)
    (log : List (Key × Nat × Nat)) (hr : Stored n h s log) (i : Nat) (hi : i < size s) :
    ∃ c, chain s i = .ok c ∧ c.Nodup ∧
      (∀ a ∈ c, (bucketAt s.heap a).hash % size s = i ∧
        ∃ key len data, log[a]? = some (key, len, data) ∧
          (bucketAt s.heap a).key = key ∧
          (bucketAt s.heap a).hash = h key len ∧
          (bucketAt s.heap a).hash = h (bucketAt s.heap a).key len) ∧
      (∀ j cj, j ≠ i → chain s j = .ok cj → ∀ a ∈ c, a ∉ cj) := by
  obtain ⟨sh, _⟩ := hr.to_reachable.shape hn
  obtain ⟨_, hlog⟩ := hr.log_spec hn
  obtain ⟨c, hc, hch⟩ := sh.chains i hi
  refine ⟨c, chain_of_linked (by rw [sh.slots]; exact hi) hc, hc.nodup, ?_, ?_⟩
  · intro a ha
    refine ⟨hch a ha, ?_⟩
    obtain ⟨b, hb⟩ := hc.valid a ha
    obtain ⟨key, len, data, hl, e1, e2, _⟩ := hlog a b hb
    rw [bucketAt_eq hb]
    exact ⟨key, len, data, hl, e1, e2, by rw [e1]; exact e2⟩
  · intro j cj hji hcj a ha haj
    obtain ⟨hjlt, hlj⟩ := chain_linked hcj
    rw [sh.slots] at hjlt
    obtain ⟨cj0, hcj0, hcjh⟩ := sh.chains j hjlt
    have : cj = cj0 := Linked.unique hlj hcj0
    subst this
    exact hji ((hcjh a haj).symm.trans (hch a ha))

/-- C14 on slot 0 of the table that `new(4, myhashfunc)`, the stores of the keys
with byte `2`, `3`, `6` and the `delete` of the key with byte `2` leave. -/
theorem slot_consistency_witness :
    ∃ c, chain (builtDel 4 myhashfunc [([2], 1, 1), ([3], 1, 2), ([6], 1, 3)] [2] 1) 0 =
        .ok c ∧ c.Nodup ∧
      (∀ a ∈ c,
        (bucketAt (builtDel 4 myhashfunc [([2], 1, 1), ([3], 1, 2), ([6], 1, 3)] [2] 1).heap
            a).hash %
          size (builtDel 4 myhashfunc [([2], 1, 1), ([3], 1, 2), ([6], 1, 3)] [2] 1) = 0 ∧
        ∃ key len data,
          [(([2] : Key), 1, 1), ([3], 1, 2), ([6], 1, 3)][a]? = some (key, len, data) ∧
          (bucketAt (builtDel 4 myhashfunc [([2], 1, 1), ([3], 1, 2), ([6], 1, 3)] [2] 1).heap
            a).key = key ∧
          (bucketAt (builtDel 4 myhashfunc [([2], 1, 1), ([3], 1, 2), ([6], 1, 3)] [2] 1).heap
            a).hash = myhashfunc key len ∧
          (bucketAt (builtDel 4 myhashfunc [([2], 1, 1), ([3], 1, 2), ([6], 1, 3)] [2] 1).heap
            a).hash =
          myhashfunc
            (bucketAt (builtDel 4 myhashfunc [([2], 1, 1), ([3], 1, 2), ([6], 1, 3)] [2] 1).heap
              a).key len) ∧
      (∀ j cj, j ≠ 0 →
        chain (builtDel 4 myhashfunc [([2], 1, 1), ([3], 1, 2), ([6], 1, 3)] [2] 1) j = .ok cj →
        ∀ a ∈ c, a ∉ cj) :=
  slot_consistency 4 myhashfunc (by decide) _ [([2], 1, 1), ([3], 1, 2), ([6], 1, 3)]
    (@Stored.from_builtDel 4 myhashfunc [([2], 1, 1), ([3], 1, 2), ([6], 1, 3)] [2] 1 1
      rfl rfl)
    0 (by decide)

/-- C17, as stated, fails: `new` takes every `initial_size`, and (with `calloc` of
no slots succeeding) `new(0, myhashfunc)` is a table of size `0`, on which the
first `store` divides by zero in `load_factor`. -/
theorem new_zero_has_size_zero :
    size (fresh 0 myhashfunc) = 0 ∧
      store (fresh 0 myhashfunc) [97] 1 1 = .error .divByZero :=
  ⟨rfl, rfl⟩

/-- C17, amended: for every `initial_size n ≥ 1` and every sequence of calls of
`store` and `delete` that return on the result of `new(n, h)`, `size > 0`. -/
theorem size_pos_of_reachable (n : Nat) (h : Key → Nat → Nat) (hn : 1 ≤ n) (s : State)
    (hr : Reachable n h s) : 0 < size s :=
  (hr.shape hn).1.size_pos

/-- C17, amended, on the table that `new(4, myhashfunc)`, the stores of the keys
with byte `2`, `3`, `6` and the `delete` of the key with byte `2` leave. -/
theorem size_pos_of_reachable_witness :
    0 < size (builtDel 4 myhashfunc [([2], 1, 1), ([3], 1, 2), ([6], 1, 3)] [2] 1) :=
  size_pos_of_reachable 4 myhashfunc (by decide) _
    (@Reachable.of_builtDel 4 myhashfunc [([2], 1, 1), ([3], 1, 2), ([6], 1, 3)] [2] 1 1
      rfl rfl)

/-- C15: for every table with `size ≥ 1`, `load_factor` is the integer quotient
`entries / size`, it reaches `HTAB_LOAD_MAX` exactly when `entries ≥ size`, and a
`store` that returns leaves the size doubled if `entries ≥ size` held before the
call and unchanged otherwise; on every table reachable by `store` and `delete`
calls the `store` does return. -/
theorem resize_trigger (s : State) (hsz : 1 ≤ size s) (key : Key) (len data : Nat) :
    load_factor s.htab = .ok (entries s / size s) ∧
    (HTAB_LOAD_MAX ≤ entries s / size s ↔ size s ≤ entries s) ∧
    (∀ d s1, store s key len data = .ok (d, s1) →
      size s1 = if size s ≤ entries s then 2 * size s else size s) ∧
    (∀ n h, 1 ≤ n → Reachable n h s → ∃ s1, store s key len data = .ok (data, s1) ∧
      size s1 = if size s ≤ entries s then 2 * size s else size s) := by
  obtain ⟨hlf, hiff⟩ := load_factor_lt_iff (show 0 < s.htab.size from hsz)
  have hstep : ∀ d s1, store s key len data = .ok (d, s1) →
      size s1 = if size s ≤ entries s then 2 * size s else size s := by
    intro d s1 hst
    have := (store_fields (show 0 < s.htab.size from hsz) hst).2.2.2.1
    show s1.htab.size = if s.htab.size ≤ s.htab.entries then 2 * s.htab.size else s.htab.size
    rw [this, Nat.mul_comm]
  refine ⟨hlf, ?_, hstep, ?_⟩
  · show HTAB_LOAD_MAX ≤ s.htab.entries / s.htab.size ↔ s.htab.size ≤ s.htab.entries
    rw [← Nat.not_lt, hiff, Nat.not_lt]
  · intro n h hn hr
    obtain ⟨s1, hst, _⟩ := store_shape (hr.shape hn).1 key len data
    exact ⟨s1, hst, hstep _ _ hst⟩

/-- C15 on `new(4, myhashfunc)` holding four keys (`entries = size = 4`): the next
`store` returns and leaves a table of size `8`. -/
theorem resize_trigger_witness :
    ∃ s1, store (built 4 myhashfunc [([97], 1, 1), ([98], 1, 2), ([99], 1, 3), ([100], 1, 4)])
        [101] 1 5 = .ok (5, s1) ∧
      size s1 = if size (built 4 myhashfunc
            [([97], 1, 1), ([98], 1, 2), ([99], 1, 3), ([100], 1, 4)]) ≤
          entries (built 4 myhashfunc
            [([97], 1, 1), ([98], 1, 2), ([99], 1, 3), ([100], 1, 4)])
        then 2 * size (built 4 myhashfunc
            [([97], 1, 1), ([98], 1, 2), ([99], 1, 3), ([100], 1, 4)])
        else size (built 4 myhashfunc
            [([97], 1, 1), ([98], 1, 2), ([99], 1, 3), ([100], 1, 4)]) :=
  (resize_trigger (built 4 myhashfunc [([97], 1, 1), ([98], 1, 2), ([99], 1, 3), ([100], 1, 4)])
    (by decide) [101] 1 5).2.2.2 4 myhashfunc (by decide) (Reachable.of_built rfl)

/-- C19: for every table with `size ≥ 1`, every `store` that returns leaves
`entries ≤ size`, and on every table reachable by `store` and `delete` calls it
does return; the bound is tight: the `n` stores of any `n` keys into the fresh
table `new(n, h)`, `n ≥ 1`, all return and leave `entries = size = n`. -/
theorem entries_le_size_tight (s : State) (hsz : 1 ≤ size s) (key : Key) (len data : Nat) :
    (∀ d s1, store s key len data = .ok (d, s1) → entries s1 ≤ size s1) ∧
    (∀ n h, 1 ≤ n → Reachable n h s →
      ∃ s1, store s key len data = .ok (data, s1) ∧ entries s1 ≤ size s1) ∧
    (∀ h (cmds : List (Key × Nat × Nat)), cmds.length = size s →
      ∃ s2, stores (fresh (size s) h) cmds = .ok s2 ∧ entries s2 = size s ∧
        size s2 = size s) := by
  have hstep : ∀ d s1, store s key len data = .ok (d, s1) → entries s1 ≤ size s1 :=
    fun d s1 hst => (store_fields (show 0 < s.htab.size from hsz) hst).2.2.2.2.2
  refine ⟨hstep, ?_, ?_⟩
  · intro n h hn hr
    obtain ⟨s1, hst, _⟩ := store_shape (hr.shape hn).1 key len data
    exact ⟨s1, hst, hstep _ _ hst⟩
  · intro h cmds hlen
    obtain ⟨s2, hs2, hsize, hent⟩ := stores_count cmds (fresh (size s) h)
      (Shape.of_fresh h hsz) (by show 0 + cmds.length ≤ size s; omega)
    refine ⟨s2, hs2, ?_, hsize⟩
    show s2.htab.entries = size s
    rw [hent, hlen]
    show 0 + size s = size s
    omega

/-- C19 on the fresh table `new(3, myhashfunc)`: a `store` leaves `entries ≤ size`,
and three stores (two of them of the same key) leave `entries = size = 3`. -/
theorem entries_le_size_tight_witness :
    (∃ s1, store (fresh 3 myhashfunc) [97] 1 1 = .ok (1, s1) ∧ entries s1 ≤ size s1) ∧
    (∃ s2, stores (fresh (size (fresh 3 myhashfunc)) myhashfunc)
        [([97], 1, 1), ([97], 1, 2), ([98], 1, 3)] = .ok s2 ∧
      entries s2 = size (fresh 3 myhashfunc) ∧ size s2 = size (fresh 3 myhashfunc)) :=
  ⟨(entries_le_size_tight (fresh 3 myhashfunc) (by decide) [97] 1 1).2.1 3 myhashfunc
      (by decide) Reachable.new,
   (entries_le_size_tight (fresh 3 myhashfunc) (by decide) [97] 1 1).2.2 myhashfunc
      [([97], 1, 1), ([97], 1, 2), ([98], 1, 3)] rfl⟩

/-- C16: for every table reachable from `new(n, h)`, `n ≥ 1`, by `store` and
`delete` calls, with `entries < size`, `store(key, data)` returns; a full `foreach`
then visits the new bucket, which holds `key` and `data`, first and after it
exactly the buckets it visited before the store, in the same order and with their
keys and data; the new bucket is the last element of the chain of slot
`h(key) mod size`, whose other elements are as before, and the chains of all other
slots are unchanged. -/
theorem store_prepends_and_appends (n : Nat) (h : Key → Nat → Nat) (hn : 1 ≤ n) (s : State)
    (hr : Reachable n h s) (hroom : entries s < size s) (key : Key) (len data : Nat) :
    ∃ s1 calls c, store s key len data = .ok (data, s1) ∧
      foreach s (fun _ _ => 1) = .ok (calls, s) ∧
      foreach s1 (fun _ _ => 1) = .ok (s.heap.length :: calls, s1) ∧
      (bucketAt s1.heap s.heap.length).key = key ∧
      (bucketAt s1.heap s.heap.length).data = data ∧
      (∀ a ∈ calls, (bucketAt s1.heap a).key = (bucketAt s.heap a).key ∧
        (bucketAt s1.heap a).data = (bucketAt s.heap a).data) ∧
      chain s (h key len % size s) = .ok c ∧
      chain s1 (h key len % size s) = .ok (c ++ [s.heap.length]) ∧
      (∀ i, i < size s → i ≠ h key len % size s → chain s1 i = chain s i) := by
  obtain ⟨sh, hfun⟩ := hr.shape hn
  subst hfun
  obtain ⟨ord, hord⟩ := sh.order_linked
  obtain ⟨heap1, c, hc, hst, hmap⟩ := store_no_resize_run sh key len data hroom
  have hslotlt : s.htab.hfunc key len % s.htab.size < s.htab.size := Nat.mod_lt _ sh.size_pos
  have hslot : s.htab.hfunc key len % s.htab.size < s.htab.buckets.length := by
    rw [sh.slots]; exact hslotlt
  have hnb : (s.heap ++ [(⟨s.htab.hfunc key len, key, data, none, none, none⟩ : Bucket)])[
      s.heap.length]? = some ⟨s.htab.hfunc key len, key, data, none, none, none⟩ :=
    List.getElem?_concat_length _ _
  have lift : ∀ (x : Nat) (b : Bucket), s.heap[x]? = some b →
      (s.heap ++ [(⟨s.htab.hfunc key len, key, data, none, none, none⟩ : Bucket)])[x]? =
        some b := by
    intro x b hb
    rw [List.getElem?_append_left (lt_of_get hb)]
    exact hb
  have hcore : SameCore s.heap heap1 :=
    (SameCore.of_append _ _).trans (SameCore.of_linkUpd hmap)
  have hfresh : ∀ (l : List Nat) (p : Ptr) (f : Bucket → Ptr), Linked f s.heap p l →
      s.heap.length ∉ l := by
    intro l p f hl hmem
    obtain ⟨b, hb⟩ := hl.valid _ hmem
    exact Nat.lt_irrefl _ (lt_of_get hb)
  have hord1 : Linked Bucket.link1 heap1 (some s.heap.length) (s.heap.length :: ord) :=
    insert_order (hord.frame (fun x _ b hb => ⟨b, lift x b hb, rfl⟩)) hnb
      (hfresh _ _ _ hord) hmap
  have hlen1 : ∀ i, i < s.htab.size →
      i < (if c = [] then
          s.htab.buckets.set (s.htab.hfunc key len % s.htab.size) (some s.heap.length)
        else s.htab.buckets).length := by
    intro i hi
    split_ifs
    · rw [List.length_set, sh.slots]; exact hi
    · rw [sh.slots]; exact hi
  refine ⟨_, ord, c, hst, ?_, ?_, ?_, ?_, ?_, chain_of_linked hslot hc, ?_, ?_⟩
  · rw [foreach_spec hord, callsUpToFirstStop_all (by simp)]
  · rw [foreach_spec (s := ⟨heap1, _⟩) hord1, callsUpToFirstStop_all (by simp)]
  · show (bucketAt heap1 s.heap.length).key = key
    rw [bucketAt_eq (hmap.get hnb), linkUpd_key]
  · show (bucketAt heap1 s.heap.length).data = data
    rw [bucketAt_eq (hmap.get hnb), linkUpd_data]
  · intro a ha
    obtain ⟨b, hb⟩ := hord.valid a ha
    obtain ⟨b1, hb1, _, hk, hd⟩ := hcore a b hb
    show (bucketAt heap1 a).key = _ ∧ (bucketAt heap1 a).data = _
    rw [bucketAt_eq hb1, bucketAt_eq hb]
    exact ⟨hk, hd⟩
  · refine chain_of_linked (s := ⟨heap1, _⟩) (hlen1 _ hslotlt) ?_
    exact insert_chain_slot (hc.frame (fun x _ b hb => ⟨b, lift x b hb, rfl⟩)) hslot hnb rfl
      (hfresh _ _ _ hc) hmap
  · intro i hi hne
    obtain ⟨ci, hci, hcih⟩ := sh.chains i hi
    obtain ⟨_, hch⟩ : True ∧ ∀ a ∈ c,
        (bucketAt s.heap a).hash % s.htab.size = s.htab.hfunc key len % s.htab.size := by
      obtain ⟨c0, hc0, hc0h⟩ := sh.chains _ hslotlt
      have : c = c0 := Linked.unique hc hc0
      subst this
      exact ⟨trivial, hc0h⟩
    rw [chain_of_linked (by rw [sh.slots]; exact hi) hci]
    refine chain_of_linked (s := ⟨heap1, _⟩) (hlen1 i hi) ?_
    refine insert_chain_other (hci.frame (fun x _ b hb => ⟨b, lift x b hb, rfl⟩))
      (Ne.symm hne) ?_ hmap
    intro z hz hzi
    exact hne ((hcih z hzi).symm.trans (hch z (List.mem_of_getLast?_eq_some hz)))

/-- C16 on the table that `new(4, myhashfunc)`, the stores of the keys with byte
`2`, `3`, `6` and the `delete` of the key with byte `2` leave (`entries = 2`): the
store of the key with byte `7`. -/
theorem store_prepends_and_appends_witness :
    ∃ s1 calls c,
      store (builtDel 4 myhashfunc [([2], 1, 1), ([3], 1, 2), ([6], 1, 3)] [2] 1) [7] 1 9 =
        .ok (9, s1) ∧
      foreach (builtDel 4 myhashfunc [([2], 1, 1), ([3], 1, 2), ([6], 1, 3)] [2] 1)
          (fun _ _ => 1) =
        .ok (calls, builtDel 4 myhashfunc [([2], 1, 1), ([3], 1, 2), ([6], 1, 3)] [2] 1) ∧
      foreach s1 (fun _ _ => 1) =
        .ok ((builtDel 4 myhashfunc [([2], 1, 1), ([3], 1, 2), ([6], 1, 3)] [2] 1).heap.length
          :: calls, s1) ∧
      (bucketAt s1.heap
        (builtDel 4 myhashfunc [([2], 1, 1), ([3], 1, 2), ([6], 1, 3)] [2] 1).heap.length).key =
        [7] ∧
      (bucketAt s1.heap
        (builtDel 4 myhashfunc [([2], 1, 1), ([3], 1, 2), ([6], 1, 3)] [2] 1).heap.length).data =
        9 ∧
      (∀ a ∈ calls,
        (bucketAt s1.heap a).key =
          (bucketAt (builtDel 4 myhashfunc [([2], 1, 1), ([3], 1, 2), ([6], 1, 3)] [2] 1).heap
            a).key ∧
        (bucketAt s1.heap a).data =
          (bucketAt (builtDel 4 myhashfunc [([2], 1, 1), ([3], 1, 2), ([6], 1, 3)] [2] 1).heap
            a).data) ∧
      chain (builtDel 4 myhashfunc [([2], 1, 1), ([3], 1, 2), ([6], 1, 3)] [2] 1)
          (myhashfunc [7] 1 %
            size (builtDel 4 myhashfunc [([2], 1, 1), ([3], 1, 2), ([6], 1, 3)] [2] 1)) =
        .ok c ∧
      chain s1 (myhashfunc [7] 1 %
            size (builtDel 4 myhashfunc [([2], 1, 1), ([3], 1, 2), ([6], 1, 3)] [2] 1)) =
        .ok (c ++
          [(builtDel 4 myhashfunc [([2], 1, 1), ([3], 1, 2), ([6], 1, 3)] [2] 1).heap.length]) ∧
      (∀ i, i < size (builtDel 4 myhashfunc [([2], 1, 1), ([3], 1, 2), ([6], 1, 3)] [2] 1) →
        i ≠ myhashfunc [7] 1 %
            size (builtDel 4 myhashfunc [([2], 1, 1), ([3], 1, 2), ([6], 1, 3)] [2] 1) →
        chain s1 i =
          chain (builtDel 4 myhashfunc [([2], 1, 1), ([3], 1, 2), ([6], 1, 3)] [2] 1) i) :=
  store_prepends_and_appends 4 myhashfunc (by decide) _
    (@Reachable.of_builtDel 4 myhashfunc [([2], 1, 1), ([3], 1, 2), ([6], 1, 3)] [2] 1 1
      rfl rfl)
    (by decide) [7] 1 9

/-- C18: for every table reachable from `new(n, h)`, `n ≥ 1`, by stores, with
`entries ≥ size`, `store(key, data)` returns and yields a table of doubled size
with `entries = 2`; a full `foreach` on it visits exactly the new bucket, which
holds `key`, `data` and the hash of `key`, and then the bucket `hd` that was the
head of the traversal list before the call, the one allocated last, with its key,
data and hash.  These two buckets are what the new table holds: the chain of every
slot `i` consists of `hd`, if its hash belongs to slot `i`, followed by the new
bucket, if its hash does; so `hd` and the new bucket are in the chains of their
slots, `lookup` of a key with the hash of `hd` finds the data of `hd`, and
`lookup(key)` finds `data` unless `hd` has the hash of `key`. -/
theorem resizing_store_keeps_head (n : Nat) (h : Key → Nat → Nat) (hn : 1 ≤ n) (s : State)
    (hr : Reach n h s) (hfull : size s ≤ entries s) (key : Key) (len data : Nat) :
    ∃ s1 hd, store s key len data = .ok (data, s1) ∧
      list s = some hd ∧ hd + 1 = s.heap.length ∧
      size s1 = 2 * size s ∧ entries s1 = 2 ∧
      foreach s1 (fun _ _ => 1) = .ok ([s.heap.length, hd], s1) ∧
      (bucketAt s1.heap s.heap.length).key = key ∧
      (bucketAt s1.heap s.heap.length).data = data ∧
      (bucketAt s1.heap s.heap.length).hash = h key len ∧
      (bucketAt s1.heap hd).key = (bucketAt s.heap hd).key ∧
      (bucketAt s1.heap hd).data = (bucketAt s.heap hd).data ∧
      (bucketAt s1.heap hd).hash = (bucketAt s.heap hd).hash ∧
      (∀ i, i < size s1 → chain s1 i = .ok ([hd, s.heap.length].filter
        (fun a => decide ((bucketAt s1.heap a).hash % size s1 = i)))) ∧
      (∃ c, chain s1 ((bucketAt s.heap hd).hash % size s1) = .ok c ∧ hd ∈ c) ∧
      (∃ c, chain s1 (h key len % size s1) = .ok c ∧ s.heap.length ∈ c) ∧
      (∀ (k1 : Key) (l1 : Nat), h k1 l1 = (bucketAt s.heap hd).hash →
        lookup s1 k1 l1 = .ok (bucketAt s.heap hd).data) ∧
      ((bucketAt s.heap hd).hash ≠ h key len → lookup s1 key len = .ok data) := by
  obtain ⟨ord, wf, hfun0⟩ := hr.wf hn
  obtain ⟨s1, ord1, hst, wf1, hfun, hcore, ⟨nb, hnb, hnh, hnk, hnd⟩, hshape⟩ :=
    store_spec wf key len data
  rcases hshape with ⟨hlt, _, _⟩ | ⟨_, hsize, hd, rest, hord, hord1⟩
  · exact absurd hfull (Nat.not_le.2 hlt)
  subst hord
  subst hord1
  have hl : s.htab.list = some hd := wf.order.1
  obtain ⟨bh, hbh⟩ := wf.order.valid hd (List.mem_cons_self _ _)
  obtain ⟨bh1, hbh1, hhh, hk, hdt⟩ := hcore hd bh hbh
  have hfun1 : s1.htab.hfunc = h := hfun.trans hfun0
  have hnew_hash : (bucketAt s1.heap s.heap.length).hash = h key len := by
    rw [bucketAt_eq hnb, hnh, hfun0]
  have hhd_hash : (bucketAt s1.heap hd).hash = (bucketAt s.heap hd).hash := by
    rw [bucketAt_eq hbh1, bucketAt_eq hbh, hhh]
  have hhd_data : (bucketAt s1.heap hd).data = (bucketAt s.heap hd).data := by
    rw [bucketAt_eq hbh1, bucketAt_eq hbh, hdt]
  have hsz1 : 0 < s1.htab.size := wf1.size_pos
  have hchain : ∀ i, i < size s1 → chain s1 i = .ok ([hd, s.heap.length].filter
      (fun a => decide ((bucketAt s1.heap a).hash % size s1 = i))) := by
    intro i hi
    exact chain_of_linked (by rw [wf1.slots]; exact hi) (wf1.chains i hi)
  refine ⟨s1, hd, hst, hl, hr.head_newest hn hd hl, ?_, wf1.count, ?_, ?_, ?_, hnew_hash, ?_,
    hhd_data, hhd_hash, hchain, ?_, ?_, ?_, ?_⟩
  · show s1.htab.size = 2 * s.htab.size
    rw [hsize, Nat.mul_comm]
  · rw [foreach_spec wf1.order, callsUpToFirstStop_all (by simp)]
  · rw [bucketAt_eq hnb, hnk]
  · rw [bucketAt_eq hnb, hnd]
  · rw [bucketAt_eq hbh1, bucketAt_eq hbh, hk]
  · refine ⟨_, hchain _ (Nat.mod_lt _ hsz1), ?_⟩
    rw [List.mem_filter]
    exact ⟨by simp, by rw [hhd_hash]; simp⟩
  · refine ⟨_, hchain _ (Nat.mod_lt _ hsz1), ?_⟩
    rw [List.mem_filter]
    exact ⟨by simp, by rw [hnew_hash]; simp⟩
  · intro k1 l1 he
    rw [lookup_spec wf1, hfun1, he,
      show [s.heap.length, hd].reverse = [hd, s.heap.length] from rfl,
      List.find?_cons, hhd_hash]
    simp [hhd_data]
  · intro hne
    rw [lookup_spec wf1, hfun1,
      show [s.heap.length, hd].reverse = [hd, s.heap.length] from rfl,
      List.find?_cons, hhd_hash, List.find?_cons, hnew_hash]
    simp [hne, bucketAt_eq hnb, hnd]

/-- C18 on `new(4, myhashfunc)` holding four keys: the store of a fifth key. -/
theorem resizing_store_keeps_head_witness :
    ∃ s1 hd,
      store (built 4 myhashfunc [([97], 1, 1), ([98], 1, 2), ([99], 1, 3), ([100], 1, 4)])
        [101] 1 5 = .ok (5, s1) ∧
      list (built 4 myhashfunc [([97], 1, 1), ([98], 1, 2), ([99], 1, 3), ([100], 1, 4)]) =
        some hd ∧
      hd + 1 =
        (built 4 myhashfunc
          [([97], 1, 1), ([98], 1, 2), ([99], 1, 3), ([100], 1, 4)]).heap.length ∧
      size s1 = 2 * size (built 4 myhashfunc
          [([97], 1, 1), ([98], 1, 2), ([99], 1, 3), ([100], 1, 4)]) ∧
      entries s1 = 2 ∧
      foreach s1 (fun _ _ => 1) =
        .ok ([(built 4 myhashfunc
          [([97], 1, 1), ([98], 1, 2), ([99], 1, 3), ([100], 1, 4)]).heap.length, hd], s1) ∧
      (bucketAt s1.heap (built 4 myhashfunc
          [([97], 1, 1), ([98], 1, 2), ([99], 1, 3), ([100], 1, 4)]).heap.length).key = [101] ∧
      (bucketAt s1.heap (built 4 myhashfunc
          [([97], 1, 1), ([98], 1, 2), ([99], 1, 3), ([100], 1, 4)]).heap.length).data = 5 ∧
      (bucketAt s1.heap (built 4 myhashfunc
          [([97], 1, 1), ([98], 1, 2), ([99], 1, 3), ([100], 1, 4)]).heap.length).hash =
        myhashfunc [101] 1 ∧
      (bucketAt s1.heap hd).key =
        (bucketAt (built 4 myhashfunc
          [([97], 1, 1), ([98], 1, 2), ([99], 1, 3), ([100], 1, 4)]).heap hd).key ∧
      (bucketAt s1.heap hd).data =
        (bucketAt (built 4 myhashfunc
          [([97], 1, 1), ([98], 1, 2), ([99], 1, 3), ([100], 1, 4)]).heap hd).data ∧
      (bucketAt s1.heap hd).hash =
        (bucketAt (built 4 myhashfunc
          [([97], 1, 1), ([98], 1, 2), ([99], 1, 3), ([100], 1, 4)]).heap hd).hash ∧
      (∀ i, i < size s1 → chain s1 i = .ok ([hd, (built 4 myhashfunc
          [([97], 1, 1), ([98], 1, 2), ([99], 1, 3), ([100], 1, 4)]).heap.length].filter
        (fun a => decide ((bucketAt s1.heap a).hash % size s1 = i)))) ∧
      (∃ c, chain s1 ((bucketAt (built 4 myhashfunc
          [([97], 1, 1), ([98], 1, 2), ([99], 1, 3), ([100], 1, 4)]).heap hd).hash % size s1) =
        .ok c ∧ hd ∈ c) ∧
      (∃ c, chain s1 (myhashfunc [101] 1 % size s1) = .ok c ∧
        (built 4 myhashfunc
          [([97], 1, 1), ([98], 1, 2), ([99], 1, 3), ([100], 1, 4)]).heap.length ∈ c) ∧
      (∀ (k1 : Key) (l1 : Nat), myhashfunc k1 l1 = (bucketAt (built 4 myhashfunc
          [([97], 1, 1), ([98], 1, 2), ([99], 1, 3), ([100], 1, 4)]).heap hd).hash →
        lookup s1 k1 l1 = .ok (bucketAt (built 4 myhashfunc
          [([97], 1, 1), ([98], 1, 2), ([99], 1, 3), ([100], 1, 4)]).heap hd).data) ∧
      ((bucketAt (built 4 myhashfunc
          [([97], 1, 1), ([98], 1, 2), ([99], 1, 3), ([100], 1, 4)]).heap hd).hash ≠
          myhashfunc [101] 1 → lookup s1 [101] 1 = .ok 5) :=
  resizing_store_keeps_head 4 myhashfunc (by decide) _
    (Reach.of_stores [([97], 1, 1), ([98], 1, 2), ([99], 1, 3), ([100], 1, 4)] Reach.new rfl)
    (by decide) [101] 1 5

end Htable
